import Mathlib

/-! Grouped message streams of libvgio.

A shallow embedding of the group writer `vg::stream::MessageEmitter`
(`message_emitter.cpp`) and of the group reader `vg::io::MessageIterator`
(`message_iterator.cpp`), with the properties of the format proved about them, and of
the quality strings and the two conversions of an alignment to a GAF record of
`alignment_io.cpp`.

Conventions of the embedding.

* A `std::string` is a list of byte values (`Bytes`).
* A C++ exception is an `Outcome.thrown`, which carries the object state at the
  point of the throw.
* `MAX_MESSAGE_SIZE` is declared in a header; it is a parameter `MAX` here.  The
  library calls that take an `int` (`SetTotalBytesLimit`, `ReadString`) receive
  values bounded by `MAX * 2`, so theorems that depend on them assume
  `MAX * 2 < 2 ^ 31`.
* `Registry::is_valid_tag` is a parameter `reg : Bytes → Bool`.
* `group_idx`, `group_vo` and `item_vo` are counters bounded by the number of
  bytes of the stream, far below `2 ^ 63`; they are kept unbounded.  Values decoded
  from or encoded to the wire are reduced modulo `2 ^ 32` or `2 ^ 64` as the code
  does.
-/

namespace vg

/-- A byte string. -/
abbrev Bytes := List Nat

/-- What went wrong when an operation does not return normally. -/
inductive Failure where
  /-- The runtime_error "message too large" of write and write_copy. -/
  | message_too_large
  /-- The runtime_error "I/O error writing protobuf" of emit_group. -/
  | write_error
  /-- An exception that leaves a group listener. -/
  | listener_error
  /-- The assertion that the output stream is still owned fails. -/
  | assertion
  /-- A size that does not fit the int parameter of WriteRaw. -/
  | undefined_size
  /-- The runtime_error "obsolete, invalid, or corrupt protobuf input" of handle. -/
  | corrupt_input
  /-- The runtime_error "tag of ... bytes is too long". -/
  | tag_too_long
  /-- The runtime_error "message of ... bytes is too long". -/
  | message_too_long
  /-- The loop of operator++ did not finish within the given number of rounds. -/
  | diverged
  deriving DecidableEq, Repr

/-- The result of an operation on an object of type σ: normal return, or an exception. -/
inductive Outcome (σ : Type) where
  | ok (state : σ)
  | thrown (why : Failure) (state : σ)
  deriving DecidableEq, Repr

/-! ## Varints of the protobuf coded streams -/

/-- The loop of CodedOutputStream::WriteVarint: seven bits per byte, least significant
group first, the high bit set on every byte but the last.  The first argument bounds
the number of continuation bytes. -/
def putVarint : Nat → Nat → Bytes
  | 0, n => [n]
  | fuel + 1, n => if n < 128 then [n] else (n % 128 + 128) :: putVarint fuel (n / 128)

/-- CodedOutputStream::WriteVarint64 of a value converted to uint64: at most ten bytes. -/
def WriteVarint64 (value : Nat) : Bytes := putVarint 9 (value % 2 ^ 64)

/-- CodedOutputStream::WriteVarint32 of a value converted to uint32: at most five bytes. -/
def WriteVarint32 (value : Nat) : Bytes := putVarint 4 (value % 2 ^ 32)

/-- The loop of CodedInputStream::ReadVarint64: reads at most `fuel` bytes; fails at the
end of the input and when the last allowed byte still has its continuation bit set.
Returns the value and the unread bytes; the bytes examined by a failed read are consumed. -/
def getVarint : Nat → Bytes → Nat → Nat → Option Nat × Bytes
  | 0, buf, _, _ => (none, buf)
  | _ + 1, [], _, _ => (none, [])
  | fuel + 1, b :: rest, mult, acc =>
    if b < 128 then (some (acc + b * mult), rest)
    else getVarint fuel rest (mult * 128) (acc + (b % 128) * mult)

/-- A CodedInputStream over a block-compressed input stream.  `buf` holds the bytes it
can still read: the unread bytes of the underlying stream, cut at the total bytes limit.
`count` is the number of bytes it has consumed. -/
structure CodedInputStream where
  buf : Bytes
  count : Nat
  deriving DecidableEq, Repr

namespace CodedInputStream

/-- ReadVarint64: a varint of at most ten bytes, kept modulo 2^64. -/
def ReadVarint64 (c : CodedInputStream) : Option Nat × CodedInputStream :=
  let r := getVarint 10 c.buf 1 0
  (r.1.map (fun v => v % 2 ^ 64), ⟨r.2, c.count + (c.buf.length - r.2.length)⟩)

/-- ReadVarint32: a varint of at most ten bytes, of which the low 32 bits are kept. -/
def ReadVarint32 (c : CodedInputStream) : Option Nat × CodedInputStream :=
  let r := getVarint 10 c.buf 1 0
  (r.1.map (fun v => v % 2 ^ 32), ⟨r.2, c.count + (c.buf.length - r.2.length)⟩)

/-- ReadString(buffer, size): the next `size` bytes; when fewer can be read it fails, having
stored what there was. -/
def ReadString (c : CodedInputStream) (size : Nat) : Bool × Bytes × CodedInputStream :=
  if size ≤ c.buf.length then (true, c.buf.take size, ⟨c.buf.drop size, c.count + size⟩)
  else (false, c.buf, ⟨[], c.count + c.buf.length⟩)

end CodedInputStream

/-! ## The group writer (message_emitter.cpp) -/

namespace stream

/-- Modelled from the spec: the block-compressed output stream primitive
(BlockedGzipOutputStream), which is not part of the sources at hand.  It offers
`tell() -> offset | unsupported`, `start_file()`, `end_file()` and byte writes with
error signalling.  `written` is the uncompressed content accepted so far; the offset
token of a position is the number of uncompressed bytes before it; `positioning` says
whether the stream can report positions; the backing stream reports an error on the
write that would exceed `capacity` (no bound when `none`); `started` and `ended` count
the start-of-file and end-of-file signals received. -/
structure BlockedGzipOutputStream where
  written : Bytes
  positioning : Bool
  capacity : Option Nat
  started : Nat
  ended : Nat
  deriving DecidableEq, Repr

namespace BlockedGzipOutputStream

/-- Modelled from the spec: Tell(), the current offset, or -1 when the stream does not
support positioning. -/
def Tell (s : BlockedGzipOutputStream) : Int :=
  if s.positioning then (s.written.length : Int) else -1

/-- Modelled from the spec: StartFile(), start-of-file framing. -/
def StartFile (s : BlockedGzipOutputStream) : BlockedGzipOutputStream :=
  { s with started := s.started + 1 }

/-- Modelled from the spec: EndFile(), end-of-file framing. -/
def EndFile (s : BlockedGzipOutputStream) : BlockedGzipOutputStream :=
  { s with ended := s.ended + 1 }

/-- Modelled from the spec: a write of bytes through a CodedOutputStream on the stream, with
the answer of `!HadError()` after it.  A failing write stores the bytes that still fit. -/
def put (s : BlockedGzipOutputStream) (bs : Bytes) : BlockedGzipOutputStream × Bool :=
  match s.capacity with
  | none => ({ s with written := s.written ++ bs }, true)
  | some cap =>
    if s.written.length + bs.length ≤ cap then ({ s with written := s.written ++ bs }, true)
    else ({ s with written := s.written ++ bs.take (cap - s.written.length) }, false)

end BlockedGzipOutputStream

/-- A group listener (listener_t): called with the group, its start offset and its end
offset.  The result says whether the call returns normally (`true`) or throws. -/
abbrev listener_t := List Bytes → Int → Int → Bool

/-- One invocation of a listener, as the listener observes it: which listener (its index
in registration order) was called with which arguments. -/
structure Call where
  listener : Nat
  messages : List Bytes
  start_offset : Int
  end_offset : Int
  deriving DecidableEq, Repr

/-- The state of a MessageEmitter.  `group`, `max_group_size`, `bgzip_out` (`none` when
the stream was moved away) and `group_handlers` are its members; `calls` records the
listener invocations made so far, oldest first. -/
structure MessageEmitter where
  group : List Bytes
  max_group_size : Nat
  bgzip_out : Option BlockedGzipOutputStream
  group_handlers : List listener_t
  calls : List Call

namespace MessageEmitter

/-- The constructor MessageEmitter(out, max_group_size): wraps the output stream, and
signals start of file when the stream does not know where it is. -/
def construct (out : BlockedGzipOutputStream) (max_group_size : Nat) : MessageEmitter :=
  { group := []
    max_group_size := max_group_size
    bgzip_out := some (if out.Tell = -1 then out.StartFile else out)
    group_handlers := []
    calls := [] }

/-- on_group: registers a listener after those already registered. -/
def on_group (e : MessageEmitter) (listener : listener_t) : MessageEmitter :=
  { e with group_handlers := e.group_handlers ++ [listener] }

/-- The loop over the messages of the group in emit_group: for each message its size as a
varint32, then its bytes, every write checked.  WriteRaw takes the size as an int; for a
message of 2^31 bytes or more the call is outside the contract of the library, and the
model stops there with `undefined_size`. -/
def write_messages : List Bytes → BlockedGzipOutputStream →
    BlockedGzipOutputStream × Option Failure
  | [], out => (out, none)
  | message :: rest, out =>
    match out.put (WriteVarint32 message.length) with
    | (out1, false) => (out1, some Failure.write_error)
    | (out1, true) =>
      if 2 ^ 31 ≤ message.length then (out1, some Failure.undefined_size)
      else
        match out1.put message with
        | (out2, false) => (out2, some Failure.write_error)
        | (out2, true) => write_messages rest out2

/-- The loop over the group handlers in emit_group: each listener in registration order;
the first one that throws ends the loop. -/
def run_handlers (group : List Bytes) (virtual_offset next_virtual_offset : Int) :
    Nat → List listener_t → List Call → List Call × Bool
  | _, [], calls => (calls, true)
  | i, handler :: rest, calls =>
    let calls1 := calls ++ [⟨i, group, virtual_offset, next_virtual_offset⟩]
    if handler group virtual_offset next_virtual_offset then
      run_handlers group virtual_offset next_virtual_offset (i + 1) rest calls1
    else (calls1, false)

/-- emit_group: writes the pending group, reports it to the listeners, clears the buffer. -/
def emit_group (e : MessageEmitter) : Outcome MessageEmitter :=
  if e.group.isEmpty then Outcome.ok e
  else
    match e.bgzip_out with
    | none => Outcome.thrown Failure.assertion e
    | some out =>
      let virtual_offset := out.Tell
      match out.put (WriteVarint64 e.group.length) with
      | (out1, false) => Outcome.thrown Failure.write_error { e with bgzip_out := some out1 }
      | (out1, true) =>
        match write_messages e.group out1 with
        | (out2, some why) => Outcome.thrown why { e with bgzip_out := some out2 }
        | (out2, none) =>
          let next_virtual_offset := out2.Tell
          match run_handlers e.group virtual_offset next_virtual_offset 0 e.group_handlers
              e.calls with
          | (calls1, false) =>
            Outcome.thrown Failure.listener_error { e with bgzip_out := some out2, calls := calls1 }
          | (calls1, true) =>
            Outcome.ok { e with group := [], bgzip_out := some out2, calls := calls1 }

/-- The first statement of write and write_copy: flush when the pending group is full. -/
def flush_if_full (e : MessageEmitter) : Outcome MessageEmitter :=
  if e.max_group_size ≤ e.group.length then emit_group e else Outcome.ok e

/-- write(string&&). -/
def write (MAX : Nat) (e : MessageEmitter) (message : Bytes) : Outcome MessageEmitter :=
  match flush_if_full e with
  | Outcome.thrown why e1 => Outcome.thrown why e1
  | Outcome.ok e1 =>
    let e2 := { e1 with group := e1.group ++ [message] }
    if MAX < message.length then Outcome.thrown Failure.message_too_large e2
    else Outcome.ok e2

/-- write_copy(const string&). -/
def write_copy (MAX : Nat) (e : MessageEmitter) (message : Bytes) : Outcome MessageEmitter :=
  match flush_if_full e with
  | Outcome.thrown why e1 => Outcome.thrown why e1
  | Outcome.ok e1 =>
    let e2 := { e1 with group := e1.group ++ [message] }
    if MAX < message.length then Outcome.thrown Failure.message_too_large e2
    else Outcome.ok e2

/-- The destructor: when the stream is still owned, emits the final group and ends the
file. -/
def destroy (e : MessageEmitter) : Outcome MessageEmitter :=
  match e.bgzip_out with
  | none => Outcome.ok e
  | some _ =>
    match emit_group e with
    | Outcome.thrown why e1 => Outcome.thrown why e1
    | Outcome.ok e1 => Outcome.ok { e1 with bgzip_out := e1.bgzip_out.map (fun s => s.EndFile) }

/-- A client that writes the messages one after the other with write, stopping at the
first exception. -/
def write_all (MAX : Nat) : MessageEmitter → List Bytes → Outcome MessageEmitter
  | e, [] => Outcome.ok e
  | e, message :: rest =>
    match write MAX e message with
    | Outcome.thrown why e1 => Outcome.thrown why e1
    | Outcome.ok e1 => write_all MAX e1 rest

/-- A client that writes the messages and then lets the emitter go out of scope. -/
def write_and_close (MAX : Nat) (e : MessageEmitter) (messages : List Bytes) :
    Outcome MessageEmitter :=
  match write_all MAX e messages with
  | Outcome.thrown why e1 => Outcome.thrown why e1
  | Outcome.ok e1 => destroy e1

end MessageEmitter

end stream

/-! ## The group reader (message_iterator.cpp) -/

namespace io

/-- Modelled from the spec: the block-compressed input stream primitive
(BlockedGzipInputStream), which is not part of the sources at hand.  It offers
`tell() -> offset | unsupported`, `seek(offset) -> bool` and byte reads.  `data` is the
uncompressed content of the stream, `pos` the number of bytes consumed; the offset token
of a position is the number of uncompressed bytes before it, as for the output stream;
`positioning` says whether the stream supports tell and seek. -/
structure BlockedGzipInputStream where
  data : Bytes
  pos : Nat
  positioning : Bool
  deriving DecidableEq, Repr

namespace BlockedGzipInputStream

/-- Modelled from the spec: Tell(), the current offset, or -1 when the stream does not
support positioning. -/
def Tell (s : BlockedGzipInputStream) : Int :=
  if s.positioning then (s.pos : Int) else -1

/-- Modelled from the spec: Seek(offset), which moves to an offset inside the stream or at
its end; it fails otherwise and on a stream that does not support positioning. -/
def Seek (s : BlockedGzipInputStream) (virtual_offset : Int) : BlockedGzipInputStream × Bool :=
  if s.positioning = true ∧ 0 ≤ virtual_offset ∧ virtual_offset.toNat ≤ s.data.length then
    ({ s with pos := virtual_offset.toNat }, true)
  else (s, false)

/-- A CodedInputStream created on the stream, with SetTotalBytesLimit(limit, limit): it can
read the unread bytes of the stream up to the limit. -/
def coded (s : BlockedGzipInputStream) (limit : Nat) : CodedInputStream :=
  ⟨(s.data.drop s.pos).take limit, 0⟩

/-- The stream after a CodedInputStream created on it has consumed its bytes and has been
destroyed. -/
def after (s : BlockedGzipInputStream) (c : CodedInputStream) : BlockedGzipInputStream :=
  { s with pos := s.pos + c.count }

end BlockedGzipInputStream

/-- A tagged message: the tag and the message, which is absent for a group that holds
only a tag. -/
abbrev TaggedMessage := Bytes × Option Bytes

/-- The state of a MessageIterator. -/
structure MessageIterator where
  value : TaggedMessage
  previous_tag : Bytes
  group_count : Nat
  group_idx : Nat
  group_vo : Int
  item_vo : Int
  bgzip_in : BlockedGzipInputStream
  deriving DecidableEq, Repr

/-- How one round of the while loop of operator++ ends: with a return from the function,
or at the end of the loop body, where the loop condition is tested again. -/
inductive Round where
  | returns (result : Outcome MessageIterator)
  | again (state : MessageIterator)
  deriving DecidableEq, Repr

namespace MessageIterator

/-- has_current. -/
def has_current (it : MessageIterator) : Bool := it.item_vo != -1

/-- The body of the while loop of operator++: starts a new group and reads its first
slot, the candidate tag.  A failed ReadVarint64 stores 0 in group_count.  The Tell()
between the two reads is taken to report the position after the bytes that the coded stream
has consumed. -/
def loop_body (MAX : Nat) (reg : Bytes → Bool) (it : MessageIterator) : Round :=
  let virtual_offset := it.bgzip_in.Tell
  let it1 := { it with
    group_vo := if virtual_offset = -1 then it.group_vo + 1 else virtual_offset
    group_idx := 0 }
  let coded_in := it.bgzip_in.coded (MAX * 2)
  match coded_in.ReadVarint64 with
  | (none, c1) =>
    Round.returns (Outcome.ok { it1 with
      group_count := 0, group_vo := -1, item_vo := -1, value := ([], none),
      bgzip_in := it.bgzip_in.after c1 })
  | (some count, c1) =>
    let it2 := { it1 with group_count := count }
    let virtual_offset := (it.bgzip_in.after c1).Tell
    match c1.ReadVarint32 with
    | (none, c2) =>
      Round.returns (Outcome.thrown Failure.corrupt_input
        { it2 with bgzip_in := it.bgzip_in.after c2 })
    | (some tagSize, c2) =>
      if MAX < tagSize then
        Round.returns (Outcome.thrown Failure.tag_too_long
          { it2 with bgzip_in := it.bgzip_in.after c2 })
      else
        match (if tagSize ≠ 0 then c2.ReadString tagSize else (true, [], c2)) with
        | (false, first, c3) =>
          Round.returns (Outcome.thrown Failure.corrupt_input
            { it2 with value := (first, it.value.2), bgzip_in := it.bgzip_in.after c3 })
        | (true, first, c3) =>
          let it3 := { it2 with
            item_vo := if virtual_offset = -1 then it.item_vo + 1 else virtual_offset
            group_idx := 1
            bgzip_in := it.bgzip_in.after c3 }
          let is_tag := (!it.previous_tag.isEmpty && it.previous_tag == first) || reg first
          if !is_tag then
            Round.returns (Outcome.ok { it3 with value := ([], some first), previous_tag := [] })
          else if count = 1 then
            Round.returns (Outcome.ok { it3 with value := (first, none), previous_tag := first })
          else
            Round.again { it3 with value := (first, it.value.2), previous_tag := first }

/-- The part of operator++ after the while loop: reads the next slot of the current group
as a message with the cached tag. -/
def read_message (MAX : Nat) (it : MessageIterator) : Outcome MessageIterator :=
  let virtual_offset := it.bgzip_in.Tell
  let coded_in := it.bgzip_in.coded (MAX * 2)
  let it1 := { it with item_vo := if virtual_offset = -1 then it.item_vo + 1 else virtual_offset }
  match coded_in.ReadVarint32 with
  | (none, c1) => Outcome.thrown Failure.corrupt_input { it1 with bgzip_in := it.bgzip_in.after c1 }
  | (some msgSize, c1) =>
    if MAX < msgSize then
      Outcome.thrown Failure.message_too_long { it1 with bgzip_in := it.bgzip_in.after c1 }
    else
      match (if msgSize ≠ 0 then c1.ReadString msgSize else (true, [], c1)) with
      | (false, message, c2) =>
        Outcome.thrown Failure.corrupt_input
          { it1 with value := (it.value.1, some message), bgzip_in := it.bgzip_in.after c2 }
      | (true, message, c2) =>
        Outcome.ok { it1 with
          value := (it.previous_tag, some message)
          group_idx := it.group_idx + 1
          bgzip_in := it.bgzip_in.after c2 }

/-- The while loop of operator++ followed by the rest of the function, with a bound on the
number of rounds of the loop; `none` when the bound is reached. -/
def increment (MAX : Nat) (reg : Bytes → Bool) : Nat → MessageIterator →
    Option (Outcome MessageIterator)
  | 0, _ => none
  | rounds + 1, it =>
    if it.group_count = it.group_idx then
      match loop_body MAX reg it with
      | Round.returns result => some result
      | Round.again it1 => increment MAX reg rounds it1
    else some (read_message MAX it)

/-- advance, that is operator++.  The loop never takes more than one round (see
`increment_rounds`), so a bound of two rounds is never reached. -/
def advance (MAX : Nat) (reg : Bytes → Bool) (it : MessageIterator) : Outcome MessageIterator :=
  match increment MAX reg 2 it with
  | some result => result
  | none => Outcome.thrown Failure.diverged it

/-- The constructor MessageIterator(bgzf): the initial members, then one advance. -/
def construct (MAX : Nat) (reg : Bytes → Bool) (bgzf : BlockedGzipInputStream) :
    Outcome MessageIterator :=
  advance MAX reg
    { value := ([], none)
      previous_tag := []
      group_count := 0
      group_idx := 0
      group_vo := -1
      item_vo := -1
      bgzip_in := bgzf }

/-- take: the current value, and the state after advance.  The value left behind by the
move has an empty tag and no message. -/
def take (MAX : Nat) (reg : Bytes → Bool) (it : MessageIterator) :
    TaggedMessage × Outcome MessageIterator :=
  (it.value, advance MAX reg { it with value := ([], none) })

/-- tell_group. -/
def tell_group (it : MessageIterator) : Int :=
  if it.bgzip_in.Tell ≠ -1 then
    if it.group_vo = -1 then it.bgzip_in.Tell else it.group_vo
  else -1

/-- seek_group: the outcome holds the returned bool next to the state. -/
def seek_group (MAX : Nat) (reg : Bytes → Bool) (it : MessageIterator) (virtual_offset : Int) :
    Outcome (Bool × MessageIterator) :=
  if virtual_offset < 0 then Outcome.ok (false, it)
  else if it.group_idx = 0 ∧ it.group_vo = virtual_offset then Outcome.ok (true, it)
  else
    match it.bgzip_in.Seek virtual_offset with
    | (_, false) => Outcome.ok (false, it)
    | (sought, true) =>
      match advance MAX reg { it with bgzip_in := sought, group_count := 0, group_idx := 0 } with
      | Outcome.thrown why it1 => Outcome.thrown why (false, it1)
      | Outcome.ok it1 => Outcome.ok (true, it1)

/-- A client loop `for (; it.has_current(); it.advance())` that collects the values it
sees, for at most `n` values: `none` when an advance throws or when a further value is
current after the `n`-th. -/
def collect (MAX : Nat) (reg : Bytes → Bool) : Nat → MessageIterator →
    Option (List TaggedMessage)
  | 0, it => if it.has_current then none else some []
  | n + 1, it =>
    if it.has_current then
      match advance MAX reg it with
      | Outcome.thrown _ _ => none
      | Outcome.ok it1 => (collect MAX reg n it1).map (fun rest => it.value :: rest)
    else some []

end MessageIterator

end io

/-! ## The wire format and the client-side notions used in the statements -/

namespace wire

/-- The standard base-128 varint of a natural number, as the format description has it:
seven bits per byte, least significant group first, the high bit set on every byte but the
last. -/
def varint (n : Nat) : Bytes :=
  if n < 128 then [n] else (n % 128 + 128) :: varint (n / 128)
decreasing_by omega

/-- `Slot := varint(byte_length) raw_bytes[byte_length]`. -/
def Slot (m : Bytes) : Bytes := varint m.length ++ m

/-- The slots of a group, one after the other. -/
def Slots : List Bytes → Bytes
  | [] => []
  | m :: ms => Slot m ++ Slots ms

/-- `Group := varint(message_count) Slot{message_count}`. -/
def Group (g : List Bytes) : Bytes := varint g.length ++ Slots g

/-- `File := Group*`. -/
def File : List (List Bytes) → Bytes
  | [] => []
  | g :: gs => Group g ++ File gs

end wire

namespace stream

/-- The groups that a sequence of writes flushes, and the group left pending, when the
writes start with the pending group `pending` and the group size is `k`: a write finds the
pending group full when it holds at least `k` messages, and flushes it when it is not
empty. -/
def batches (k : Nat) : List Bytes → List Bytes → List (List Bytes) × List Bytes
  | pending, [] => ([], pending)
  | pending, m :: ms =>
    if k ≤ pending.length ∧ pending ≠ [] then
      ((pending :: (batches k [m] ms).1), (batches k [m] ms).2)
    else batches k (pending ++ [m]) ms

/-- The groups flushed by a sequence of writes into a fresh emitter followed by its
destruction. -/
def flushed (k : Nat) (messages : List Bytes) : List (List Bytes) :=
  (batches k [] messages).1 ++
    (if (batches k [] messages).2 = [] then [] else [(batches k [] messages).2])

/-- The offset token a stream reports at byte position `p`. -/
def offset_at (positioning : Bool) (p : Nat) : Int := if positioning then (p : Int) else -1

/-- The invocations made for one flushed group by `n` listeners, in registration order. -/
def group_calls (g : List Bytes) (start_offset end_offset : Int) (n : Nat) : List Call :=
  (List.range n).map (fun i => ⟨i, g, start_offset, end_offset⟩)

/-- The invocations made for a sequence of flushed groups written from byte position
`base` on. -/
def file_calls (positioning : Bool) (n : Nat) : Nat → List (List Bytes) → List Call
  | _, [] => []
  | base, g :: gs =>
    group_calls g (offset_at positioning base)
        (offset_at positioning (base + (wire.Group g).length)) n ++
      file_calls positioning n (base + (wire.Group g).length) gs

/-- The number of invocations of listener `i` in a record of calls. -/
def times_called (i : Nat) (calls : List Call) : Nat :=
  (calls.filter (fun c => c.listener = i)).length

/-- The total number of messages reported to listener `i` in a record of calls. -/
def messages_reported (i : Nat) (calls : List Call) : Nat :=
  ((calls.filter (fun c => c.listener = i)).map (fun c => c.messages.length)).sum

end stream

namespace io

namespace MessageIterator

/-- The current value and the `n` values that follow it, read by `n` calls of advance;
`none` when one of these values is missing or an advance throws. -/
def values_from (MAX : Nat) (reg : Bytes → Bool) : Nat → MessageIterator →
    Option (List TaggedMessage)
  | 0, it => if it.has_current then some [it.value] else none
  | n + 1, it =>
    if it.has_current then
      match advance MAX reg it with
      | Outcome.thrown _ _ => none
      | Outcome.ok it1 => (values_from MAX reg n it1).map (fun rest => it.value :: rest)
    else none

/-- The reader states that a client can reach over a stream with content `data`: it
constructs the reader on the stream at some position, and then calls advance, take and
seek_group, going on only after calls that returned normally. -/
inductive Reachable (MAX : Nat) (reg : Bytes → Bool) (data : Bytes) (positioning : Bool) :
    MessageIterator → Prop where
  | constructed (pos : Nat) (it : MessageIterator) :
      construct MAX reg ⟨data, pos, positioning⟩ = Outcome.ok it →
      Reachable MAX reg data positioning it
  | advanced (it it1 : MessageIterator) :
      Reachable MAX reg data positioning it → advance MAX reg it = Outcome.ok it1 →
      Reachable MAX reg data positioning it1
  | taken (it it1 : MessageIterator) :
      Reachable MAX reg data positioning it → (take MAX reg it).2 = Outcome.ok it1 →
      Reachable MAX reg data positioning it1
  | sought (it it1 : MessageIterator) (virtual_offset : Int) (found : Bool) :
      Reachable MAX reg data positioning it →
      seek_group MAX reg it virtual_offset = Outcome.ok (found, it1) →
      Reachable MAX reg data positioning it1

/-- One step of a forward iteration: a call of advance, or a call of take, whose returned
value plays no part here. -/
def forward_step (MAX : Nat) (reg : Bytes → Bool) (it it1 : MessageIterator) : Prop :=
  advance MAX reg it = Outcome.ok it1 ∨ (take MAX reg it).2 = Outcome.ok it1

/-- The states of a forward iteration in which a group is current, each with the first
tagged message that was produced when that group was loaded: the constructor and a step at
a group boundary load a group, a step inside a group stays in it. -/
inductive InGroup (MAX : Nat) (reg : Bytes → Bool) (data : Bytes) (positioning : Bool) :
    MessageIterator → TaggedMessage → Prop where
  | constructed (pos : Nat) (it : MessageIterator) :
      construct MAX reg ⟨data, pos, positioning⟩ = Outcome.ok it → it.has_current = true →
      InGroup MAX reg data positioning it it.value
  | loaded (it it1 : MessageIterator) :
      Reachable MAX reg data positioning it → it.group_count = it.group_idx →
      forward_step MAX reg it it1 → it1.has_current = true →
      InGroup MAX reg data positioning it1 it1.value
  | next (it it1 : MessageIterator) (first : TaggedMessage) :
      InGroup MAX reg data positioning it first → it.group_count ≠ it.group_idx →
      forward_step MAX reg it it1 →
      InGroup MAX reg data positioning it1 first

end MessageIterator

/-- The tagged message of an ordinary message read without a tag in force. -/
def untagged (m : Bytes) : TaggedMessage := ([], some m)

/-- The groups of a file as the reader needs them: not empty, of a size that fits the count
varint, every message within the size limit, and a first message that is not a tag. -/
def readable_groups (MAX : Nat) (reg : Bytes → Bool) (gs : List (List Bytes)) : Prop :=
  ∀ g ∈ gs, g ≠ [] ∧ g.length < 2 ^ 64 ∧ (∀ m ∈ g, m.length ≤ MAX) ∧
    ∀ m, g.head? = some m → reg m = false

end io

namespace stream

/-- An emitter whose operations cannot fail for a reason other than an oversize message:
it owns a stream `out` that accepts every write, its listeners always return normally, and
its pending messages are within the size limit. -/
def unfailing (MAX : Nat) (e : MessageEmitter) (out : BlockedGzipOutputStream) : Prop :=
  e.bgzip_out = some out ∧ out.capacity = none ∧
    (∀ h ∈ e.group_handlers, ∀ g a b, h g a b = true) ∧ ∀ m ∈ e.group, m.length ≤ MAX

namespace MessageEmitter

/-- A client that registers the listeners in order with on_group. -/
def with_listeners (e : MessageEmitter) (listeners : List listener_t) : MessageEmitter :=
  listeners.foldl on_group e

/-- A client that writes the messages one after the other, each with write_copy when its
flag is set and with write otherwise, stopping at the first exception. -/
def write_each (MAX : Nat) : MessageEmitter → List (Bool × Bytes) → Outcome MessageEmitter
  | e, [] => Outcome.ok e
  | e, (copy, message) :: rest =>
    match (if copy then write_copy MAX e message else write MAX e message) with
    | Outcome.thrown why e1 => Outcome.thrown why e1
    | Outcome.ok e1 => write_each MAX e1 rest

/-- A client that writes the messages, each with write or write_copy, and then lets the
emitter go out of scope. -/
def write_each_and_close (MAX : Nat) (e : MessageEmitter) (writes : List (Bool × Bytes)) :
    Outcome MessageEmitter :=
  match write_each MAX e writes with
  | Outcome.thrown why e1 => Outcome.thrown why e1
  | Outcome.ok e1 => destroy e1

end MessageEmitter

end stream

namespace io

/-- What every reachable reader state satisfies: the cached tag is empty or accepted by the
registry, a state with group_idx = 0 has no group offset, and the stream is the one the
reader was constructed on. -/
def reader_invariant (reg : Bytes → Bool) (data : Bytes) (positioning : Bool)
    (it : MessageIterator) : Prop :=
  (it.previous_tag = [] ∨ reg it.previous_tag = true) ∧
    (it.group_idx = 0 → it.group_vo = -1) ∧
    it.bgzip_in.data = data ∧ it.bgzip_in.positioning = positioning

end io

namespace io

/-- What is left of a stream that ends before a complete slot: a length varint that is
missing or incomplete (every byte present has its continuation bit set), or a complete
length varint of a length within the size limit followed by fewer bytes than it declares. -/
def truncated_slot (MAX : Nat) (bs : Bytes) : Prop :=
  (∀ b ∈ bs, 128 ≤ b) ∨
    ∃ n payload, bs = wire.varint n ++ payload ∧ n ≤ MAX ∧ payload.length < n

namespace MessageIterator

/-- A client that calls advance `n` times, going on only after calls that returned normally;
`none` when a call throws. -/
def advances (MAX : Nat) (reg : Bytes → Bool) : Nat → MessageIterator → Option MessageIterator
  | 0, it => some it
  | n + 1, it =>
    match advance MAX reg it with
    | Outcome.thrown _ _ => none
    | Outcome.ok it1 => advances MAX reg n it1

end MessageIterator

end io

namespace io

/-- The ways in which the read of a slot fails for lack of bytes: the length varint cannot
be read, or a length within the limit is read and the bytes that follow are too few. -/
def slot_read_fails (MAX : Nat) (c : CodedInputStream) : Prop :=
  (c.ReadVarint32).1 = none ∨
    ∃ n c1, c.ReadVarint32 = (some n, c1) ∧ ¬ (MAX < n) ∧ n ≠ 0 ∧ (c1.ReadString n).1 = false

end io

namespace io

namespace MessageIterator

/-- The comparison operator==: the two readers agree on whether they hit the end. -/
def operator_eq (a b : MessageIterator) : Bool := a.has_current == b.has_current

/-- The comparison operator!=: the two readers disagree on whether they hit the end. -/
def operator_ne (a b : MessageIterator) : Bool := a.has_current != b.has_current

/-- In the words of the specification of take, "dereference followed by advance": the value
that operator* returns, and the outcome of advance from the same state. -/
def dereference_then_advance (MAX : Nat) (reg : Bytes → Bool) (it : MessageIterator) :
    TaggedMessage × Outcome MessageIterator :=
  (it.value, advance MAX reg it)

end MessageIterator

end io

namespace stream

/-- A record of listener invocations in which the end offset of every invocation is the
start offset of the one that follows it. -/
def offsets_chain : List Call → Prop
  | [] => True
  | [_] => True
  | c :: d :: rest => c.end_offset = d.start_offset ∧ offsets_chain (d :: rest)

end stream

namespace io

namespace MessageIterator

/-- A client loop `it.advance(); while (it.has_current()) { ...; it.advance(); }` that
collects the tagged messages produced by the advances that follow a state, for at most `n`
advances: it stops when the reader has no current item, and when an advance throws, in which
case the error is kept next to the messages. -/
def following (MAX : Nat) (reg : Bytes → Bool) : Nat → MessageIterator →
    List TaggedMessage × Option Failure
  | 0, _ => ([], none)
  | n + 1, it =>
    match advance MAX reg it with
    | Outcome.thrown why _ => ([], some why)
    | Outcome.ok it1 =>
      if it1.has_current then
        (it1.value :: (following MAX reg n it1).1, (following MAX reg n it1).2)
      else ([], none)

/-- Two reader states from which the same bytes are read in the same way: the bytes that
remain on their streams are the same, their cached tags are empty or accepted by the
registry, and either both are at a group boundary or they agree on the cached tag and on the
counters of the group. -/
def reads_alike (reg : Bytes → Bool) (a b : MessageIterator) : Prop :=
  (a.previous_tag = [] ∨ reg a.previous_tag = true) ∧
    (b.previous_tag = [] ∨ reg b.previous_tag = true) ∧
    -1 ≤ a.item_vo ∧ -1 ≤ b.item_vo ∧
    a.bgzip_in.data.drop a.bgzip_in.pos = b.bgzip_in.data.drop b.bgzip_in.pos ∧
    ((a.group_count = a.group_idx ∧ b.group_count = b.group_idx) ∨
      (a.previous_tag = b.previous_tag ∧ a.group_count = b.group_count ∧
        a.group_idx = b.group_idx))

/-- A group count that the reader reads in this state, which it does at a group boundary, is
at least 1. -/
def reads_positive_count (MAX : Nat) (it : MessageIterator) : Prop :=
  it.group_count = it.group_idx →
    ∀ count c1, (it.bgzip_in.coded (MAX * 2)).ReadVarint64 = (some count, c1) → 1 ≤ count

/-- The reader states that a client can reach over a stream with content `data` on which
every group count that the reader reads is at least 1: as `Reachable`, with the condition on
the count for the state from which each advance starts. -/
inductive ReachablePositive (MAX : Nat) (reg : Bytes → Bool) (data : Bytes)
    (positioning : Bool) : MessageIterator → Prop where
  | constructed (pos : Nat) (it : MessageIterator) :
      reads_positive_count MAX ⟨([], none), [], 0, 0, -1, -1, ⟨data, pos, positioning⟩⟩ →
      construct MAX reg ⟨data, pos, positioning⟩ = Outcome.ok it →
      ReachablePositive MAX reg data positioning it
  | advanced (it it1 : MessageIterator) :
      ReachablePositive MAX reg data positioning it → reads_positive_count MAX it →
      advance MAX reg it = Outcome.ok it1 →
      ReachablePositive MAX reg data positioning it1
  | taken (it it1 : MessageIterator) :
      ReachablePositive MAX reg data positioning it → reads_positive_count MAX it →
      (take MAX reg it).2 = Outcome.ok it1 →
      ReachablePositive MAX reg data positioning it1
  | sought (it it1 : MessageIterator) (virtual_offset : Int) (found : Bool) :
      ReachablePositive MAX reg data positioning it →
      (∀ sought, it.bgzip_in.Seek virtual_offset = (sought, true) →
        reads_positive_count MAX { it with bgzip_in := sought, group_count := 0, group_idx := 0 }) →
      seek_group MAX reg it virtual_offset = Outcome.ok (found, it1) →
      ReachablePositive MAX reg data positioning it1

end MessageIterator

end io

/-! ## Quality strings and GAF records (alignment_io.cpp)

  The sizes, offsets and lengths of this part (size_t, int32 and int64 values that are not
  negative in an alignment) are natural numbers and are kept unbounded, as are the int64
  members of a GAF record, which are integers.
-/

namespace io

/-- The value of a char that holds the byte `b`; whether char is signed depends on the
platform. -/
def char_value (char_signed : Bool) (b : Nat) : Int :=
  if char_signed = true ∧ 128 ≤ b then (b : Int) - 256 else (b : Int)

/-- The conversion of an integer value to char, as the byte it is stored in: the value
modulo 256. -/
def to_char (x : Int) : Nat := (x % 256).toNat

/-- quality_char_to_short: `static_cast<short>(c) - 33`. -/
def quality_char_to_short (char_signed : Bool) (c : Nat) : Int := char_value char_signed c - 33

/-- quality_short_to_char: `static_cast<char>(i + 33)`. -/
def quality_short_to_char (i : Int) : Nat := to_char (i + 33)

/-- string_quality_short_to_char: a buffer of the size of the string, filled position by
position with quality_short_to_char of the char at that position. -/
def string_quality_short_to_char (char_signed : Bool) (quality : Bytes) : Bytes :=
  quality.map (fun c => quality_short_to_char (char_value char_signed c))

/-- string_quality_char_to_short: a buffer of the size of the string, filled position by
position with quality_char_to_short of the char at that position, converted to char. -/
def string_quality_char_to_short (char_signed : Bool) (quality : Bytes) : Bytes :=
  quality.map (fun c => to_char (quality_char_to_short char_signed c))

/-- What makes a conversion of an alignment to GAF fail. -/
inductive ConversionError where
  /-- The std::out_of_range of string::substr and vector::at. -/
  | out_of_range
  /-- A failed assert. -/
  | assertion
  /-- The runtime_error "complex translations like this are not yet implemented" for a
  range that is translated to a number of ranges other than one. -/
  | complex_translation
  /-- The runtime_error "ended up on the opposite strand". -/
  | opposite_strand
  /-- The runtime_error "Split alignments cannot be converted to named-segment-space GAF". -/
  | split_alignment
  /-- The runtime_error "Alignments that become split in segment space cannot be converted
  to named-segment-space GAF". -/
  | split_in_segment_space
  deriving DecidableEq, Repr

/-- Modelled from the spec: the protobuf message Position, which is not part of the sources
at hand, with the fields that alignment_io.cpp reads. -/
structure Position where
  node_id : Int
  offset : Nat
  is_reverse : Bool
  deriving DecidableEq, Repr

/-- Modelled from the spec: the protobuf message Edit, which is not part of the sources at
hand. -/
structure Edit where
  from_length : Nat
  to_length : Nat
  sequence : String
  deriving DecidableEq, Repr

/-- Modelled from the spec: the protobuf message Mapping, which is not part of the sources
at hand. -/
structure Mapping where
  position : Position
  edit : List Edit
  deriving DecidableEq, Repr

/-- Modelled from the spec: a value of an annotation field, with the two readings that the
conversion uses. -/
structure AnnotationValue where
  bool_value : Bool
  string_value : String
  deriving DecidableEq, Repr

/-- Modelled from the spec: the protobuf message Alignment, which is not part of the sources
at hand, with the fields that the conversion to GAF reads.  `path` is absent when has_path()
is false.  Of the identity, a double, the model keeps what the conversion takes from it:
whether it is greater than 0, and the text that the stream prints for
`floor((1 - identity) * 10000 + 0.5) / 10000`.  `fragment_next` and `fragment_prev` hold the
name of the fragment when it is present, `annotation` the fields of the annotation when it
is present. -/
structure Alignment where
  name : String
  sequence : String
  mapping_quality : Int
  path : Option (List Mapping)
  identity_positive : Bool
  identity_dv : String
  score : Int
  quality : Bytes
  fragment_next : Option String
  fragment_prev : Option String
  annotation : Option (List (String × AnnotationValue))
  deriving DecidableEq, Repr

/-- Modelled from the spec: gafkluge::GafStep, which is not part of the sources at hand,
with the members that the conversion sets. -/
structure GafStep where
  name : String
  is_stable : Bool
  is_reverse : Bool
  is_interval : Bool
  deriving DecidableEq, Repr

/-- Modelled from the spec: gafkluge::GafRecord, which is not part of the sources at hand.
`residue_matches` is the member `matches`, whose name is a keyword here.  `opt_fields`, a map
from the tag to the pair of type and value, is the list of its entries in the order in which
their tags were first set. -/
structure GafRecord where
  query_name : String
  query_length : Int
  query_start : Int
  query_end : Int
  strand : Char
  path : List GafStep
  path_length : Int
  path_start : Int
  path_end : Int
  residue_matches : Int
  block_length : Int
  mapq : Int
  opt_fields : List (String × String × String)
  deriving DecidableEq, Repr

/-- Modelled from the spec: what alignment_io.cpp takes from headers that are not part of
the sources at hand: the classification of an edit (edit.hpp), the value and the test for a
missing integer and a default-constructed record (gafkluge.hpp), whether assert is compiled
in, and whether char is signed. -/
structure Library where
  edit_is_match : Edit → Bool
  edit_is_sub : Edit → Bool
  edit_is_deletion : Edit → Bool
  edit_is_insertion : Edit → Bool
  missing_int : Int
  is_missing : Int → Bool
  empty_record : GafRecord
  asserts : Bool
  char_signed : Bool

/-- The type handlegraph::oriented_node_range_t: node, orientation, offset, length. -/
abbrev oriented_node_range_t := Int × Bool × Nat × Nat

/-- Modelled from the spec: handlegraph::NamedNodeBackTranslation, which is not part of the
sources at hand. -/
structure NamedNodeBackTranslation where
  translate_back : oriented_node_range_t → List oriented_node_range_t
  get_back_graph_node_name : Int → String

/-- `opt_fields[tag] = make_pair(type, value)`. -/
def opt_set (fields : List (String × String × String)) (tag type value : String) :
    List (String × String × String) :=
  if fields.any (fun f => f.1 == tag) then
    fields.map (fun f => if f.1 == tag then (tag, type, value) else f)
  else fields ++ [(tag, type, value)]

/-- The string with the given bytes as its characters. -/
def text_of (bs : Bytes) : String := String.mk (bs.map Char.ofNat)

/-- std::string::substr(pos, len), and substr(pos) when `len` is absent: throws
std::out_of_range when pos is beyond the end of the string. -/
def substr (s : String) (pos : Nat) (len : Option Nat) : Except ConversionError String :=
  if s.length < pos then Except.error ConversionError.out_of_range
  else
    match len with
    | none => Except.ok (String.mk (s.toList.drop pos))
    | some n => Except.ok (String.mk ((s.toList.drop pos).take n))

/-- `substr(0, len)`, which cannot throw. -/
def substr_head (s : String) (len : Nat) : String := String.mk (s.toList.take len)

/-- `if (node_seq.empty()) node_seq = node_to_sequence(position.node_id(),
position.is_reverse());`. -/
def fetch (node_to_sequence : Int → Bool → String) (position : Position) (node_seq : String) :
    String :=
  if node_seq.isEmpty then node_to_sequence position.node_id position.is_reverse else node_seq

/-- What the loop over the edits of a mapping reads and writes: gaf.matches, the cs string,
the running match length, the cached sequence of the node, the offset cursor on the node and
the total length in the read. -/
structure EditScan where
  residue_matches : Int
  cs_cigar_str : String
  running_match_length : Nat
  node_seq : String
  offset : Nat
  total_to_len : Nat
  deriving DecidableEq, Repr

/-- The loop `for (size_t k = 0; k < edit.from_length(); ++k)` over the bases of a
substitution, with `n` rounds left at position `k`. -/
def scan_substitution (node_seq : String) (offset : Nat) (sequence : String) :
    Nat → Nat → String → Except ConversionError String
  | 0, _, cs => Except.ok cs
  | n + 1, k, cs =>
    match substr node_seq (offset + k) (some 1) with
    | Except.error e => Except.error e
    | Except.ok a =>
      match substr sequence k (some 1) with
      | Except.error e => Except.error e
      | Except.ok b => scan_substitution node_seq offset sequence n (k + 1) (cs ++ "*" ++ a ++ b)

/-- The body of the loop over the edits of a mapping, which is the same text in
alignment_to_gaf_old and in alignment_to_gaf. -/
def scan_edit (lib : Library) (node_to_sequence : Int → Bool → String) (position : Position)
    (cs_cigar : Bool) (st : EditScan) (edit : Edit) : Except ConversionError EditScan :=
  let st1 : EditScan :=
    if lib.edit_is_match edit then
      { st with residue_matches := st.residue_matches + (edit.from_length : Int) }
    else st
  let scanned : Except ConversionError EditScan :=
    if cs_cigar = true then
      if lib.edit_is_match edit then
        Except.ok { st1 with
          running_match_length := st1.running_match_length + edit.from_length }
      else
        let st2 : EditScan :=
          if 0 < st1.running_match_length then
            { st1 with
              cs_cigar_str := st1.cs_cigar_str ++ ":" ++ toString st1.running_match_length
              running_match_length := 0 }
          else st1
        if lib.edit_is_sub edit then
          match scan_substitution (fetch node_to_sequence position st2.node_seq) st2.offset
              edit.sequence edit.from_length 0 st2.cs_cigar_str with
          | Except.error e => Except.error e
          | Except.ok cs =>
            Except.ok { st2 with
              node_seq := fetch node_to_sequence position st2.node_seq
              cs_cigar_str := cs }
        else if lib.edit_is_deletion edit then
          if lib.asserts = true ∧
              (fetch node_to_sequence position st2.node_seq).length <
                st2.offset + edit.from_length then
            Except.error ConversionError.assertion
          else
            match substr (fetch node_to_sequence position st2.node_seq) st2.offset
                (some edit.from_length) with
            | Except.error e => Except.error e
            | Except.ok deleted =>
              Except.ok { st2 with
                node_seq := fetch node_to_sequence position st2.node_seq
                cs_cigar_str := st2.cs_cigar_str ++ "-" ++ deleted }
        else if lib.edit_is_insertion edit then
          Except.ok { st2 with cs_cigar_str := st2.cs_cigar_str ++ "+" ++ edit.sequence }
        else Except.ok st2
    else Except.ok st1
  match scanned with
  | Except.error e => Except.error e
  | Except.ok st3 =>
    Except.ok { st3 with
      offset := st3.offset + edit.from_length
      total_to_len := st3.total_to_len + edit.to_length }

/-- The loop over the edits of a mapping. -/
def scan_edits (lib : Library) (node_to_sequence : Int → Bool → String) (position : Position)
    (cs_cigar : Bool) : EditScan → List Edit → Except ConversionError EditScan
  | st, [] => Except.ok st
  | st, edit :: rest =>
    match scan_edit lib node_to_sequence position cs_cigar st edit with
    | Except.error e => Except.error e
    | Except.ok st1 => scan_edits lib node_to_sequence position cs_cigar st1 rest

/-- The start of both conversions, up to the loop over the mappings: name, query length and
mapping quality, and for an alignment with a path of at least one mapping the members that
are set before the loop. -/
def start_record (lib : Library) (aln : Alignment) : GafRecord :=
  { lib.empty_record with
    query_name := aln.name
    query_length := (aln.sequence.length : Int)
    mapq := aln.mapping_quality }

/-- The members that both conversions set before the loop over the mappings. -/
def start_path (lib : Library) (aln : Alignment) (gaf : GafRecord) : GafRecord :=
  { gaf with
    query_start := 0
    query_end := (aln.sequence.length : Int)
    strand := '+'
    path_length := 0
    path_start := lib.missing_int
    residue_matches := 0 }

/-- The end of both conversions, after the loop over the mappings, which is the same text in
alignment_to_gaf_old and in alignment_to_gaf: the last run of matches of the cs string, the
query length inferred from the edits, the block length, and the optional fields. -/
def finish_record (lib : Library) (aln : Alignment) (cs_cigar base_quals frag_links : Bool)
    (gaf : GafRecord) (cs_cigar_str : String) (running_match_length total_to_len : Nat) :
    GafRecord :=
  let cs : String :=
    if cs_cigar = true ∧ 0 < running_match_length then
      cs_cigar_str ++ ":" ++ toString running_match_length
    else cs_cigar_str
  let gaf1 : GafRecord :=
    if gaf.query_length = 0 ∧ 0 < total_to_len then
      { gaf with query_length := (total_to_len : Int), query_end := (total_to_len : Int) }
    else gaf
  let gaf2 : GafRecord :=
    { gaf1 with block_length := max (gaf1.path_end - gaf1.path_start) gaf1.query_length }
  let gaf3 : GafRecord :=
    if cs_cigar = true then { gaf2 with opt_fields := opt_set gaf2.opt_fields "cs" "Z" cs }
    else gaf2
  let gaf4 : GafRecord :=
    if aln.identity_positive = true then
      { gaf3 with opt_fields := opt_set gaf3.opt_fields "dv" "f" aln.identity_dv }
    else gaf3
  let gaf5 : GafRecord :=
    if 0 < aln.score then
      { gaf4 with opt_fields := opt_set gaf4.opt_fields "AS" "i" (toString aln.score) }
    else gaf4
  let gaf6 : GafRecord :=
    if base_quals = true ∧ aln.quality ≠ [] then
      { gaf5 with
        opt_fields := opt_set gaf5.opt_fields "bq" "Z"
          (text_of (string_quality_short_to_char lib.char_signed aln.quality)) }
    else gaf5
  let gaf7 : GafRecord :=
    if frag_links = true then
      match aln.fragment_next with
      | some next_name => { gaf6 with opt_fields := opt_set gaf6.opt_fields "fn" "Z" next_name }
      | none => gaf6
    else gaf6
  let gaf8 : GafRecord :=
    if frag_links = true then
      match aln.fragment_prev with
      | some prev_name => { gaf7 with opt_fields := opt_set gaf7.opt_fields "fp" "Z" prev_name }
      | none => gaf7
    else gaf7
  match aln.annotation with
  | none => gaf8
  | some fields =>
    let gaf9 : GafRecord :=
      match fields.lookup "proper_pair" with
      | some v =>
        { gaf8 with
          opt_fields := opt_set gaf8.opt_fields "pd" "b" (if v.bool_value then "1" else "0") }
      | none => gaf8
    match fields.lookup "support" with
    | some v => { gaf9 with opt_fields := opt_set gaf9.opt_fields "AD" "i" v.string_value }
    | none => gaf9

/-- The variables of alignment_to_gaf_old that live across the rounds of the loop over the
mappings. -/
structure OldLoop where
  gaf : GafRecord
  cs_cigar_str : String
  running_match_length : Nat
  total_to_len : Nat
  prev_offset : Nat
  deriving DecidableEq, Repr

/-- One round of the loop over the mappings in alignment_to_gaf_old.  `before` is
`mapping(i - 1)`, absent in the first round (i == 0), and `after` is `mapping(i + 1)`,
absent in the last round (i == mapping_size() - 1). -/
def alignment_to_gaf_old_mapping (lib : Library) (node_to_length : Int → Nat)
    (node_to_sequence : Int → Bool → String) (cs_cigar : Bool)
    (before : Option Mapping) (mapping : Mapping) (after : Option Mapping) (st : OldLoop) :
    Except ConversionError OldLoop :=
  let position := mapping.position
  let offset := position.offset
  -- gaf, skip_step, node_seq and cs_cigar_str before the loop over the edits
  let start : GafRecord × Bool × String × String :=
    match before with
    | none => ({ st.gaf with path_start := (offset : Int) }, false, "", st.cs_cigar_str)
    | some previous =>
      if cs_cigar = true ∧ 0 < offset then
        if offset = st.prev_offset ∧ position.node_id = previous.position.node_id ∧
            position.is_reverse = previous.position.is_reverse then
          (st.gaf, true, "", st.cs_cigar_str)
        else
          (st.gaf, false, fetch node_to_sequence position "",
            st.cs_cigar_str ++ "-" ++ substr_head (fetch node_to_sequence position "") offset)
      else (st.gaf, false, "", st.cs_cigar_str)
  match scan_edits lib node_to_sequence position cs_cigar
      ⟨start.1.residue_matches, start.2.2.2, st.running_match_length, start.2.2.1, offset,
        st.total_to_len⟩ mapping.edit with
  | Except.error e => Except.error e
  | Except.ok scanned =>
    let gaf1 : GafRecord := { start.1 with residue_matches := scanned.residue_matches }
    -- skip_step, cs_cigar_str and running_match_length after the test for the end of the node
    let hop : Except ConversionError (Bool × String × Nat) :=
      match after with
      | none => Except.ok (start.2.1, scanned.cs_cigar_str, scanned.running_match_length)
      | some following =>
        if scanned.offset ≠ node_to_length position.node_id then
          if position.node_id ≠ following.position.node_id ∨
              position.is_reverse ≠ following.position.is_reverse then
            match substr (fetch node_to_sequence position scanned.node_seq) scanned.offset
                none with
            | Except.error e => Except.error e
            | Except.ok rest =>
              if 0 < scanned.running_match_length then
                Except.ok (start.2.1,
                  scanned.cs_cigar_str ++ ":" ++ toString scanned.running_match_length ++
                    "-" ++ rest, 0)
              else
                Except.ok (start.2.1, scanned.cs_cigar_str ++ "-" ++ rest,
                  scanned.running_match_length)
          else Except.ok (true, scanned.cs_cigar_str, scanned.running_match_length)
        else Except.ok (start.2.1, scanned.cs_cigar_str, scanned.running_match_length)
    match hop with
    | Except.error e => Except.error e
    | Except.ok (skip_step, cs, running) =>
      let gaf2 : GafRecord :=
        if skip_step = true then gaf1
        else
          { gaf1 with
            path_length := gaf1.path_length + (node_to_length position.node_id : Int)
            path_start :=
              match before with
              | none => (position.offset : Int)
              | some _ => gaf1.path_start
            path := gaf1.path ++ [⟨toString position.node_id, false, position.is_reverse, false⟩] }
      match after with
      | some _ =>
        Except.ok ⟨gaf2, cs, running, scanned.total_to_len, scanned.offset⟩
      | none =>
        if (scanned.offset : Int) < gaf2.path_length then
          if lib.asserts = true ∧ lib.is_missing gaf2.path_start = true then
            Except.error ConversionError.assertion
          else
            Except.ok ⟨{ gaf2 with
              path_end := gaf2.path_length - 1 -
                ((node_to_length position.node_id : Int) - (scanned.offset : Int)) },
              cs, running, scanned.total_to_len, scanned.offset⟩
        else
          Except.ok ⟨{ gaf2 with path_end := gaf2.path_start }, cs, running,
            scanned.total_to_len, scanned.offset⟩

/-- The loop over the mappings in alignment_to_gaf_old. -/
def alignment_to_gaf_old_loop (lib : Library) (node_to_length : Int → Nat)
    (node_to_sequence : Int → Bool → String) (cs_cigar : Bool) :
    Option Mapping → List Mapping → OldLoop → Except ConversionError OldLoop
  | _, [], st => Except.ok st
  | before, mapping :: rest, st =>
    match alignment_to_gaf_old_mapping lib node_to_length node_to_sequence cs_cigar before
        mapping rest.head? st with
    | Except.error e => Except.error e
    | Except.ok st1 =>
      alignment_to_gaf_old_loop lib node_to_length node_to_sequence cs_cigar (some mapping)
        rest st1

/-- The function alignment_to_gaf_old(node_to_length, node_to_sequence, aln, cs_cigar,
base_quals, frag_links). -/
def alignment_to_gaf_old (lib : Library) (node_to_length : Int → Nat)
    (node_to_sequence : Int → Bool → String) (aln : Alignment)
    (cs_cigar base_quals frag_links : Bool) : Except ConversionError GafRecord :=
  match aln.path with
  | none => Except.ok (start_record lib aln)
  | some [] => Except.ok (start_record lib aln)
  | some (mapping :: rest) =>
    match alignment_to_gaf_old_loop lib node_to_length node_to_sequence cs_cigar none
        (mapping :: rest) ⟨start_path lib aln (start_record lib aln), "", 0, 0, 0⟩ with
    | Except.error e => Except.error e
    | Except.ok st =>
      Except.ok (finish_record lib aln cs_cigar base_quals frag_links st.gaf st.cs_cigar_str
        st.running_match_length st.total_to_len)

/-- The variables of alignment_to_gaf that live across the rounds of the loop over the
mappings. -/
structure NewLoop where
  gaf : GafRecord
  cs_cigar_str : String
  running_match_length : Nat
  total_to_len : Nat
  prev_offset : Nat
  prev_range : oriented_node_range_t
  deriving DecidableEq, Repr

/-- The variables that the loop of alignment_to_gaf has in common with the loop of
alignment_to_gaf_old. -/
def NewLoop.to_old (st : NewLoop) : OldLoop :=
  ⟨st.gaf, st.cs_cigar_str, st.running_match_length, st.total_to_len, st.prev_offset⟩

/-- One round of the loop over the mappings in alignment_to_gaf.  `before` is
`mapping(i - 1)`, absent in the first round (i == 0), and `after` is `mapping(i + 1)`,
absent in the last round (i == mapping_size() - 1). -/
def alignment_to_gaf_mapping (lib : Library) (node_to_length : Int → Nat)
    (node_to_sequence : Int → Bool → String)
    (translate_through : Option NamedNodeBackTranslation) (cs_cigar : Bool)
    (before : Option Mapping) (mapping : Mapping) (after : Option Mapping) (st : NewLoop) :
    Except ConversionError NewLoop :=
  let position := mapping.position
  let start_offset_on_node := position.offset
  let node_length := node_to_length position.node_id
  match scan_edits lib node_to_sequence position cs_cigar
      ⟨st.gaf.residue_matches, st.cs_cigar_str, st.running_match_length, "", start_offset_on_node,
        st.total_to_len⟩ mapping.edit with
  | Except.error e => Except.error e
  | Except.ok scanned =>
    let gaf1 : GafRecord := { st.gaf with residue_matches := scanned.residue_matches }
    let node_range : oriented_node_range_t :=
      (position.node_id, position.is_reverse, start_offset_on_node,
        scanned.offset - start_offset_on_node)
    -- range and node_to_segment_offset after the translation
    let translation : Except ConversionError (oriented_node_range_t × Int) :=
      match translate_through with
      | none => Except.ok (node_range, 0)
      | some translator =>
        match translator.translate_back node_range with
        | [translated_range] =>
          if translated_range.2.1 ≠ node_range.2.1 then
            Except.error ConversionError.opposite_strand
          else
            Except.ok (translated_range,
              (translated_range.2.2.1 : Int) - (node_range.2.2.1 : Int))
        | _ => Except.error ConversionError.complex_translation
    match translation with
    | Except.error e => Except.error e
    | Except.ok (range, node_to_segment_offset) =>
      -- gaf, skip_step, node_seq and cs_cigar_str after the test for the start of the node
      let start : Except ConversionError (GafRecord × Bool × String × String) :=
        match before with
        | none =>
          Except.ok ({ gaf1 with path_start := (range.2.2.1 : Int) }, false, scanned.node_seq,
            scanned.cs_cigar_str)
        | some previous =>
          if cs_cigar = true ∧ 0 < start_offset_on_node then
            if start_offset_on_node = st.prev_offset ∧
                position.node_id = previous.position.node_id ∧
                position.is_reverse = previous.position.is_reverse then
              Except.ok (gaf1, true, scanned.node_seq, scanned.cs_cigar_str)
            else if translate_through.isSome then
              Except.error ConversionError.split_alignment
            else
              Except.ok (gaf1, false, fetch node_to_sequence position scanned.node_seq,
                scanned.cs_cigar_str ++ "-" ++
                  substr_head (fetch node_to_sequence position scanned.node_seq)
                    start_offset_on_node)
          else Except.ok (gaf1, false, scanned.node_seq, scanned.cs_cigar_str)
      match start with
      | Except.error e => Except.error e
      | Except.ok (gaf2, skip0, node_seq, cs0) =>
        -- skip_step, cs_cigar_str and running_match_length after the test for the end of the
        -- node
        let hop : Except ConversionError (Bool × String × Nat) :=
          match after with
          | none => Except.ok (skip0, cs0, scanned.running_match_length)
          | some following =>
            if scanned.offset ≠ node_length then
              if position.node_id ≠ following.position.node_id ∨
                  position.is_reverse ≠ following.position.is_reverse then
                if translate_through.isSome then
                  Except.error ConversionError.split_alignment
                else
                  match substr (fetch node_to_sequence position node_seq) scanned.offset
                      none with
                  | Except.error e => Except.error e
                  | Except.ok rest =>
                    if 0 < scanned.running_match_length then
                      Except.ok (skip0,
                        cs0 ++ ":" ++ toString scanned.running_match_length ++ "-" ++ rest, 0)
                    else Except.ok (skip0, cs0 ++ "-" ++ rest, scanned.running_match_length)
              else Except.ok (true, cs0, scanned.running_match_length)
            else Except.ok (skip0, cs0, scanned.running_match_length)
        match hop with
        | Except.error e => Except.error e
        | Except.ok (skip1, cs, running) =>
          -- the step of the path
          let stepped : Except ConversionError GafRecord :=
            if skip1 = true then Except.ok gaf2
            else
              let gaf3 : GafRecord :=
                { gaf2 with path_length := gaf2.path_length + (node_length : Int) }
              let step : GafStep :=
                ⟨match translate_through with
                  | some translator => translator.get_back_graph_node_name range.1
                  | none => toString range.1,
                  false, range.2.1, false⟩
              match before with
              | none =>
                Except.ok { gaf3 with
                  path_start := (range.2.2.1 : Int)
                  path_length := gaf3.path_length + node_to_segment_offset
                  path := gaf3.path ++ [step] }
              | some _ =>
                if translate_through.isSome ∧ range.1 = st.prev_range.1 ∧
                    range.2.1 = st.prev_range.2.1 then
                  if range.2.2.1 = st.prev_range.2.2.1 + st.prev_range.2.2.2 then
                    Except.ok gaf3
                  else if range.2.2.1 ≠ 0 then
                    Except.error ConversionError.split_in_segment_space
                  else Except.ok { gaf3 with path := gaf3.path ++ [step] }
                else Except.ok { gaf3 with path := gaf3.path ++ [step] }
          match stepped with
          | Except.error e => Except.error e
          | Except.ok gaf4 =>
            match after with
            | some _ =>
              Except.ok ⟨gaf4, cs, running, scanned.total_to_len, scanned.offset, range⟩
            | none =>
              -- the end of the path, in the last round
              let ended : Except ConversionError GafRecord :=
                if (scanned.offset : Int) + node_to_segment_offset < gaf4.path_length then
                  if lib.asserts = true ∧ lib.is_missing gaf4.path_start = true then
                    Except.error ConversionError.assertion
                  else
                    Except.ok { gaf4 with
                      path_end := gaf4.path_length - 1 -
                        ((node_length : Int) -
                          ((scanned.offset : Int) + node_to_segment_offset)) }
                else Except.ok { gaf4 with path_end := gaf4.path_start }
              match ended with
              | Except.error e => Except.error e
              | Except.ok gaf5 =>
                match translate_through with
                | none =>
                  Except.ok ⟨gaf5, cs, running, scanned.total_to_len, scanned.offset, range⟩
                | some translator =>
                  match translator.translate_back
                      (position.node_id, !position.is_reverse, 0, 0) with
                  | [] => Except.error ConversionError.out_of_range
                  | stop :: _ =>
                    Except.ok ⟨{ gaf5 with
                      path_length := gaf5.path_length + (stop.2.2.1 : Int) },
                      cs, running, scanned.total_to_len, scanned.offset, range⟩

/-- The loop over the mappings in alignment_to_gaf. -/
def alignment_to_gaf_loop (lib : Library) (node_to_length : Int → Nat)
    (node_to_sequence : Int → Bool → String)
    (translate_through : Option NamedNodeBackTranslation) (cs_cigar : Bool) :
    Option Mapping → List Mapping → NewLoop → Except ConversionError NewLoop
  | _, [], st => Except.ok st
  | before, mapping :: rest, st =>
    match alignment_to_gaf_mapping lib node_to_length node_to_sequence translate_through
        cs_cigar before mapping rest.head? st with
    | Except.error e => Except.error e
    | Except.ok st1 =>
      alignment_to_gaf_loop lib node_to_length node_to_sequence translate_through cs_cigar
        (some mapping) rest st1

/-- The function alignment_to_gaf(node_to_length, node_to_sequence, aln, translate_through,
cs_cigar, base_quals, frag_links); `translate_through` is absent for a null pointer. -/
def alignment_to_gaf (lib : Library) (node_to_length : Int → Nat)
    (node_to_sequence : Int → Bool → String) (aln : Alignment)
    (translate_through : Option NamedNodeBackTranslation)
    (cs_cigar base_quals frag_links : Bool) : Except ConversionError GafRecord :=
  match aln.path with
  | none => Except.ok (start_record lib aln)
  | some [] => Except.ok (start_record lib aln)
  | some (mapping :: rest) =>
    match alignment_to_gaf_loop lib node_to_length node_to_sequence translate_through cs_cigar
        none (mapping :: rest)
        ⟨start_path lib aln (start_record lib aln), "", 0, 0, 0, (0, false, 0, 0)⟩ with
    | Except.error e => Except.error e
    | Except.ok st =>
      Except.ok (finish_record lib aln cs_cigar base_quals frag_links st.gaf st.cs_cigar_str
        st.running_match_length st.total_to_len)

end io

/-! # Theorems -/

open stream io

/-! ## Varints and coded streams -/

theorem putVarint_length (fuel n : Nat) : (putVarint fuel n).length ≤ fuel + 1 := by
  induction fuel generalizing n with
  | zero => simp [putVarint]
  | succ k ih =>
    unfold putVarint
    split
    · simp
    · have := ih (n / 128)
      simp only [List.length_cons]
      omega

theorem getVarint_putVarint (fuel : Nat) : ∀ (f n : Nat) (rest : Bytes) (mult acc : Nat),
    fuel < f → n < 128 ^ (fuel + 1) →
    getVarint f (putVarint fuel n ++ rest) mult acc = (some (acc + n * mult), rest) := by
  induction fuel with
  | zero =>
    intro f n rest mult acc hf hn
    obtain ⟨g, rfl⟩ : ∃ g, f = g + 1 := ⟨f - 1, by omega⟩
    have hn' : n < 128 := by simpa using hn
    simp [putVarint, getVarint, hn']
  | succ k ih =>
    intro f n rest mult acc hf hn
    obtain ⟨g, rfl⟩ : ∃ g, f = g + 1 := ⟨f - 1, by omega⟩
    unfold putVarint
    by_cases h : n < 128
    · simp [h, getVarint]
    · have hlt : n / 128 < 128 ^ (k + 1) := by
        rw [Nat.div_lt_iff_lt_mul (by norm_num)]
        calc n < 128 ^ (k + 1 + 1) := hn
          _ = 128 ^ (k + 1) * 128 := by ring
      have hb : ¬ (n % 128 + 128 < 128) := by omega
      have hm : (n % 128 + 128) % 128 = n % 128 := by omega
      simp only [h, if_false, List.cons_append, getVarint, hb, hm]
      rw [ih g (n / 128) rest (mult * 128) (acc + n % 128 * mult) (by omega) hlt]
      congr 2
      have := Nat.mod_add_div n 128
      calc acc + n % 128 * mult + n / 128 * (mult * 128)
          = acc + (n % 128 + 128 * (n / 128)) * mult := by ring
        _ = acc + n * mult := by rw [this]

theorem putVarint_eq_varint (fuel : Nat) : ∀ n : Nat, n < 128 ^ (fuel + 1) →
    putVarint fuel n = wire.varint n := by
  induction fuel with
  | zero =>
    intro n hn
    have hn' : n < 128 := by simpa using hn
    rw [wire.varint]
    simp [putVarint, hn']
  | succ k ih =>
    intro n hn
    rw [wire.varint]
    unfold putVarint
    by_cases h : n < 128
    · simp [h]
    · have hlt : n / 128 < 128 ^ (k + 1) := by
        rw [Nat.div_lt_iff_lt_mul (by norm_num)]
        calc n < 128 ^ (k + 1 + 1) := hn
          _ = 128 ^ (k + 1) * 128 := by ring
      simp only [h, if_false]
      rw [ih _ hlt]

theorem WriteVarint64_eq (n : Nat) (h : n < 2 ^ 64) : WriteVarint64 n = wire.varint n := by
  unfold WriteVarint64
  rw [Nat.mod_eq_of_lt h]
  exact putVarint_eq_varint 9 n (lt_trans h (by norm_num))

theorem WriteVarint32_eq (n : Nat) (h : n < 2 ^ 32) : WriteVarint32 n = wire.varint n := by
  unfold WriteVarint32
  rw [Nat.mod_eq_of_lt h]
  exact putVarint_eq_varint 4 n (lt_trans h (by norm_num))

theorem varint_length_64 (n : Nat) (h : n < 2 ^ 64) : (wire.varint n).length ≤ 10 := by
  rw [← putVarint_eq_varint 9 n (lt_trans h (by norm_num))]
  exact putVarint_length 9 n

theorem varint_length_32 (n : Nat) (h : n < 2 ^ 32) : (wire.varint n).length ≤ 5 := by
  rw [← putVarint_eq_varint 4 n (lt_trans h (by norm_num))]
  exact putVarint_length 4 n

theorem getVarint_varint (n : Nat) (h : n < 2 ^ 64) (rest : Bytes) :
    getVarint 10 (wire.varint n ++ rest) 1 0 = (some n, rest) := by
  rw [← putVarint_eq_varint 9 n (lt_trans h (by norm_num))]
  have := getVarint_putVarint 9 10 n rest 1 0 (by norm_num) (lt_trans h (by norm_num))
  simpa using this

theorem ReadVarint64_varint (n : Nat) (h : n < 2 ^ 64) (rest : Bytes) (c : Nat) :
    CodedInputStream.ReadVarint64 ⟨wire.varint n ++ rest, c⟩ =
      (some n, ⟨rest, c + (wire.varint n).length⟩) := by
  have h' : n % 2 ^ 64 = n := Nat.mod_eq_of_lt h
  simp only [CodedInputStream.ReadVarint64, getVarint_varint n h rest, Option.map_some', h']
  simp

theorem ReadVarint32_varint (n : Nat) (h : n < 2 ^ 32) (rest : Bytes) (c : Nat) :
    CodedInputStream.ReadVarint32 ⟨wire.varint n ++ rest, c⟩ =
      (some n, ⟨rest, c + (wire.varint n).length⟩) := by
  have h64 : n < 2 ^ 64 := lt_trans h (by norm_num)
  have h' : n % 2 ^ 32 = n := Nat.mod_eq_of_lt h
  simp only [CodedInputStream.ReadVarint32, getVarint_varint n h64 rest, Option.map_some', h']
  simp

theorem ReadString_append (m rest : Bytes) (c : Nat) :
    CodedInputStream.ReadString ⟨m ++ rest, c⟩ m.length = (true, m, ⟨rest, c + m.length⟩) := by
  simp [CodedInputStream.ReadString]

/-! ## Single steps of the reader -/

theorem take_append_pre (a t : Bytes) (n : Nat) (h : a.length ≤ n) :
    (a ++ t).take n = a ++ t.take (n - a.length) := by
  rw [List.take_append_eq_append_take, List.take_of_length_le h]

/-- The bytes a coded stream sees when the unread bytes of the stream start with `a`. -/
theorem coded_of_drop (s : BlockedGzipInputStream) (a t : Bytes) (limit : Nat)
    (hd : s.data.drop s.pos = a ++ t) (h : a.length ≤ limit) :
    s.coded limit = ⟨a ++ t.take (limit - a.length), 0⟩ := by
  simp [BlockedGzipInputStream.coded, hd, take_append_pre a t limit h]

theorem Tell_ite (s : BlockedGzipInputStream) (x : Int) :
    (if s.Tell = -1 then x else s.Tell) = if s.positioning = true then (s.pos : Int) else x := by
  unfold BlockedGzipInputStream.Tell
  cases s.positioning
  · simp
  · have : ((s.pos : Int) = -1) = False := by
      apply propext
      constructor
      · intro h; omega
      · intro h; exact h.elim
    simp [this]

theorem after_Tell_ite (s : BlockedGzipInputStream) (c : CodedInputStream) (x : Int) :
    (if (s.after c).Tell = -1 then x else (s.after c).Tell) =
      if s.positioning = true then ((s.pos + c.count : Nat) : Int) else x := by
  rw [Tell_ite]
  simp [BlockedGzipInputStream.after]

theorem read_slot_bytes (s r : Bytes) (k : Nat) :
    (if s.length ≠ 0 then (⟨s ++ r, k⟩ : CodedInputStream).ReadString s.length
      else (true, [], ⟨s ++ r, k⟩)) = (true, s, ⟨r, k + s.length⟩) := by
  by_cases h0 : s.length = 0
  · have hnil : s = [] := List.length_eq_zero.mp h0
    subst hnil
    simp
  · simp only [ne_eq, h0, not_false_eq_true, if_true]
    exact ReadString_append s r k

/-- An advance at a group boundary whose first slot is not a tag. -/
theorem advance_first_message (MAX : Nat) (reg : Bytes → Bool) (it : MessageIterator)
    (c : Nat) (s tail : Bytes)
    (hb : it.group_count = it.group_idx)
    (hd : it.bgzip_in.data.drop it.bgzip_in.pos = wire.varint c ++ (wire.Slot s ++ tail))
    (hc : c < 2 ^ 64) (hs : s.length ≤ MAX) (hlo : 15 ≤ MAX) (hhi : MAX * 2 < 2 ^ 31)
    (hreg : reg s = false) (hprev : ¬ (it.previous_tag ≠ [] ∧ it.previous_tag = s)) :
    MessageIterator.advance MAX reg it = Outcome.ok
      { it with
        value := ([], some s)
        previous_tag := []
        group_count := c
        group_idx := 1
        group_vo := if it.bgzip_in.positioning = true then (it.bgzip_in.pos : Int) else it.group_vo + 1
        item_vo :=
          if it.bgzip_in.positioning = true then
            ((it.bgzip_in.pos + (wire.varint c).length : Nat) : Int)
          else it.item_vo + 1
        bgzip_in := { it.bgzip_in with
          pos := it.bgzip_in.pos + ((wire.varint c).length + (wire.Slot s).length) } } := by
  have hs32 : s.length < 2 ^ 32 := by omega
  have hl1 := varint_length_64 c hc
  have hl2 := varint_length_32 s.length hs32
  have hcoded := coded_of_drop it.bgzip_in (wire.varint c ++ wire.Slot s) tail (MAX * 2)
    (by simpa using hd) (by simp [wire.Slot]; omega)
  have hnot : ¬ (MAX < s.length) := by omega
  have hp : (!it.previous_tag.isEmpty && it.previous_tag == s) = false := by
    cases hpt : it.previous_tag with
    | nil => simp
    | cons a l =>
      have : ¬ (a :: l = s) := by
        intro h
        exact hprev ⟨by simp [hpt], by simpa [hpt] using h⟩
      simp [this]
  simp only [MessageIterator.advance, MessageIterator.increment, hb, if_true,
    MessageIterator.loop_body, hcoded]
  rw [List.append_assoc, ReadVarint64_varint c hc]
  simp only [wire.Slot, List.append_assoc]
  rw [ReadVarint32_varint s.length hs32]
  simp only [hnot, if_false]
  rw [read_slot_bytes]
  simp only [hp, hreg, Bool.or_false, Bool.not_false, if_true, Tell_ite, after_Tell_ite]
  simp [BlockedGzipInputStream.after, Nat.add_assoc]

/-- An advance at a group boundary that finds a group holding only a tag. -/
theorem advance_tag_only (MAX : Nat) (reg : Bytes → Bool) (it : MessageIterator)
    (t tail : Bytes)
    (hb : it.group_count = it.group_idx)
    (hd : it.bgzip_in.data.drop it.bgzip_in.pos = wire.varint 1 ++ (wire.Slot t ++ tail))
    (hs : t.length ≤ MAX) (hlo : 15 ≤ MAX) (hhi : MAX * 2 < 2 ^ 31)
    (htag : reg t = true ∨ (it.previous_tag ≠ [] ∧ it.previous_tag = t)) :
    MessageIterator.advance MAX reg it = Outcome.ok
      { it with
        value := (t, none)
        previous_tag := t
        group_count := 1
        group_idx := 1
        group_vo := if it.bgzip_in.positioning = true then (it.bgzip_in.pos : Int) else it.group_vo + 1
        item_vo :=
          if it.bgzip_in.positioning = true then
            ((it.bgzip_in.pos + (wire.varint 1).length : Nat) : Int)
          else it.item_vo + 1
        bgzip_in := { it.bgzip_in with
          pos := it.bgzip_in.pos + ((wire.varint 1).length + (wire.Slot t).length) } } := by
  have hc : (1 : Nat) < 2 ^ 64 := by norm_num
  have hs32 : t.length < 2 ^ 32 := by omega
  have hl1 := varint_length_64 1 hc
  have hl2 := varint_length_32 t.length hs32
  have hcoded := coded_of_drop it.bgzip_in (wire.varint 1 ++ wire.Slot t) tail (MAX * 2)
    (by simpa using hd) (by simp [wire.Slot]; omega)
  have hnot : ¬ (MAX < t.length) := by omega
  have hp : ((!it.previous_tag.isEmpty && it.previous_tag == t) || reg t) = true := by
    rw [Bool.or_eq_true]
    rcases htag with h | ⟨h1, h2⟩
    · exact Or.inr h
    · have : it.previous_tag.isEmpty = false := by
        cases hpt : it.previous_tag with
        | nil => exact absurd hpt h1
        | cons a l => rfl
      left
      rw [this, h2]
      simp
  simp only [MessageIterator.advance, MessageIterator.increment, hb, if_true,
    MessageIterator.loop_body, hcoded]
  rw [List.append_assoc, ReadVarint64_varint 1 hc]
  simp only [wire.Slot, List.append_assoc]
  rw [ReadVarint32_varint t.length hs32]
  simp only [hnot, if_false]
  rw [read_slot_bytes]
  simp only [hp, Bool.not_true, Bool.false_eq_true, if_false, if_true, Tell_ite, after_Tell_ite]
  simp [BlockedGzipInputStream.after, Nat.add_assoc]

/-- An advance inside a group reads the next slot as a message with the cached tag. -/
theorem advance_next_message (MAX : Nat) (reg : Bytes → Bool) (it : MessageIterator)
    (m tail : Bytes)
    (hb : it.group_count ≠ it.group_idx)
    (hd : it.bgzip_in.data.drop it.bgzip_in.pos = wire.Slot m ++ tail)
    (hs : m.length ≤ MAX) (hlo : 15 ≤ MAX) (hhi : MAX * 2 < 2 ^ 31) :
    MessageIterator.advance MAX reg it = Outcome.ok
      { it with
        value := (it.previous_tag, some m)
        group_idx := it.group_idx + 1
        item_vo := if it.bgzip_in.positioning = true then (it.bgzip_in.pos : Int) else it.item_vo + 1
        bgzip_in := { it.bgzip_in with pos := it.bgzip_in.pos + (wire.Slot m).length } } := by
  have hs32 : m.length < 2 ^ 32 := by omega
  have hl2 := varint_length_32 m.length hs32
  have hcoded := coded_of_drop it.bgzip_in (wire.Slot m) tail (MAX * 2) hd
    (by simp [wire.Slot]; omega)
  have hnot : ¬ (MAX < m.length) := by omega
  simp only [MessageIterator.advance, MessageIterator.increment, hb, if_false,
    MessageIterator.read_message, hcoded]
  simp only [wire.Slot, List.append_assoc]
  rw [ReadVarint32_varint m.length hs32]
  simp only [hnot, if_false]
  rw [read_slot_bytes]
  simp only [Tell_ite]
  simp [BlockedGzipInputStream.after]

/-- An advance at a group boundary at the end of the stream. -/
theorem advance_at_end (MAX : Nat) (reg : Bytes → Bool) (it : MessageIterator)
    (hb : it.group_count = it.group_idx)
    (hd : it.bgzip_in.data.drop it.bgzip_in.pos = []) :
    MessageIterator.advance MAX reg it = Outcome.ok
      { it with
        value := ([], none)
        group_count := 0
        group_idx := 0
        group_vo := -1
        item_vo := -1 } := by
  simp [MessageIterator.advance, MessageIterator.increment, hb, MessageIterator.loop_body,
    BlockedGzipInputStream.coded, hd, CodedInputStream.ReadVarint64, getVarint,
    BlockedGzipInputStream.after]

/-! ## The loop of operator++ -/

/-- When a round of the loop reaches the end of the loop body, the loop condition is
false: the first slot was taken and the group holds more than that slot. -/
theorem loop_body_again (MAX : Nat) (reg : Bytes → Bool) (it it1 : MessageIterator)
    (h : MessageIterator.loop_body MAX reg it = Round.again it1) :
    it1.group_count ≠ it1.group_idx := by
  unfold MessageIterator.loop_body at h
  simp only at h
  split at h
  · simp at h
  · split at h
    · simp at h
    · split at h
      · simp at h
      · split at h
        · simp at h
        · split at h
          · simp at h
          · split at h
            · simp at h
            · rename_i hc1
              simp only [Round.again.injEq] at h
              subst h
              simpa using hc1

/-- The loop of operator++ takes at most one round: every bound of at least two rounds
gives the result of advance, and advance never reports divergence of itself. -/
theorem increment_rounds (MAX : Nat) (reg : Bytes → Bool) (it : MessageIterator) (n : Nat) :
    MessageIterator.increment MAX reg (n + 2) it = some (MessageIterator.advance MAX reg it) := by
  unfold MessageIterator.advance
  by_cases hb : it.group_count = it.group_idx
  · cases hl : MessageIterator.loop_body MAX reg it with
    | returns r => simp [MessageIterator.increment, hb, hl]
    | again it1 =>
      have h1 := loop_body_again MAX reg it it1 hl
      simp [MessageIterator.increment, hb, hl, h1]
  · simp [MessageIterator.increment, hb]

/-! ## Reading a well-framed file -/

theorem drop_after (data a t : Bytes) (pos : Nat) (hd : data.drop pos = a ++ t) :
    data.drop (pos + a.length) = t := by
  rw [← List.drop_drop, hd, List.drop_left]

theorem has_current_of_nonneg (it : MessageIterator) (h : 0 ≤ it.item_vo) :
    it.has_current = true := by
  simp only [MessageIterator.has_current, bne_iff_ne, ne_eq]
  omega

/-- The step inside a group, by its effect on the fields. -/
theorem next_message_step (MAX : Nat) (reg : Bytes → Bool) (it : MessageIterator)
    (m tail : Bytes)
    (hb : it.group_count ≠ it.group_idx)
    (hd : it.bgzip_in.data.drop it.bgzip_in.pos = wire.Slot m ++ tail)
    (hs : m.length ≤ MAX) (hlo : 15 ≤ MAX) (hhi : MAX * 2 < 2 ^ 31) :
    ∃ it1, MessageIterator.advance MAX reg it = Outcome.ok it1 ∧
      it1.value = (it.previous_tag, some m) ∧ it1.previous_tag = it.previous_tag ∧
      it1.group_count = it.group_count ∧ it1.group_idx = it.group_idx + 1 ∧
      it1.group_vo = it.group_vo ∧ (-1 ≤ it.item_vo → 0 ≤ it1.item_vo) ∧
      it1.bgzip_in.data = it.bgzip_in.data ∧
      it1.bgzip_in.positioning = it.bgzip_in.positioning ∧
      it1.bgzip_in.pos = it.bgzip_in.pos + (wire.Slot m).length ∧
      it1.bgzip_in.data.drop it1.bgzip_in.pos = tail := by
  refine ⟨_, advance_next_message MAX reg it m tail hb hd hs hlo hhi, rfl, rfl, rfl, rfl, rfl,
    ?_, rfl, rfl, rfl, ?_⟩
  · intro h
    show (0 : Int) ≤ (if it.bgzip_in.positioning = true then (it.bgzip_in.pos : Int)
      else it.item_vo + 1)
    split <;> omega
  · exact drop_after _ _ _ _ hd

/-- The step that loads a group whose first slot is not a tag, by its effect on the
fields. -/
theorem first_message_step (MAX : Nat) (reg : Bytes → Bool) (it : MessageIterator)
    (c : Nat) (s tail : Bytes)
    (hb : it.group_count = it.group_idx)
    (hd : it.bgzip_in.data.drop it.bgzip_in.pos = wire.varint c ++ (wire.Slot s ++ tail))
    (hc : c < 2 ^ 64) (hs : s.length ≤ MAX) (hlo : 15 ≤ MAX) (hhi : MAX * 2 < 2 ^ 31)
    (hreg : reg s = false) (hprev : ¬ (it.previous_tag ≠ [] ∧ it.previous_tag = s)) :
    ∃ it1, MessageIterator.advance MAX reg it = Outcome.ok it1 ∧
      it1.value = untagged s ∧ it1.previous_tag = [] ∧
      it1.group_count = c ∧ it1.group_idx = 1 ∧
      (it.bgzip_in.positioning = true → it1.group_vo = (it.bgzip_in.pos : Int)) ∧
      (-1 ≤ it.item_vo → 0 ≤ it1.item_vo) ∧
      it1.bgzip_in.data = it.bgzip_in.data ∧
      it1.bgzip_in.positioning = it.bgzip_in.positioning ∧
      it1.bgzip_in.pos = it.bgzip_in.pos + ((wire.varint c).length + (wire.Slot s).length) ∧
      it1.bgzip_in.data.drop it1.bgzip_in.pos = tail := by
  refine ⟨_, advance_first_message MAX reg it c s tail hb hd hc hs hlo hhi hreg hprev,
    rfl, rfl, rfl, rfl, ?_, ?_, rfl, rfl, rfl, ?_⟩
  · intro h
    show (if it.bgzip_in.positioning = true then (it.bgzip_in.pos : Int) else it.group_vo + 1) = _
    simp [h]
  · intro h
    show (0 : Int) ≤ (if it.bgzip_in.positioning = true then
      ((it.bgzip_in.pos + (wire.varint c).length : Nat) : Int) else it.item_vo + 1)
    split <;> omega
  · have := drop_after it.bgzip_in.data (wire.varint c ++ wire.Slot s) tail it.bgzip_in.pos
      (by simpa [List.append_assoc] using hd)
    simpa [List.length_append] using this

/-- Inside a group, with no tag in force: the reader yields the remaining messages of the
group and then the messages of the groups that follow, and stops at the end of the
stream. -/
theorem collect_rest (MAX : Nat) (reg : Bytes → Bool) (hlo : 15 ≤ MAX) (hhi : MAX * 2 < 2 ^ 31)
    (gs : List (List Bytes)) :
    ∀ (ms : List Bytes) (it : MessageIterator),
      0 ≤ it.item_vo → it.previous_tag = [] →
      it.group_count = it.group_idx + ms.length →
      it.bgzip_in.data.drop it.bgzip_in.pos = wire.Slots ms ++ wire.File gs →
      (∀ m ∈ ms, m.length ≤ MAX) → readable_groups MAX reg gs →
      MessageIterator.collect MAX reg (ms.length + gs.flatten.length + 1) it =
        some (it.value :: (ms ++ gs.flatten).map untagged) := by
  have inner : ∀ (gs : List (List Bytes)),
      (∀ (it : MessageIterator), 0 ≤ it.item_vo → it.previous_tag = [] →
        it.group_count = it.group_idx →
        it.bgzip_in.data.drop it.bgzip_in.pos = wire.File gs →
        MessageIterator.collect MAX reg (gs.flatten.length + 1) it =
          some (it.value :: gs.flatten.map untagged)) →
      ∀ (ms : List Bytes) (it : MessageIterator),
      0 ≤ it.item_vo → it.previous_tag = [] →
      it.group_count = it.group_idx + ms.length →
      it.bgzip_in.data.drop it.bgzip_in.pos = wire.Slots ms ++ wire.File gs →
      (∀ m ∈ ms, m.length ≤ MAX) →
      MessageIterator.collect MAX reg (ms.length + gs.flatten.length + 1) it =
        some (it.value :: (ms ++ gs.flatten).map untagged) := by
    intro gs hbase ms
    induction ms with
    | nil =>
      intro it hcur hprev hcnt hd _
      have := hbase it hcur hprev (by simpa using hcnt) (by simpa [wire.Slots] using hd)
      simpa using this
    | cons m ms ih =>
      intro it hcur hprev hcnt hd hms
      have hb : it.group_count ≠ it.group_idx := by simp at hcnt; omega
      have hd' : it.bgzip_in.data.drop it.bgzip_in.pos =
          wire.Slot m ++ (wire.Slots ms ++ wire.File gs) := by
        simpa [wire.Slots, List.append_assoc] using hd
      obtain ⟨it1, hstep, hv, hp, hgc, hgi, _, hiv, _, _, _, hd1⟩ :=
        next_message_step MAX reg it m _ hb hd' (hms m (by simp)) hlo hhi
      have hrec := ih it1 (hiv (by omega)) (by rw [hp, hprev])
        (by rw [hgc, hgi, hcnt]; simp; omega) hd1 (fun x hx => hms x (by simp [hx]))
      have hfuel : (m :: ms).length + gs.flatten.length + 1 =
          (ms.length + gs.flatten.length + 1) + 1 := by simp; omega
      rw [hfuel, MessageIterator.collect]
      simp only [has_current_of_nonneg it hcur, if_true, hstep]
      rw [hrec, hv, hprev]
      simp [untagged]
  induction gs with
  | nil =>
    intro ms it hcur hprev hcnt hd hms _
    refine inner [] ?_ ms it hcur hprev hcnt hd hms
    intro it hcur _ hb hd
    have hd' : it.bgzip_in.data.drop it.bgzip_in.pos = [] := by simpa [wire.File] using hd
    have hfuel : ([] : List (List Bytes)).flatten.length + 1 = 0 + 1 := by simp
    rw [hfuel, MessageIterator.collect]
    simp only [has_current_of_nonneg it hcur, if_true, advance_at_end MAX reg it hb hd']
    simp [MessageIterator.collect, MessageIterator.has_current]
  | cons g gs ihg =>
    intro ms it hcur hprev hcnt hd hms hgs
    refine inner (g :: gs) ?_ ms it hcur hprev hcnt hd hms
    intro it hcur hprev hb hd
    obtain ⟨hne, hlen, hsz, hreg⟩ := hgs g (by simp)
    obtain ⟨m, ms', rfl⟩ : ∃ m ms', g = m :: ms' := by
      cases g with
      | nil => exact absurd rfl hne
      | cons a l => exact ⟨a, l, rfl⟩
    have hd' : it.bgzip_in.data.drop it.bgzip_in.pos =
        wire.varint (m :: ms').length ++ (wire.Slot m ++ (wire.Slots ms' ++ wire.File gs)) := by
      simpa [wire.Slots, wire.File, wire.Group, List.append_assoc] using hd
    obtain ⟨it1, hstep, hv, hp, hgc, hgi, _, hiv, _, _, _, hd1⟩ :=
      first_message_step MAX reg it _ m _ hb hd' hlen (hsz m (by simp)) hlo hhi
        (hreg m rfl) (by simp [hprev])
    have hrec := ihg ms' it1 (hiv (by omega)) hp (by rw [hgc, hgi]; simp; omega) hd1
      (fun x hx => hsz x (by simp [hx])) (fun g' hg' => hgs g' (by simp [hg']))
    have hfuel : ((m :: ms') :: gs).flatten.length + 1 =
        (ms'.length + gs.flatten.length + 1) + 1 := by simp
    rw [hfuel, MessageIterator.collect]
    simp only [has_current_of_nonneg it hcur, if_true, hstep]
    rw [hrec, hv]
    simp

/-- At a group boundary: the reader yields the messages of the groups that follow and stops
at the end of the stream, provided the first message is not the cached tag. -/
theorem collect_file (MAX : Nat) (reg : Bytes → Bool) (hlo : 15 ≤ MAX) (hhi : MAX * 2 < 2 ^ 31)
    (gs : List (List Bytes)) (it : MessageIterator)
    (hiv : -1 ≤ it.item_vo) (hb : it.group_count = it.group_idx)
    (hd : it.bgzip_in.data.drop it.bgzip_in.pos = wire.File gs)
    (hgs : readable_groups MAX reg gs)
    (hprev : ∀ g m, gs.head? = some g → g.head? = some m →
      ¬ (it.previous_tag ≠ [] ∧ it.previous_tag = m)) :
    ∃ it1, MessageIterator.advance MAX reg it = Outcome.ok it1 ∧
      MessageIterator.collect MAX reg gs.flatten.length it1 = some (gs.flatten.map untagged) := by
  cases gs with
  | nil =>
    have hd' : it.bgzip_in.data.drop it.bgzip_in.pos = [] := by simpa [wire.File] using hd
    refine ⟨_, advance_at_end MAX reg it hb hd', ?_⟩
    simp [MessageIterator.collect, MessageIterator.has_current]
  | cons g gs =>
    obtain ⟨hne, hlen, hsz, hreg⟩ := hgs g (by simp)
    obtain ⟨m, ms, rfl⟩ : ∃ m ms, g = m :: ms := by
      cases g with
      | nil => exact absurd rfl hne
      | cons a l => exact ⟨a, l, rfl⟩
    have hd' : it.bgzip_in.data.drop it.bgzip_in.pos =
        wire.varint (m :: ms).length ++ (wire.Slot m ++ (wire.Slots ms ++ wire.File gs)) := by
      simpa [wire.Slots, wire.File, wire.Group, List.append_assoc] using hd
    obtain ⟨it1, hstep, hv, hp, hgc, hgi, _, hiv1, _, _, _, hd1⟩ :=
      first_message_step MAX reg it _ m _ hb hd' hlen (hsz m (by simp)) hlo hhi
        (hreg m rfl) (hprev (m :: ms) m rfl rfl)
    refine ⟨it1, hstep, ?_⟩
    have hrec := collect_rest MAX reg hlo hhi gs ms it1 (hiv1 hiv) hp
      (by rw [hgc, hgi]; simp; omega) hd1
      (fun x hx => hsz x (by simp [hx])) (fun g' hg' => hgs g' (by simp [hg']))
    have hfuel : ((m :: ms) :: gs).flatten.length = ms.length + gs.flatten.length + 1 := by
      simp
    rw [hfuel, hrec, hv]
    simp

/-! ## Single steps of the writer -/

theorem put_ok (s s1 : BlockedGzipOutputStream) (bs : Bytes) (h : s.put bs = (s1, true)) :
    s1 = { s with written := s.written ++ bs } := by
  unfold BlockedGzipOutputStream.put at h
  split at h
  · simp only [Prod.mk.injEq, and_true] at h
    exact h.symm
  · split at h
    · simp only [Prod.mk.injEq, and_true] at h
      exact h.symm
    · simp at h

theorem put_unbounded (s : BlockedGzipOutputStream) (bs : Bytes) (h : s.capacity = none) :
    s.put bs = ({ s with written := s.written ++ bs }, true) := by
  unfold BlockedGzipOutputStream.put
  simp [h]

/-- The slots of a group as emit_group writes them. -/
theorem write_messages_ok (g : List Bytes) :
    ∀ (out out2 : BlockedGzipOutputStream), MessageEmitter.write_messages g out = (out2, none) →
      out2 = { out with written := out.written ++ wire.Slots g } ∧ ∀ m ∈ g, m.length < 2 ^ 31 := by
  induction g with
  | nil =>
    intro out out2 h
    simp only [MessageEmitter.write_messages, Prod.mk.injEq, and_true] at h
    subst h
    simp [wire.Slots]
  | cons m ms ih =>
    intro out out2 h
    unfold MessageEmitter.write_messages at h
    cases hp : out.put (WriteVarint32 m.length) with
    | mk out1 b1 =>
      rw [hp] at h
      cases b1 with
      | false => simp at h
      | true =>
        simp only at h
        by_cases hbig : 2 ^ 31 ≤ m.length
        · rw [if_pos hbig] at h
          simp at h
        · rw [if_neg hbig] at h
          cases hq : out1.put m with
          | mk out3 b3 =>
            rw [hq] at h
            cases b3 with
            | false => simp at h
            | true =>
              simp only at h
              obtain ⟨h2, h3⟩ := ih out3 out2 h
              have e1 := put_ok _ _ _ hp
              have e3 := put_ok _ _ _ hq
              have hm : m.length < 2 ^ 31 := by omega
              have hv : WriteVarint32 m.length = wire.varint m.length :=
                WriteVarint32_eq _ (lt_trans hm (by norm_num))
              refine ⟨?_, ?_⟩
              · rw [h2, e3, e1, hv]
                simp [wire.Slots, wire.Slot, List.append_assoc]
              · intro x hx
                rcases List.mem_cons.mp hx with rfl | hx
                · exact hm
                · exact h3 x hx

theorem write_messages_unbounded (g : List Bytes) :
    ∀ (out : BlockedGzipOutputStream), out.capacity = none → (∀ m ∈ g, m.length < 2 ^ 31) →
      MessageEmitter.write_messages g out =
        ({ out with written := out.written ++ wire.Slots g }, none) := by
  induction g with
  | nil =>
    intro out _ _
    simp [MessageEmitter.write_messages, wire.Slots]
  | cons m ms ih =>
    intro out hcap hsz
    have hm : m.length < 2 ^ 31 := hsz m (by simp)
    have hv : WriteVarint32 m.length = wire.varint m.length :=
      WriteVarint32_eq _ (lt_trans hm (by norm_num))
    have hbig : ¬ (2 ^ 31 ≤ m.length) := by omega
    unfold MessageEmitter.write_messages
    rw [put_unbounded _ _ hcap]
    simp only [hbig, if_false]
    rw [put_unbounded _ _ (by simpa using hcap)]
    simp only
    rw [ih _ (by simpa using hcap) (fun x hx => hsz x (by simp [hx]))]
    simp [wire.Slots, wire.Slot, hv, List.append_assoc]

theorem run_handlers_ok (g : List Bytes) (a b : Int) (hs : List listener_t) :
    ∀ (i : Nat) (calls calls1 : List Call),
      MessageEmitter.run_handlers g a b i hs calls = (calls1, true) →
      calls1 = calls ++ (List.range' i hs.length).map (fun j => ⟨j, g, a, b⟩) := by
  induction hs with
  | nil =>
    intro i calls calls1 h
    simp only [MessageEmitter.run_handlers, Prod.mk.injEq, and_true] at h
    simp [h]
  | cons h0 hs ih =>
    intro i calls calls1 h
    unfold MessageEmitter.run_handlers at h
    simp only at h
    by_cases hh : h0 g a b = true
    · simp only [hh, if_true] at h
      rw [ih _ _ _ h]
      simp [List.range'_succ]
    · simp [hh] at h

theorem run_handlers_all (g : List Bytes) (a b : Int) (hs : List listener_t)
    (hall : ∀ h ∈ hs, h g a b = true) :
    ∀ (i : Nat) (calls : List Call),
      MessageEmitter.run_handlers g a b i hs calls =
        (calls ++ (List.range' i hs.length).map (fun j => ⟨j, g, a, b⟩), true) := by
  induction hs with
  | nil =>
    intro i calls
    simp [MessageEmitter.run_handlers]
  | cons h0 hs ih =>
    intro i calls
    unfold MessageEmitter.run_handlers
    simp only [hall h0 (by simp), if_true]
    rw [ih (fun h hh => hall h (by simp [hh]))]
    simp [List.range'_succ]

/-- A flush that returns normally has appended the pending group in wire format, and has
told every listener. -/
theorem emit_group_ok (e e1 : MessageEmitter) (hne : e.group ≠ []) (hlen : e.group.length < 2 ^ 64)
    (h : MessageEmitter.emit_group e = Outcome.ok e1) :
    ∃ out, e.bgzip_out = some out ∧
      e1 = { e with
        group := []
        bgzip_out := some { out with written := out.written ++ wire.Group e.group }
        calls := e.calls ++ group_calls e.group (offset_at out.positioning out.written.length)
          (offset_at out.positioning (out.written.length + (wire.Group e.group).length))
          e.group_handlers.length } := by
  unfold MessageEmitter.emit_group at h
  have hemp : e.group.isEmpty = false := by
    cases hg : e.group with
    | nil => exact absurd hg hne
    | cons a l => rfl
  simp only [hemp, Bool.false_eq_true, if_false] at h
  cases hout : e.bgzip_out with
  | none => simp [hout] at h
  | some out =>
    refine ⟨out, rfl, ?_⟩
    simp only [hout] at h
    cases hp : out.put (WriteVarint64 e.group.length) with
    | mk out1 b1 =>
      rw [hp] at h
      cases b1 with
      | false => simp at h
      | true =>
        simp only at h
        cases hw : MessageEmitter.write_messages e.group out1 with
        | mk out2 r =>
          rw [hw] at h
          cases r with
          | some why => simp at h
          | none =>
            simp only at h
            cases hr : MessageEmitter.run_handlers e.group out.Tell out2.Tell 0 e.group_handlers
                e.calls with
            | mk calls1 b2 =>
              rw [hr] at h
              cases b2 with
              | false => simp at h
              | true =>
                simp only [Outcome.ok.injEq] at h
                have e1' := put_ok _ _ _ hp
                obtain ⟨e2', _⟩ := write_messages_ok _ _ _ hw
                have hc := run_handlers_ok _ _ _ _ _ _ _ hr
                rw [← h, hc, e2', e1', WriteVarint64_eq _ hlen]
                simp [wire.Group, group_calls, offset_at, BlockedGzipOutputStream.Tell,
                  List.range_eq_range', List.append_assoc, hout]

theorem emit_group_unfailing (MAX : Nat) (hhi : MAX * 2 < 2 ^ 31) (e : MessageEmitter)
    (out : BlockedGzipOutputStream) (hu : unfailing MAX e out)
    (hne : e.group ≠ []) (hlen : e.group.length < 2 ^ 64) :
    MessageEmitter.emit_group e = Outcome.ok
      { e with
        group := []
        bgzip_out := some { out with written := out.written ++ wire.Group e.group }
        calls := e.calls ++ group_calls e.group (offset_at out.positioning out.written.length)
          (offset_at out.positioning (out.written.length + (wire.Group e.group).length))
          e.group_handlers.length } := by
  obtain ⟨hout, hcap, hls, hsz⟩ := hu
  have hemp : e.group.isEmpty = false := by
    cases hg : e.group with
    | nil => exact absurd hg hne
    | cons a l => rfl
  unfold MessageEmitter.emit_group
  simp only [hemp, Bool.false_eq_true, if_false, hout]
  rw [put_unbounded _ _ hcap]
  simp only
  rw [write_messages_unbounded _ _ (by simpa using hcap) (fun m hm => by
    have := hsz m hm
    omega)]
  simp only
  rw [run_handlers_all _ _ _ _ (fun h hh => hls h hh _ _ _)]
  simp [wire.Group, group_calls, offset_at, BlockedGzipOutputStream.Tell,
    List.range_eq_range', List.append_assoc, WriteVarint64_eq _ hlen]

theorem file_calls_append (p : Bool) (n : Nat) (gs gs1 : List (List Bytes)) :
    ∀ base : Nat, file_calls p n base (gs ++ gs1) =
      file_calls p n base gs ++ file_calls p n (base + (wire.File gs).length) gs1 := by
  induction gs with
  | nil => intro base; simp [file_calls, wire.File]
  | cons g gs ih =>
    intro base
    simp [file_calls, wire.File, ih, List.append_assoc, Nat.add_assoc]

theorem File_append (gs gs1 : List (List Bytes)) :
    wire.File (gs ++ gs1) = wire.File gs ++ wire.File gs1 := by
  induction gs with
  | nil => simp [wire.File]
  | cons g gs ih => simp [wire.File, ih, List.append_assoc]

/-- The pending group never grows beyond the group size (or one message, for a group size
of zero). -/
theorem batches_pending_length (k : Nat) (ms : List Bytes) :
    ∀ p : List Bytes, p.length ≤ max k 1 → (batches k p ms).2.length ≤ max k 1 := by
  induction ms with
  | nil => intro p hp; simpa [batches] using hp
  | cons m ms ih =>
    intro p hp
    unfold batches
    split
    · exact ih [m] (by simp)
    · rename_i hc
      apply ih
      simp only [List.length_append, List.length_singleton]
      by_cases hpn : p = []
      · subst hpn; simp
      · have : ¬ (k ≤ p.length) := fun h => hc ⟨h, hpn⟩
        omega

/-- What a sequence of writes does on an emitter that cannot fail. -/
theorem write_all_unfailing (MAX : Nat) (hhi : MAX * 2 < 2 ^ 31) (ms : List Bytes) :
    ∀ (e : MessageEmitter) (out : BlockedGzipOutputStream),
      unfailing MAX e out → e.max_group_size < 2 ^ 64 →
      e.group.length ≤ max e.max_group_size 1 →
      (∀ m ∈ ms, m.length ≤ MAX) →
      MessageEmitter.write_all MAX e ms = Outcome.ok
        { e with
          group := (batches e.max_group_size e.group ms).2
          bgzip_out := some
            { out with written := out.written ++ wire.File (batches e.max_group_size e.group ms).1 }
          calls := e.calls ++ file_calls out.positioning e.group_handlers.length
            out.written.length (batches e.max_group_size e.group ms).1 } := by
  induction ms with
  | nil =>
    intro e out hu _ _ _
    obtain ⟨hout, _, _, _⟩ := hu
    simp [MessageEmitter.write_all, batches, wire.File, file_calls, ← hout]
  | cons m ms ih =>
    intro e out hu hk hlen hsz
    have hm : m.length ≤ MAX := hsz m (by simp)
    have hnot : ¬ (MAX < m.length) := by omega
    have hrest : ∀ x ∈ ms, x.length ≤ MAX := fun x hx => hsz x (by simp [hx])
    obtain ⟨hout, hcap, hls, hgsz⟩ := hu
    unfold MessageEmitter.write_all MessageEmitter.write MessageEmitter.flush_if_full
    by_cases hfull : e.max_group_size ≤ e.group.length ∧ e.group ≠ []
    · have hl64 : e.group.length < 2 ^ 64 := by
        have : max e.max_group_size 1 < 2 ^ 64 := by
          rcases le_total e.max_group_size 1 with h | h
          · rw [max_eq_right h]; norm_num
          · rw [max_eq_left h]; exact hk
        omega
      rw [if_pos hfull.1, emit_group_unfailing MAX hhi e out ⟨hout, hcap, hls, hgsz⟩ hfull.2 hl64]
      simp only [hnot, if_false, List.nil_append]
      rw [ih { e with
            group := [m]
            bgzip_out := some { out with written := out.written ++ wire.Group e.group }
            calls := e.calls ++ group_calls e.group (offset_at out.positioning out.written.length)
              (offset_at out.positioning (out.written.length + (wire.Group e.group).length))
              e.group_handlers.length }
          { out with written := out.written ++ wire.Group e.group }
          ⟨rfl, hcap, hls, by simpa using hm⟩ hk (by simp) hrest]
      simp [batches, hfull, wire.File, file_calls, List.append_assoc]
    · have hflush : (if e.max_group_size ≤ e.group.length then MessageEmitter.emit_group e
          else Outcome.ok e) = Outcome.ok e := by
        by_cases hle : e.max_group_size ≤ e.group.length
        · have hnil : e.group = [] := by
            by_contra hne
            exact hfull ⟨hle, hne⟩
          simp [hle, MessageEmitter.emit_group, hnil]
        · simp [hle]
      rw [hflush]
      simp only [hnot, if_false]
      have hlen1 : (e.group ++ [m]).length ≤ max e.max_group_size 1 := by
        simp only [List.length_append, List.length_singleton]
        by_cases hpn : e.group = []
        · rw [hpn]; simp
        · have : ¬ (e.max_group_size ≤ e.group.length) := fun h => hfull ⟨h, hpn⟩
          omega
      rw [ih { e with group := e.group ++ [m] } out ⟨hout, hcap, hls, by
          intro x hx
          rcases List.mem_append.mp hx with hx | hx
          · exact hgsz x hx
          · simp at hx; rw [hx]; exact hm⟩
        hk hlen1 hrest]
      simp [batches, hfull]

/-! ## Batching -/

theorem batches_flatten (k : Nat) (ms : List Bytes) :
    ∀ p : List Bytes, (batches k p ms).1.flatten ++ (batches k p ms).2 = p ++ ms := by
  induction ms with
  | nil => intro p; simp [batches]
  | cons m ms ih =>
    intro p
    unfold batches
    split
    · have := ih [m]
      simp only [List.flatten_cons, List.append_assoc]
      rw [this]
      simp
    · have := ih (p ++ [m])
      rw [this]
      simp

theorem batches_groups (k : Nat) (ms : List Bytes) :
    ∀ p : List Bytes, p.length ≤ max k 1 →
      ∀ g ∈ (batches k p ms).1, g ≠ [] ∧ g.length ≤ max k 1 := by
  induction ms with
  | nil => intro p _ g hg; simp [batches] at hg
  | cons m ms ih =>
    intro p hp g hg
    unfold batches at hg
    split at hg
    · rename_i hc
      rcases List.mem_cons.mp hg with rfl | hg
      · exact ⟨hc.2, hp⟩
      · exact ih [m] (by simp) g hg
    · rename_i hc
      refine ih (p ++ [m]) ?_ g hg
      simp only [List.length_append, List.length_singleton]
      by_cases hpn : p = []
      · subst hpn; simp
      · have : ¬ (k ≤ p.length) := fun h => hc ⟨h, hpn⟩
        omega

theorem flushed_flatten (k : Nat) (ms : List Bytes) : (flushed k ms).flatten = ms := by
  have h := batches_flatten k ms []
  unfold flushed
  by_cases h2 : (batches k [] ms).2 = []
  · simp only [h2, if_true, List.append_nil]
    simpa [h2] using h
  · simp only [h2, if_false, List.flatten_append, List.flatten_cons, List.flatten_nil,
      List.append_nil]
    simpa using h

theorem flushed_groups (k : Nat) (ms : List Bytes) :
    ∀ g ∈ flushed k ms, g ≠ [] ∧ g.length ≤ max k 1 := by
  intro g hg
  unfold flushed at hg
  rcases List.mem_append.mp hg with hg | hg
  · exact batches_groups k ms [] (by simp) g hg
  · by_cases h2 : (batches k [] ms).2 = []
    · simp [h2] at hg
    · simp only [h2, if_false, List.mem_singleton] at hg
      subst hg
      exact ⟨h2, batches_pending_length k ms [] (by simp)⟩

theorem mem_of_mem_flushed (k : Nat) (ms : List Bytes) (g : List Bytes) (m : Bytes)
    (hg : g ∈ flushed k ms) (hm : m ∈ g) : m ∈ ms := by
  rw [← flushed_flatten k ms]
  exact List.mem_flatten.mpr ⟨g, hg, hm⟩

theorem mem_of_mem_pending (k : Nat) (ms : List Bytes) (m : Bytes)
    (hm : m ∈ (batches k [] ms).2) : m ∈ ms := by
  have h := batches_flatten k ms []
  have : m ∈ (batches k [] ms).1.flatten ++ (batches k [] ms).2 := List.mem_append.mpr (Or.inr hm)
  rw [h] at this
  simpa using this

/-- The number of groups that `total` messages make when the pending group holds `p` of
them and the group size is `k`. -/
theorem batches_count (k : Nat) (hk : 1 ≤ k) (ms : List Bytes) :
    ∀ p : List Bytes, p.length ≤ k →
      (batches k p ms).1.length + (if (batches k p ms).2 = [] then 0 else 1) =
        (p.length + ms.length + k - 1) / k := by
  induction ms with
  | nil =>
    intro p hp
    simp only [batches, List.length_nil, Nat.zero_add, Nat.add_zero]
    by_cases hpn : p = []
    · subst hpn
      simp only [if_true, List.length_nil, Nat.zero_add]
      exact (Nat.div_eq_of_lt (by omega)).symm
    · have hpos : 0 < p.length := List.length_pos.mpr hpn
      simp only [hpn, if_false]
      symm
      apply Nat.div_eq_of_lt_le
      · omega
      · omega
  | cons m ms ih =>
    intro p hp
    unfold batches
    split
    · rename_i hc
      have hpk : p.length = k := by omega
      have := ih [m] (by simpa using hk)
      simp only [List.length_cons, List.length_nil] at this ⊢
      rw [Nat.add_right_comm, this, hpk]
      have : k + (ms.length + 1) + k - 1 = (0 + 1 + ms.length + k - 1) + k := by omega
      rw [this, Nat.add_div_right _ (by omega)]
    · rename_i hc
      have hlt : p.length < k := by
        by_contra hge
        have hpn : p ≠ [] := by
          intro h0
          rw [h0] at hge
          simp at hge
          omega
        exact hc ⟨by omega, hpn⟩
      have := ih (p ++ [m]) (by simp; omega)
      rw [this]
      simp only [List.length_append, List.length_singleton, List.length_cons, List.length_nil]
      have e : p.length + (0 + 1) + ms.length + k - 1 = p.length + (ms.length + 1) + k - 1 := by
        omega
      rw [e]

theorem flushed_length (k : Nat) (hk : 1 ≤ k) (ms : List Bytes) :
    (flushed k ms).length = (ms.length + k - 1) / k := by
  have h := batches_count k hk ms [] (by simp)
  unfold flushed
  rw [List.length_append]
  by_cases h2 : (batches k [] ms).2 = []
  · simpa [h2] using h
  · simpa [h2] using h

/-! ## Whole runs of the writer -/

theorem write_copy_eq_write (MAX : Nat) (e : MessageEmitter) (m : Bytes) :
    MessageEmitter.write_copy MAX e m = MessageEmitter.write MAX e m := rfl

theorem write_each_eq_write_all (MAX : Nat) (ws : List (Bool × Bytes)) :
    ∀ e : MessageEmitter,
      MessageEmitter.write_each MAX e ws = MessageEmitter.write_all MAX e (ws.map Prod.snd) := by
  induction ws with
  | nil => intro e; rfl
  | cons w ws ih =>
    intro e
    obtain ⟨c, m⟩ := w
    simp only [MessageEmitter.write_each, MessageEmitter.write_all, List.map_cons,
      write_copy_eq_write, ite_self]
    cases MessageEmitter.write MAX e m with
    | ok e1 => exact ih e1
    | thrown why e1 => rfl

theorem write_each_and_close_eq (MAX : Nat) (ws : List (Bool × Bytes)) (e : MessageEmitter) :
    MessageEmitter.write_each_and_close MAX e ws =
      MessageEmitter.write_and_close MAX e (ws.map Prod.snd) := by
  simp [MessageEmitter.write_each_and_close, MessageEmitter.write_and_close,
    write_each_eq_write_all]

theorem with_listeners_fields (ls : List listener_t) :
    ∀ e : MessageEmitter, MessageEmitter.with_listeners e ls =
      { e with group_handlers := e.group_handlers ++ ls } := by
  induction ls with
  | nil => intro e; simp [MessageEmitter.with_listeners]
  | cons l ls ih =>
    intro e
    have := ih (e.on_group l)
    simp only [MessageEmitter.with_listeners, List.foldl_cons] at this ⊢
    rw [this]
    simp [MessageEmitter.on_group, List.append_assoc]

/-- What a sequence of writes followed by the destruction does on an emitter that cannot
fail and has nothing pending: the flushed groups are on the stream in wire format, every
group was reported to every listener, and end of file was signalled once. -/
theorem write_and_close_unfailing (MAX : Nat) (hhi : MAX * 2 < 2 ^ 31) (ms : List Bytes)
    (e : MessageEmitter) (out : BlockedGzipOutputStream)
    (hu : unfailing MAX e out) (hk : e.max_group_size < 2 ^ 64) (he : e.group = [])
    (hsz : ∀ m ∈ ms, m.length ≤ MAX) :
    MessageEmitter.write_and_close MAX e ms = Outcome.ok
      { e with
        group := []
        bgzip_out := some
          { out with
            written := out.written ++ wire.File (flushed e.max_group_size ms)
            ended := out.ended + 1 }
        calls := e.calls ++ file_calls out.positioning e.group_handlers.length
          out.written.length (flushed e.max_group_size ms) } := by
  have hrun := write_all_unfailing MAX hhi ms e out hu hk (by simp [he]) hsz
  obtain ⟨hout, hcap, hls, hgsz⟩ := hu
  unfold MessageEmitter.write_and_close
  rw [hrun]
  simp only [he]
  by_cases h2 : (batches e.max_group_size [] ms).2 = []
  · simp [MessageEmitter.destroy, MessageEmitter.emit_group, h2, flushed,
      BlockedGzipOutputStream.EndFile]
  · have hl64 : (batches e.max_group_size [] ms).2.length < 2 ^ 64 := by
      have h1 := batches_pending_length e.max_group_size ms [] (by simp)
      have : max e.max_group_size 1 < 2 ^ 64 := by
        rcases le_total e.max_group_size 1 with h | h
        · rw [max_eq_right h]; norm_num
        · rw [max_eq_left h]; exact hk
      omega
    have hem := emit_group_unfailing MAX hhi
      { e with
        group := (batches e.max_group_size [] ms).2
        bgzip_out := some
          { out with written := out.written ++ wire.File (batches e.max_group_size [] ms).1 }
        calls := e.calls ++ file_calls out.positioning e.group_handlers.length
          out.written.length (batches e.max_group_size [] ms).1 }
      { out with written := out.written ++ wire.File (batches e.max_group_size [] ms).1 }
      ⟨rfl, hcap, hls, fun m hm => hsz m (mem_of_mem_pending _ _ _ hm)⟩ h2 hl64
    simp only [MessageEmitter.destroy, hem]
    simp [flushed, h2, File_append, file_calls_append, wire.File, file_calls,
      BlockedGzipOutputStream.EndFile, List.append_assoc]

/-- The emitter a client gets from the constructor and the registration of listeners that
never throw, over a stream that accepts every write, cannot fail. -/
theorem fresh_unfailing (MAX : Nat) (out0 : BlockedGzipOutputStream) (k : Nat)
    (listeners : List listener_t) (hcap : out0.capacity = none)
    (hls : ∀ h ∈ listeners, ∀ g a b, h g a b = true) :
    ∃ out, unfailing MAX ((MessageEmitter.construct out0 k).with_listeners listeners) out ∧
      out.written = out0.written ∧ out.positioning = out0.positioning ∧
      out.ended = out0.ended := by
  refine ⟨if out0.Tell = -1 then out0.StartFile else out0, ⟨?_, ?_, ?_, ?_⟩, ?_, ?_, ?_⟩
  · simp [with_listeners_fields, MessageEmitter.construct]
  · split <;> simp [BlockedGzipOutputStream.StartFile, hcap]
  · intro h hh
    simp only [with_listeners_fields, MessageEmitter.construct, List.nil_append] at hh
    exact hls h hh
  · intro m hm
    simp [with_listeners_fields, MessageEmitter.construct] at hm
  · split <;> simp [BlockedGzipOutputStream.StartFile]
  · split <;> simp [BlockedGzipOutputStream.StartFile]
  · split <;> simp [BlockedGzipOutputStream.StartFile]

theorem readable_flushed (MAX : Nat) (reg : Bytes → Bool) (k : Nat) (ms : List Bytes)
    (hk : k < 2 ^ 64) (hsz : ∀ m ∈ ms, m.length ≤ MAX) (hreg : ∀ m ∈ ms, reg m = false) :
    readable_groups MAX reg (flushed k ms) := by
  intro g hg
  obtain ⟨hne, hlen⟩ := flushed_groups k ms g hg
  refine ⟨hne, ?_, ?_, ?_⟩
  · have : max k 1 < 2 ^ 64 := by
      rcases le_total k 1 with h | h
      · rw [max_eq_right h]; norm_num
      · rw [max_eq_left h]; exact hk
    omega
  · intro m hm
    exact hsz m (mem_of_mem_flushed k ms g m hg hm)
  · intro m hm
    exact hreg m (mem_of_mem_flushed k ms g m hg (List.mem_of_mem_head? hm))

/-- C1 (round trip).  Messages within the size limit, none of which the registry takes for a
tag, are written in order with write or write_copy by an emitter over a fresh stream that
accepts every write, and the emitter is destroyed.  A reader constructed on the bytes
produced then yields exactly the tagged messages `("", m_1)`, ..., `("", m_n)`, each with its
message present, and after the last one it has no current value.  This holds for every group
size, for a size limit of at least 15 bytes whose double fits an int. -/
theorem round_trip (MAX : Nat) (reg : Bytes → Bool) (out0 : BlockedGzipOutputStream)
    (max_group_size : Nat) (listeners : List listener_t) (writes : List (Bool × Bytes))
    (positioning : Bool)
    (hlo : 15 ≤ MAX) (hhi : MAX * 2 < 2 ^ 31) (hk : max_group_size < 2 ^ 64)
    (hfresh : out0.written = []) (hcap : out0.capacity = none)
    (hls : ∀ h ∈ listeners, ∀ g a b, h g a b = true)
    (hsz : ∀ w ∈ writes, w.2.length ≤ MAX) (hreg : ∀ w ∈ writes, reg w.2 = false) :
    ∃ e out it,
      MessageEmitter.write_each_and_close MAX
        ((MessageEmitter.construct out0 max_group_size).with_listeners listeners) writes =
          Outcome.ok e ∧
      e.bgzip_out = some out ∧
      MessageIterator.construct MAX reg ⟨out.written, 0, positioning⟩ = Outcome.ok it ∧
      MessageIterator.collect MAX reg writes.length it =
        some (writes.map (fun w => untagged w.2)) := by
  obtain ⟨out1, hu, hw, _, _⟩ := fresh_unfailing MAX out0 max_group_size listeners hcap hls
  have hsz' : ∀ m ∈ writes.map Prod.snd, m.length ≤ MAX := by
    intro m hm
    obtain ⟨w, hw, rfl⟩ := List.mem_map.mp hm
    exact hsz w hw
  have hreg' : ∀ m ∈ writes.map Prod.snd, reg m = false := by
    intro m hm
    obtain ⟨w, hw, rfl⟩ := List.mem_map.mp hm
    exact hreg w hw
  have hmax : ((MessageEmitter.construct out0 max_group_size).with_listeners
      listeners).max_group_size = max_group_size := by
    simp [with_listeners_fields, MessageEmitter.construct]
  have hrun := write_and_close_unfailing MAX hhi (writes.map Prod.snd) _ out1 hu
    (by rw [hmax]; exact hk) (by simp [with_listeners_fields, MessageEmitter.construct]) hsz'
  rw [hmax] at hrun
  obtain ⟨it, hadv, hcol⟩ := collect_file MAX reg hlo hhi
    (flushed max_group_size (writes.map Prod.snd))
    { value := ([], none), previous_tag := [], group_count := 0, group_idx := 0, group_vo := -1,
      item_vo := -1,
      bgzip_in := ⟨wire.File (flushed max_group_size (writes.map Prod.snd)), 0, positioning⟩ }
    (by simp) rfl (by simp) (readable_flushed MAX reg _ _ hk hsz' hreg') (by simp)
  refine ⟨_, _, it, by rw [write_each_and_close_eq]; exact hrun, rfl, ?_, ?_⟩
  · simpa [MessageIterator.construct, hw, hfresh] using hadv
  · rw [flushed_flatten] at hcol
    simpa [Function.comp_def] using hcol

/-- Witness of `round_trip`: three messages, written with write and write_copy into groups
of two, with a registry that knows the tag "GAM". -/
theorem round_trip_witness :
    (15 ≤ 20 ∧ 20 * 2 < 2 ^ 31 ∧ 2 < 2 ^ 64) ∧
    ∃ e out it,
      MessageEmitter.write_each_and_close 20
        ((MessageEmitter.construct ⟨[], true, none, 0, 0⟩ 2).with_listeners [])
        [(false, [1, 2]), (true, [3]), (false, [])] = Outcome.ok e ∧
      e.bgzip_out = some out ∧
      MessageIterator.construct 20 (fun b => b == [71, 65, 77]) ⟨out.written, 0, true⟩ =
        Outcome.ok it ∧
      MessageIterator.collect 20 (fun b => b == [71, 65, 77])
        [(false, [1, 2]), (true, [3]), (false, ([] : Bytes))].length it =
        some ([(false, [1, 2]), (true, [3]), (false, [])].map (fun w => untagged w.2)) :=
  ⟨by decide,
    round_trip 20 (fun b => b == [71, 65, 77]) ⟨[], true, none, 0, 0⟩ 2 []
      [(false, [1, 2]), (true, [3]), (false, [])] true (by decide) (by decide) (by decide)
      rfl rfl (by simp) (by decide) (by decide)⟩

/-! ## Tags -/

/-- The step that loads a group holding only a tag, by its effect on the fields. -/
theorem tag_only_step (MAX : Nat) (reg : Bytes → Bool) (it : MessageIterator)
    (t tail : Bytes)
    (hb : it.group_count = it.group_idx)
    (hd : it.bgzip_in.data.drop it.bgzip_in.pos = wire.varint 1 ++ (wire.Slot t ++ tail))
    (hs : t.length ≤ MAX) (hlo : 15 ≤ MAX) (hhi : MAX * 2 < 2 ^ 31)
    (htag : reg t = true ∨ (it.previous_tag ≠ [] ∧ it.previous_tag = t)) :
    ∃ it1, MessageIterator.advance MAX reg it = Outcome.ok it1 ∧
      it1.value = (t, none) ∧ it1.previous_tag = t ∧
      it1.group_count = 1 ∧ it1.group_idx = 1 ∧
      (-1 ≤ it.item_vo → 0 ≤ it1.item_vo) ∧
      it1.bgzip_in.data.drop it1.bgzip_in.pos = tail := by
  refine ⟨_, advance_tag_only MAX reg it t tail hb hd hs hlo hhi htag, rfl, rfl, rfl, rfl, ?_, ?_⟩
  · intro h
    show (0 : Int) ≤ (if it.bgzip_in.positioning = true then
      ((it.bgzip_in.pos + (wire.varint 1).length : Nat) : Int) else it.item_vo + 1)
    split <;> omega
  · have := drop_after it.bgzip_in.data (wire.varint 1 ++ wire.Slot t) tail it.bgzip_in.pos
      (by simpa [List.append_assoc] using hd)
    simpa [List.length_append] using this

/-- C2, as amended (tag caching across groups).  A stream holds one group whose only slot is
a tag that the registry accepts, followed by groups of ordinary messages that the registry
does not accept.  The reader yields `(t, absent)` and then `("", m_1)`, ..., `("", m_M)` in
order, and stops at the end of the stream: a group whose first slot is not a tag is read
without a tag, and the cached tag is dropped. -/
theorem tag_not_carried_over (MAX : Nat) (reg : Bytes → Bool) (t : Bytes)
    (gs : List (List Bytes)) (positioning : Bool)
    (hlo : 15 ≤ MAX) (hhi : MAX * 2 < 2 ^ 31)
    (ht : reg t = true) (hts : t.length ≤ MAX)
    (hgs : ∀ g ∈ gs, g ≠ [] ∧ g.length < 2 ^ 64)
    (hsz : ∀ g ∈ gs, ∀ m ∈ g, m.length ≤ MAX)
    (hreg : ∀ g ∈ gs, ∀ m ∈ g, reg m = false) :
    ∃ it, MessageIterator.construct MAX reg ⟨wire.File ([t] :: gs), 0, positioning⟩ =
        Outcome.ok it ∧
      MessageIterator.collect MAX reg (gs.flatten.length + 1) it =
        some ((t, none) :: gs.flatten.map untagged) := by
  have hread : readable_groups MAX reg gs := fun g hg =>
    ⟨(hgs g hg).1, (hgs g hg).2, hsz g hg, fun m hm => hreg g hg m (List.mem_of_mem_head? hm)⟩
  obtain ⟨it1, hadv, hv, hp, hgc, hgi, hiv, hd1⟩ := tag_only_step MAX reg
    { value := ([], none), previous_tag := [], group_count := 0, group_idx := 0, group_vo := -1,
      item_vo := -1, bgzip_in := ⟨wire.File ([t] :: gs), 0, positioning⟩ }
    t (wire.File gs) rfl
    (by simp [wire.File, wire.Group, wire.Slots, List.append_assoc]) hts hlo hhi (Or.inl ht)
  obtain ⟨it2, hadv2, hcol⟩ := collect_file MAX reg hlo hhi gs it1
    (by have := hiv (by simp); omega) (by rw [hgc, hgi]) hd1 hread (by
      intro g m hg hm
      rw [hp]
      rintro ⟨_, rfl⟩
      have hmem : g ∈ gs := List.mem_of_mem_head? hg
      have := hreg g hmem t (List.mem_of_mem_head? hm)
      rw [ht] at this
      exact Bool.noConfusion this)
  refine ⟨it1, hadv, ?_⟩
  rw [MessageIterator.collect]
  simp only [has_current_of_nonneg it1 (hiv (by simp)), if_true, hadv2, hcol, hv]
  rfl

theorem varint_small (n : Nat) (h : n < 128) : wire.varint n = [n] := by
  rw [wire.varint]
  simp [h]

/-- Witness of `tag_not_carried_over`: the tag "GAM" alone in a group, then a group with the
messages [5] and [6, 7]. -/
theorem tag_not_carried_over_witness :
    (15 ≤ 20 ∧ 20 * 2 < 2 ^ 31) ∧
    ∃ it, MessageIterator.construct 20 (fun b => b == [71, 65, 77])
        ⟨wire.File ([[71, 65, 77]] :: [[[5], [6, 7]]]), 0, true⟩ = Outcome.ok it ∧
      MessageIterator.collect 20 (fun b => b == [71, 65, 77])
        (([[[5], [6, 7]]] : List (List Bytes)).flatten.length + 1) it =
        some (([71, 65, 77], none) :: ([[[5], [6, 7]]] : List (List Bytes)).flatten.map untagged) :=
  ⟨by decide,
    tag_not_carried_over 20 (fun b => b == [71, 65, 77]) [71, 65, 77] [[[5], [6, 7]]] true
      (by decide) (by decide) rfl (by decide) (by decide) (by decide) (by decide)⟩

/-- C2, counterexample.  The stream holds the group ["GAM"], whose only slot is a tag that
the registry accepts, and then the group [[5]], whose message is not a tag and differs from
"GAM".  The claim expects `("GAM", absent)` and then `("GAM", [5])`; the reader yields
`("GAM", absent)` and then `("", [5])`. -/
theorem tag_caching_counterexample :
    ∃ it, MessageIterator.construct 20 (fun b => b == [71, 65, 77])
        ⟨wire.File [[[71, 65, 77]], [[5]]], 0, true⟩ = Outcome.ok it ∧
      MessageIterator.collect 20 (fun b => b == [71, 65, 77]) 2 it =
        some [([71, 65, 77], none), ([], some [5])] ∧
      MessageIterator.collect 20 (fun b => b == [71, 65, 77]) 2 it ≠
        some [([71, 65, 77], none), ([71, 65, 77], some [5])] := by
  have hdata : wire.File [[[71, 65, 77]], [[5]]] = [1, 3, 71, 65, 77, 1, 1, 5] := by
    simp [wire.File, wire.Group, wire.Slots, wire.Slot, varint_small]
  rw [hdata]
  refine ⟨_, rfl, ?_, ?_⟩
  · decide
  · decide

/-! ## Zero-count groups and the end of the stream -/

/-- C3 (empty-group skipping), the code at a failing input.  Over the stream [1, 1, 65],
one group with the message "A", the reader yields `("", "A")` and stops.  Over
[0, 1, 1, 65], the same stream after a zero-count group, the reader takes the count byte of
the next group for the length of a first slot of the empty group and yields `("", [1])`, and
its next advance throws; the zero-count group is not skipped. -/
theorem zero_count_group_not_skipped :
    (∃ it, MessageIterator.construct 100 (fun b => b == [71, 65, 77]) ⟨[1, 1, 65], 0, true⟩ =
        Outcome.ok it ∧
      MessageIterator.collect 100 (fun b => b == [71, 65, 77]) 1 it = some [([], some [65])]) ∧
    (∃ it it1, MessageIterator.construct 100 (fun b => b == [71, 65, 77])
        ⟨[0, 1, 1, 65], 0, true⟩ = Outcome.ok it ∧
      it.value = ([], some [1]) ∧ it.group_count = 0 ∧ it.group_idx = 1 ∧
      MessageIterator.advance 100 (fun b => b == [71, 65, 77]) it =
        Outcome.thrown Failure.corrupt_input it1) ∧
    wire.File [[[65]]] = [1, 1, 65] ∧ wire.varint 0 ++ wire.File [[[65]]] = [0, 1, 1, 65] := by
  refine ⟨⟨_, rfl, by decide⟩, ⟨_, _, rfl, by decide, by decide, by decide, rfl⟩, ?_, ?_⟩
  · simp [wire.File, wire.Group, wire.Slots, wire.Slot, varint_small]
  · simp [wire.File, wire.Group, wire.Slots, wire.Slot, varint_small]

/-! ## Claims about single operations -/

/-- C6 (wire framing).  For every non-empty pending group `[m_1, ..., m_n]` (of a size that
a size_t holds), a flush that returns normally has appended to the output stream exactly the
bytes `varint(n) ++ varint(|m_1|) ++ m_1 ++ ... ++ varint(|m_n|) ++ m_n`, with standard
base-128 little-endian varints, and has changed nothing else of the stream. -/
theorem wire_framing (e e1 : MessageEmitter) (hne : e.group ≠ [])
    (hlen : e.group.length < 2 ^ 64)
    (hok : MessageEmitter.emit_group e = Outcome.ok e1) :
    ∃ out, e.bgzip_out = some out ∧
      e1.bgzip_out = some { out with written := out.written ++ wire.Group e.group } := by
  obtain ⟨out, hout, he1⟩ := emit_group_ok e e1 hne hlen hok
  exact ⟨out, hout, by rw [he1]⟩

/-- Witness of `wire_framing`: the group [[1, 2], [3]] flushed to a stream that holds the
byte 9. -/
theorem wire_framing_witness :
    ((⟨[[1, 2], [3]], 2, some ⟨[9], true, none, 0, 0⟩, [], []⟩ : MessageEmitter).group ≠ [] ∧
      MessageEmitter.emit_group ⟨[[1, 2], [3]], 2, some ⟨[9], true, none, 0, 0⟩, [], []⟩ =
        Outcome.ok ⟨[], 2, some ⟨[9, 2, 2, 1, 2, 1, 3], true, none, 0, 0⟩, [], []⟩) ∧
    ∃ out, (⟨[[1, 2], [3]], 2, some ⟨[9], true, none, 0, 0⟩, [], []⟩ :
        MessageEmitter).bgzip_out = some out ∧
      (⟨[], 2, some ⟨[9, 2, 2, 1, 2, 1, 3], true, none, 0, 0⟩, [], []⟩ :
        MessageEmitter).bgzip_out =
        some { out with written := out.written ++ wire.Group [[1, 2], [3]] } :=
  ⟨⟨by simp, rfl⟩,
    wire_framing ⟨[[1, 2], [3]], 2, some ⟨[9], true, none, 0, 0⟩, [], []⟩
      ⟨[], 2, some ⟨[9, 2, 2, 1, 2, 1, 3], true, none, 0, 0⟩, [], []⟩
      (by simp) (by simp) rfl⟩

/-- C7 (tag-vs-message ambiguity).  The reader is at a group boundary and the stream goes on
with a group count and a first slot `s` within the size limit.  If the registry does not
recognise `s` and `s` is not equal to a non-empty cached previous tag, the advance returns
normally with the tagged message `("", s)`, `s` present as its message, with the cached
previous tag cleared and group_idx = 1, and the stream stands right after the slot `s`: no
further slot was read. -/
theorem first_slot_is_message (MAX : Nat) (reg : Bytes → Bool) (it : MessageIterator)
    (count : Nat) (s tail : Bytes)
    (hb : it.group_count = it.group_idx)
    (hd : it.bgzip_in.data.drop it.bgzip_in.pos = wire.varint count ++ (wire.Slot s ++ tail))
    (hc : count < 2 ^ 64) (hs : s.length ≤ MAX) (hlo : 15 ≤ MAX) (hhi : MAX * 2 < 2 ^ 31)
    (hreg : reg s = false) (hprev : ¬ (it.previous_tag ≠ [] ∧ it.previous_tag = s)) :
    ∃ it1, MessageIterator.advance MAX reg it = Outcome.ok it1 ∧
      it1.value = ([], some s) ∧ it1.previous_tag = [] ∧
      it1.group_count = count ∧ it1.group_idx = 1 ∧
      it1.bgzip_in.pos = it.bgzip_in.pos + ((wire.varint count).length + (wire.Slot s).length) ∧
      it1.bgzip_in.data.drop it1.bgzip_in.pos = tail := by
  obtain ⟨it1, hadv, hv, hp, hgc, hgi, _, _, _, _, hpos, hd1⟩ :=
    first_message_step MAX reg it count s tail hb hd hc hs hlo hhi hreg hprev
  exact ⟨it1, hadv, hv, hp, hgc, hgi, hpos, hd1⟩

/-- Witness of `first_slot_is_message`: a reader that has just been created over the stream
[2, 1, 5, 1, 6], a group of two messages, with a registry that knows the tag "GAM". -/
theorem first_slot_is_message_witness :
    ((0 : Nat) = 0 ∧
      ([2, 1, 5, 1, 6] : Bytes).drop 0 = wire.varint 2 ++ (wire.Slot [5] ++ [1, 6]) ∧
      2 < 2 ^ 64 ∧ ([5] : Bytes).length ≤ 20 ∧ 15 ≤ 20 ∧ 20 * 2 < 2 ^ 31 ∧
      (fun b : Bytes => b == [71, 65, 77]) [5] = false) ∧
    ∃ it1, MessageIterator.advance 20 (fun b => b == [71, 65, 77])
        ⟨([], none), [], 0, 0, -1, -1, ⟨[2, 1, 5, 1, 6], 0, true⟩⟩ = Outcome.ok it1 ∧
      it1.value = ([], some [5]) ∧ it1.previous_tag = [] ∧
      it1.group_count = 2 ∧ it1.group_idx = 1 ∧
      it1.bgzip_in.pos = 0 + ((wire.varint 2).length + (wire.Slot [5]).length) ∧
      it1.bgzip_in.data.drop it1.bgzip_in.pos = [1, 6] :=
  ⟨⟨rfl, by simp [wire.Slot, varint_small], by decide, by decide, by decide, by decide, rfl⟩,
    first_slot_is_message 20 (fun b => b == [71, 65, 77])
      ⟨([], none), [], 0, 0, -1, -1, ⟨[2, 1, 5, 1, 6], 0, true⟩⟩ 2 [5] [1, 6] rfl
      (by simp [wire.Slot, varint_small]) (by decide) (by decide) (by decide) (by decide) rfl
      (by simp)⟩

/-- C10 (oversize rejection on write).  When the flush that write and write_copy may trigger
returns normally, each of the two throws if and only if the message is longer than the size
limit, and then with the error "message too large"; so a message of length MAX + 1 is
rejected and a message of length MAX is accepted. -/
theorem oversize_rejected_on_write (MAX : Nat) (e e1 : MessageEmitter) (m : Bytes)
    (hflush : MessageEmitter.flush_if_full e = Outcome.ok e1) :
    ((∃ why e2, MessageEmitter.write MAX e m = Outcome.thrown why e2) ↔ MAX < m.length) ∧
    ((∃ why e2, MessageEmitter.write_copy MAX e m = Outcome.thrown why e2) ↔ MAX < m.length) ∧
    (MAX < m.length →
      MessageEmitter.write MAX e m =
        Outcome.thrown Failure.message_too_large { e1 with group := e1.group ++ [m] } ∧
      MessageEmitter.write_copy MAX e m =
        Outcome.thrown Failure.message_too_large { e1 with group := e1.group ++ [m] }) ∧
    (m.length = MAX + 1 → ∃ why e2, MessageEmitter.write MAX e m = Outcome.thrown why e2) ∧
    (m.length = MAX → ∃ e2, MessageEmitter.write MAX e m = Outcome.ok e2 ∧
      MessageEmitter.write_copy MAX e m = Outcome.ok e2) := by
  have hw : MessageEmitter.write MAX e m =
      if MAX < m.length then
        Outcome.thrown Failure.message_too_large { e1 with group := e1.group ++ [m] }
      else Outcome.ok { e1 with group := e1.group ++ [m] } := by
    simp only [MessageEmitter.write, hflush]
  have hc : MessageEmitter.write_copy MAX e m = MessageEmitter.write MAX e m := rfl
  refine ⟨?_, ?_, ?_, ?_, ?_⟩
  · rw [hw]
    by_cases h : MAX < m.length <;> simp [h]
  · rw [hc, hw]
    by_cases h : MAX < m.length <;> simp [h]
  · intro h
    rw [hc, hw]
    simp [h]
  · intro h
    rw [hw]
    have : MAX < m.length := by omega
    simp [this]
  · intro h
    rw [hc, hw]
    have : ¬ (MAX < m.length) := by omega
    simp [this]

/-- Witness of `oversize_rejected_on_write`: a size limit of 3 bytes and a message of 4
bytes, written to an emitter whose pending group is not full. -/
theorem oversize_rejected_on_write_witness :
    MessageEmitter.flush_if_full ⟨[[7]], 2, some ⟨[], true, none, 0, 0⟩, [], []⟩ =
      Outcome.ok ⟨[[7]], 2, some ⟨[], true, none, 0, 0⟩, [], []⟩ ∧
    ((∃ why e2,
        MessageEmitter.write 3 ⟨[[7]], 2, some ⟨[], true, none, 0, 0⟩, [], []⟩ [1, 2, 3, 4] =
          Outcome.thrown why e2) ↔
      3 < ([1, 2, 3, 4] : Bytes).length) :=
  ⟨rfl,
    (oversize_rejected_on_write 3 ⟨[[7]], 2, some ⟨[], true, none, 0, 0⟩, [], []⟩
      ⟨[[7]], 2, some ⟨[], true, none, 0, 0⟩, [], []⟩ [1, 2, 3, 4] rfl).1⟩

/-! ## Listener notifications -/

theorem times_called_group_calls (g : List Bytes) (a b : Int) (i : Nat) (n : Nat) :
    times_called i (group_calls g a b n) = if i < n then 1 else 0 := by
  induction n with
  | zero => simp [times_called, group_calls]
  | succ n ih =>
    have hstep : times_called i (group_calls g a b (n + 1)) =
        times_called i (group_calls g a b n) + (if n = i then 1 else 0) := by
      simp only [times_called, group_calls, List.range_succ, List.map_append, List.filter_append,
        List.length_append, List.map_cons, List.map_nil]
      by_cases h : n = i <;> simp [List.filter, h]
    rw [hstep, ih]
    by_cases h1 : i < n
    · have : ¬ (n = i) := by omega
      have : i < n + 1 := by omega
      simp [*]
    · by_cases h2 : n = i
      · have : i < n + 1 := by omega
        simp [*]
      · have : ¬ (i < n + 1) := by omega
        simp [*]

theorem messages_reported_group_calls (g : List Bytes) (a b : Int) (i : Nat) (n : Nat) :
    messages_reported i (group_calls g a b n) = if i < n then g.length else 0 := by
  induction n with
  | zero => simp [messages_reported, group_calls]
  | succ n ih =>
    have hstep : messages_reported i (group_calls g a b (n + 1)) =
        messages_reported i (group_calls g a b n) + (if n = i then g.length else 0) := by
      simp only [messages_reported, group_calls, List.range_succ, List.map_append,
        List.filter_append, List.sum_append, List.map_cons, List.map_nil]
      by_cases h : n = i <;> simp [List.filter, h]
    rw [hstep, ih]
    by_cases h1 : i < n
    · have : ¬ (n = i) := by omega
      have : i < n + 1 := by omega
      simp [*]
    · by_cases h2 : n = i
      · have : i < n + 1 := by omega
        simp [*]
      · have : ¬ (i < n + 1) := by omega
        simp [*]

theorem times_called_append (i : Nat) (c1 c2 : List Call) :
    times_called i (c1 ++ c2) = times_called i c1 + times_called i c2 := by
  simp [times_called, List.filter_append]

theorem messages_reported_append (i : Nat) (c1 c2 : List Call) :
    messages_reported i (c1 ++ c2) = messages_reported i c1 + messages_reported i c2 := by
  simp [messages_reported, List.filter_append]

theorem times_called_file_calls (p : Bool) (n i : Nat) (hi : i < n) (gs : List (List Bytes)) :
    ∀ base, times_called i (file_calls p n base gs) = gs.length := by
  induction gs with
  | nil => intro base; simp [file_calls, times_called]
  | cons g gs ih =>
    intro base
    rw [file_calls, times_called_append, times_called_group_calls, ih]
    simp [hi]
    omega

theorem messages_reported_file_calls (p : Bool) (n i : Nat) (hi : i < n)
    (gs : List (List Bytes)) :
    ∀ base, messages_reported i (file_calls p n base gs) = gs.flatten.length := by
  induction gs with
  | nil => intro base; simp [file_calls, messages_reported]
  | cons g gs ih =>
    intro base
    rw [file_calls, messages_reported_append, messages_reported_group_calls, ih]
    simp [hi]

theorem mem_file_calls (p : Bool) (n : Nat) (gs : List (List Bytes)) :
    ∀ base, ∀ c ∈ file_calls p n base gs, c.messages ∈ gs := by
  induction gs with
  | nil => intro base c hc; simp [file_calls] at hc
  | cons g gs ih =>
    intro base c hc
    rw [file_calls] at hc
    rcases List.mem_append.mp hc with h | h
    · simp only [group_calls, List.mem_map] at h
      obtain ⟨j, _, rfl⟩ := h
      simp
    · exact List.mem_cons_of_mem _ (ih _ c h)

/-- C5 (group batching).  `N` messages within the size limit are written, each with write or
write_copy, to an emitter with group size `k >= 1` and listeners that were registered before
the first write, and the emitter is destroyed; the stream accepts every write and the
listeners return normally.  Then every registered listener has been invoked exactly
`ceil(N / k)` times, every reported group has at most `k` messages, and the message counts
reported to a listener sum to `N`.  The ceiling is written `(N + k - 1) / k`; the last two
parts of the statement say that this is the least `c` with `N <= c * k`. -/
theorem group_batching (MAX k : Nat) (out0 : BlockedGzipOutputStream)
    (listeners : List listener_t) (writes : List (Bool × Bytes))
    (hk1 : 1 ≤ k) (hk : k < 2 ^ 64) (hhi : MAX * 2 < 2 ^ 31) (hcap : out0.capacity = none)
    (hls : ∀ h ∈ listeners, ∀ g a b, h g a b = true)
    (hsz : ∀ w ∈ writes, w.2.length ≤ MAX) :
    ∃ e, MessageEmitter.write_each_and_close MAX
        ((MessageEmitter.construct out0 k).with_listeners listeners) writes = Outcome.ok e ∧
      (∀ i, i < listeners.length →
        times_called i e.calls = (writes.length + k - 1) / k ∧
        messages_reported i e.calls = writes.length) ∧
      (∀ c ∈ e.calls, c.messages.length ≤ k) ∧
      writes.length ≤ (writes.length + k - 1) / k * k ∧
      (writes.length + k - 1) / k * k < writes.length + k := by
  obtain ⟨out1, hu, _, _, _⟩ := fresh_unfailing MAX out0 k listeners hcap hls
  have hsz' : ∀ m ∈ writes.map Prod.snd, m.length ≤ MAX := by
    intro m hm
    obtain ⟨w, hw, rfl⟩ := List.mem_map.mp hm
    exact hsz w hw
  have hmax : ((MessageEmitter.construct out0 k).with_listeners listeners).max_group_size = k := by
    simp [with_listeners_fields, MessageEmitter.construct]
  have hn : ((MessageEmitter.construct out0 k).with_listeners listeners).group_handlers.length =
      listeners.length := by
    simp [with_listeners_fields, MessageEmitter.construct]
  have hcalls : ((MessageEmitter.construct out0 k).with_listeners listeners).calls = [] := by
    simp [with_listeners_fields, MessageEmitter.construct]
  have hrun := write_and_close_unfailing MAX hhi (writes.map Prod.snd) _ out1 hu
    (by rw [hmax]; exact hk) (by simp [with_listeners_fields, MessageEmitter.construct]) hsz'
  rw [hmax, hn, hcalls] at hrun
  have hdm := Nat.div_add_mod (writes.length + k - 1) k
  have hmod := Nat.mod_lt (writes.length + k - 1) (show 0 < k by omega)
  rw [Nat.mul_comm] at hdm
  refine ⟨_, by rw [write_each_and_close_eq]; exact hrun, ?_, ?_, by omega, by omega⟩
  · intro i hi
    simp only [List.nil_append]
    rw [times_called_file_calls _ _ _ hi, messages_reported_file_calls _ _ _ hi,
      flushed_flatten, flushed_length k hk1]
    simp
  · intro c hc
    simp only [List.nil_append] at hc
    have hmem := mem_file_calls _ _ _ _ c hc
    have := (flushed_groups k (writes.map Prod.snd) c.messages hmem).2
    rw [max_eq_left hk1] at this
    exact this

/-- Witness of `group_batching`: five messages in groups of two, reported to two
listeners. -/
theorem group_batching_witness :
    (1 ≤ 2 ∧ 2 < 2 ^ 64 ∧ 20 * 2 < 2 ^ 31) ∧
    ∃ e, MessageEmitter.write_each_and_close 20
        ((MessageEmitter.construct ⟨[], true, none, 0, 0⟩ 2).with_listeners
          [fun _ _ _ => true, fun _ _ _ => true])
        [(false, [1]), (true, [2]), (false, [3]), (false, []), (true, [5, 5])] = Outcome.ok e ∧
      (∀ i, i < ([fun _ _ _ => true, fun _ _ _ => true] : List listener_t).length →
        times_called i e.calls =
          ([(false, [1]), (true, [2]), (false, [3]), (false, ([] : Bytes)),
            (true, [5, 5])].length + 2 - 1) / 2 ∧
        messages_reported i e.calls =
          [(false, [1]), (true, [2]), (false, [3]), (false, ([] : Bytes)),
            (true, [5, 5])].length) ∧
      (∀ c ∈ e.calls, c.messages.length ≤ 2) ∧
      [(false, [1]), (true, [2]), (false, [3]), (false, ([] : Bytes)), (true, [5, 5])].length ≤
        ([(false, [1]), (true, [2]), (false, [3]), (false, ([] : Bytes)),
          (true, [5, 5])].length + 2 - 1) / 2 * 2 ∧
      ([(false, [1]), (true, [2]), (false, [3]), (false, ([] : Bytes)),
          (true, [5, 5])].length + 2 - 1) / 2 * 2 <
        [(false, [1]), (true, [2]), (false, [3]), (false, ([] : Bytes)), (true, [5, 5])].length
          + 2 :=
  ⟨by decide,
    group_batching 20 2 ⟨[], true, none, 0, 0⟩ [fun _ _ _ => true, fun _ _ _ => true]
      [(false, [1]), (true, [2]), (false, [3]), (false, []), (true, [5, 5])]
      (by decide) (by decide) (by decide) rfl (by simp) (by decide)⟩

/-! ## Invariants of the reachable reader states -/

theorem bool_of_not_not (b : Bool) (h : ¬ (!b) = true) : b = true := by
  cases b with
  | true => rfl
  | false => exact absurd rfl h

/-- A first slot that is classified as a tag is accepted by the registry, when the cached
tag is. -/
theorem classified_tag_valid (reg : Bytes → Bool) (prev first : Bytes)
    (hI : prev = [] ∨ reg prev = true)
    (htag : ((!prev.isEmpty && prev == first) || reg first) = true) : reg first = true := by
  rw [Bool.or_eq_true] at htag
  rcases htag with h | h
  · rw [Bool.and_eq_true] at h
    obtain ⟨h1, h2⟩ := h
    have heq : prev = first := by simpa using h2
    rcases hI with h0 | h0
    · rw [h0] at h1
      simp at h1
    · rw [← heq]; exact h0
  · exact h

/-- With a cached tag that the registry accepts (or none), the classification of a first
slot is the answer of the registry. -/
theorem classification_eq_registry (reg : Bytes → Bool) (prev first : Bytes)
    (hI : prev = [] ∨ reg prev = true) :
    ((!prev.isEmpty && prev == first) || reg first) = reg first := by
  cases hr : reg first with
  | true => simp
  | false =>
    cases hc : ((!prev.isEmpty && prev == first) || reg first) with
    | false => simpa [hr] using hc
    | true =>
      have := classified_tag_valid reg prev first hI hc
      rw [hr] at this
      exact Bool.noConfusion this

theorem loop_body_returns_inv (MAX : Nat) (reg : Bytes → Bool) (it it1 : MessageIterator)
    (h : MessageIterator.loop_body MAX reg it = Round.returns (Outcome.ok it1))
    (hI : it.previous_tag = [] ∨ reg it.previous_tag = true) :
    (it1.previous_tag = [] ∨ reg it1.previous_tag = true) ∧
      (it1.group_idx = 0 → it1.group_vo = -1) ∧
      it1.bgzip_in.data = it.bgzip_in.data ∧
      it1.bgzip_in.positioning = it.bgzip_in.positioning := by
  unfold MessageIterator.loop_body at h
  simp only at h
  split at h
  · simp only [Round.returns.injEq, Outcome.ok.injEq] at h
    subst h
    simp [BlockedGzipInputStream.after, hI]
  · split at h
    · simp at h
    · split at h
      · simp at h
      · split at h
        · simp at h
        · split at h
          · simp only [Round.returns.injEq, Outcome.ok.injEq] at h
            subst h
            simp [BlockedGzipInputStream.after]
          · split at h
            · rename_i first c3 _ htag _
              simp only [Round.returns.injEq, Outcome.ok.injEq] at h
              subst h
              simp only [BlockedGzipInputStream.after, and_true]
              refine ⟨Or.inr ?_, by simp⟩
              exact classified_tag_valid reg _ _ hI (bool_of_not_not _ htag)
            · simp at h

theorem loop_body_again_inv (MAX : Nat) (reg : Bytes → Bool) (it it1 : MessageIterator)
    (h : MessageIterator.loop_body MAX reg it = Round.again it1)
    (hI : it.previous_tag = [] ∨ reg it.previous_tag = true) :
    reg it1.previous_tag = true ∧ it1.group_idx = 1 ∧
      it1.bgzip_in.data = it.bgzip_in.data ∧
      it1.bgzip_in.positioning = it.bgzip_in.positioning := by
  unfold MessageIterator.loop_body at h
  simp only at h
  split at h
  · simp at h
  · split at h
    · simp at h
    · split at h
      · simp at h
      · split at h
        · simp at h
        · split at h
          · simp at h
          · split at h
            · simp at h
            · rename_i first c3 _ htag _
              simp only [Round.again.injEq] at h
              subst h
              simp only [BlockedGzipInputStream.after, and_true, true_and]
              exact classified_tag_valid reg _ _ hI (bool_of_not_not _ htag)

theorem read_message_inv (MAX : Nat) (it it1 : MessageIterator)
    (h : MessageIterator.read_message MAX it = Outcome.ok it1) :
    it1.previous_tag = it.previous_tag ∧ it1.group_idx = it.group_idx + 1 ∧
      it1.group_vo = it.group_vo ∧ it1.group_count = it.group_count ∧
      it1.bgzip_in.data = it.bgzip_in.data ∧
      it1.bgzip_in.positioning = it.bgzip_in.positioning := by
  unfold MessageIterator.read_message at h
  simp only at h
  split at h
  · simp at h
  · split at h
    · simp at h
    · split at h
      · simp at h
      · simp only [Outcome.ok.injEq] at h
        subst h
        simp [BlockedGzipInputStream.after]

/-- How advance ends: with a return from the loop body, or with the read of a message,
directly or after one round of the loop. -/
theorem advance_cases (MAX : Nat) (reg : Bytes → Bool) (it : MessageIterator) :
    (it.group_count = it.group_idx ∧
      ∃ r, MessageIterator.loop_body MAX reg it = Round.returns r ∧
        MessageIterator.advance MAX reg it = r) ∨
    (it.group_count = it.group_idx ∧
      ∃ it1, MessageIterator.loop_body MAX reg it = Round.again it1 ∧
        MessageIterator.advance MAX reg it = MessageIterator.read_message MAX it1) ∨
    (it.group_count ≠ it.group_idx ∧
      MessageIterator.advance MAX reg it = MessageIterator.read_message MAX it) := by
  unfold MessageIterator.advance
  by_cases hb : it.group_count = it.group_idx
  · cases hl : MessageIterator.loop_body MAX reg it with
    | returns r =>
      left
      exact ⟨hb, r, rfl, by simp [MessageIterator.increment, hb, hl]⟩
    | again it1 =>
      right; left
      have h1 := loop_body_again MAX reg it it1 hl
      exact ⟨hb, it1, rfl, by simp [MessageIterator.increment, hb, hl, h1]⟩
  · right; right
    exact ⟨hb, by simp [MessageIterator.increment, hb]⟩

/-- An advance that returns normally keeps the invariant of the reader. -/
theorem advance_inv (MAX : Nat) (reg : Bytes → Bool) (data : Bytes) (positioning : Bool)
    (it it1 : MessageIterator)
    (h : MessageIterator.advance MAX reg it = Outcome.ok it1)
    (hI : it.previous_tag = [] ∨ reg it.previous_tag = true)
    (hd : it.bgzip_in.data = data) (hp : it.bgzip_in.positioning = positioning) :
    reader_invariant reg data positioning it1 := by
  rcases advance_cases MAX reg it with ⟨_, r, hl, ha⟩ | ⟨_, it2, hl, ha⟩ | ⟨_, ha⟩
  · rw [ha] at h
    subst h
    obtain ⟨h1, h2, h3, h4⟩ := loop_body_returns_inv MAX reg it it1 hl hI
    exact ⟨h1, h2, by rw [h3, hd], by rw [h4, hp]⟩
  · rw [ha] at h
    obtain ⟨h1, h2, h3, h4⟩ := loop_body_again_inv MAX reg it it2 hl hI
    obtain ⟨g1, g2, _, _, g5, g6⟩ := read_message_inv MAX it2 it1 h
    exact ⟨Or.inr (by rw [g1]; exact h1), by rw [g2]; intro h0; omega, by rw [g5, h3, hd],
      by rw [g6, h4, hp]⟩
  · rw [ha] at h
    obtain ⟨g1, g2, _, _, g5, g6⟩ := read_message_inv MAX it it1 h
    exact ⟨by rw [g1]; exact hI, by rw [g2]; intro h0; omega, by rw [g5, hd], by rw [g6, hp]⟩

theorem Seek_fields (s s1 : BlockedGzipInputStream) (vo : Int) (b : Bool)
    (h : s.Seek vo = (s1, b)) :
    s1.data = s.data ∧ s1.positioning = s.positioning ∧
      (b = true → s.positioning = true ∧ 0 ≤ vo ∧ s1.pos = vo.toNat) := by
  unfold BlockedGzipInputStream.Seek at h
  split at h
  · rename_i hc
    simp only [Prod.mk.injEq] at h
    obtain ⟨h1, h2⟩ := h
    subst h1
    exact ⟨rfl, rfl, fun _ => ⟨hc.1, hc.2.1, rfl⟩⟩
  · simp only [Prod.mk.injEq] at h
    obtain ⟨h1, h2⟩ := h
    subst h1
    subst h2
    exact ⟨rfl, rfl, fun hb => Bool.noConfusion hb⟩

/-- Every reachable state of the reader satisfies the invariant. -/
theorem reachable_inv (MAX : Nat) (reg : Bytes → Bool) (data : Bytes) (positioning : Bool)
    (it : MessageIterator) (h : MessageIterator.Reachable MAX reg data positioning it) :
    reader_invariant reg data positioning it := by
  induction h with
  | constructed pos it hc =>
    exact advance_inv MAX reg data positioning _ it hc (Or.inl rfl) rfl rfl
  | advanced it it1 _ ha ih =>
    obtain ⟨h1, _, h3, h4⟩ := ih
    exact advance_inv MAX reg data positioning it it1 ha h1 h3 h4
  | taken it it1 _ ha ih =>
    obtain ⟨h1, _, h3, h4⟩ := ih
    exact advance_inv MAX reg data positioning _ it1 ha h1 h3 h4
  | sought it it1 vo found _ hs ih =>
    obtain ⟨h1, h2, h3, h4⟩ := ih
    unfold MessageIterator.seek_group at hs
    split at hs
    · simp only [Outcome.ok.injEq, Prod.mk.injEq] at hs
      rw [← hs.2]
      exact ⟨h1, h2, h3, h4⟩
    · split at hs
      · simp only [Outcome.ok.injEq, Prod.mk.injEq] at hs
        rw [← hs.2]
        exact ⟨h1, h2, h3, h4⟩
      · split at hs
        · simp only [Outcome.ok.injEq, Prod.mk.injEq] at hs
          rw [← hs.2]
          exact ⟨h1, h2, h3, h4⟩
        · rename_i sought hseek
          obtain ⟨s1, s2, _⟩ := Seek_fields _ _ _ _ hseek
          split at hs
          · simp at hs
          · rename_i it2 hadv
            simp only [Outcome.ok.injEq, Prod.mk.injEq] at hs
            rw [← hs.2]
            exact advance_inv MAX reg data positioning _ it2 hadv h1 (by rw [← h3]; exact s1)
              (by rw [← h4]; exact s2)

/-! ## Loading a group depends on the stream only -/

theorem loop_body_returns_congr (MAX : Nat) (reg : Bytes → Bool) (b1 b2 r1 : MessageIterator)
    (hs : b2.bgzip_in = b1.bgzip_in) (hpos : b1.bgzip_in.positioning = true)
    (hI1 : b1.previous_tag = [] ∨ reg b1.previous_tag = true)
    (hI2 : b2.previous_tag = [] ∨ reg b2.previous_tag = true)
    (h1 : MessageIterator.loop_body MAX reg b1 = Round.returns (Outcome.ok r1))
    (hcur : r1.has_current = true) :
    MessageIterator.loop_body MAX reg b2 = Round.returns (Outcome.ok r1) ∧
      r1.group_vo = (b1.bgzip_in.pos : Int) := by
  have hT : b1.bgzip_in.Tell = (b1.bgzip_in.pos : Int) := by
    simp [BlockedGzipInputStream.Tell, hpos]
  have hTne : ¬ ((b1.bgzip_in.pos : Int) = -1) := by omega
  unfold MessageIterator.loop_body at h1 ⊢
  simp only [hs] at h1 ⊢
  split at h1
  · simp only [Round.returns.injEq, Outcome.ok.injEq] at h1
    subst h1
    simp [MessageIterator.has_current] at hcur
  · rename_i count c1 hq1
    split at h1
    · simp at h1
    · rename_i tagSize c2 hq2
      split at h1
      · simp at h1
      · rename_i hsz
        rw [if_neg hsz]
        split at h1
        · simp at h1
        · rename_i first c3 hq3
          rw [classification_eq_registry reg _ first hI1] at h1
          rw [classification_eq_registry reg _ first hI2]
          have hA : ∀ x : Int, (if (b1.bgzip_in.after c1).Tell = -1 then x
              else (b1.bgzip_in.after c1).Tell) = ((b1.bgzip_in.pos + c1.count : Nat) : Int) := by
            intro x
            rw [after_Tell_ite]
            simp [hpos]
          split at h1
          · rename_i hnt
            rw [if_pos hnt]
            simp only [Round.returns.injEq, Outcome.ok.injEq] at h1
            subst h1
            simp [hT, hTne, hA]
          · rename_i hnt
            rw [if_neg hnt]
            split at h1
            · rename_i hc1
              rw [if_pos hc1]
              simp only [Round.returns.injEq, Outcome.ok.injEq] at h1
              subst h1
              simp [hT, hTne, hA]
            · simp at h1

theorem loop_body_again_congr (MAX : Nat) (reg : Bytes → Bool) (b1 b2 a1 : MessageIterator)
    (hs : b2.bgzip_in = b1.bgzip_in) (hpos : b1.bgzip_in.positioning = true)
    (hI1 : b1.previous_tag = [] ∨ reg b1.previous_tag = true)
    (hI2 : b2.previous_tag = [] ∨ reg b2.previous_tag = true)
    (h1 : MessageIterator.loop_body MAX reg b1 = Round.again a1) :
    MessageIterator.loop_body MAX reg b2 = Round.again { a1 with value := (a1.value.1, b2.value.2) } ∧
      a1.group_vo = (b1.bgzip_in.pos : Int) := by
  have hT : b1.bgzip_in.Tell = (b1.bgzip_in.pos : Int) := by
    simp [BlockedGzipInputStream.Tell, hpos]
  have hTne : ¬ ((b1.bgzip_in.pos : Int) = -1) := by omega
  unfold MessageIterator.loop_body at h1 ⊢
  simp only [hs] at h1 ⊢
  split at h1
  · simp at h1
  · rename_i count c1 hq1
    split at h1
    · simp at h1
    · rename_i tagSize c2 hq2
      split at h1
      · simp at h1
      · rename_i hsz
        rw [if_neg hsz]
        split at h1
        · simp at h1
        · rename_i first c3 hq3
          rw [classification_eq_registry reg _ first hI1] at h1
          rw [classification_eq_registry reg _ first hI2]
          have hA : ∀ x : Int, (if (b1.bgzip_in.after c1).Tell = -1 then x
              else (b1.bgzip_in.after c1).Tell) = ((b1.bgzip_in.pos + c1.count : Nat) : Int) := by
            intro x
            rw [after_Tell_ite]
            simp [hpos]
          split at h1
          · simp at h1
          · rename_i hnt
            rw [if_neg hnt]
            split at h1
            · simp at h1
            · rename_i hc1
              rw [if_neg hc1]
              simp only [Round.again.injEq] at h1
              subst h1
              simp [hT, hTne, hA]

/-- The value that read_message finds in the state has no influence on a normal result. -/
theorem read_message_value (MAX : Nat) (a r : MessageIterator) (v : TaggedMessage)
    (h : MessageIterator.read_message MAX a = Outcome.ok r) :
    MessageIterator.read_message MAX { a with value := v } = Outcome.ok r := by
  unfold MessageIterator.read_message at h ⊢
  simp only at h ⊢
  split at h
  · simp at h
  · split at h
    · simp at h
    · rename_i hsz
      rw [if_neg hsz]
      split at h
      · simp at h
      · exact h

/-- Two readers at a group boundary of the same stream, which supports positioning, load
the same group into the same state, whatever their other members are, as long as their
cached tags are empty or accepted by the registry. -/
theorem load_congr (MAX : Nat) (reg : Bytes → Bool) (b1 b2 r1 : MessageIterator)
    (hs : b2.bgzip_in = b1.bgzip_in) (hpos : b1.bgzip_in.positioning = true)
    (hI1 : b1.previous_tag = [] ∨ reg b1.previous_tag = true)
    (hI2 : b2.previous_tag = [] ∨ reg b2.previous_tag = true)
    (hb1 : b1.group_count = b1.group_idx) (hb2 : b2.group_count = b2.group_idx)
    (h1 : MessageIterator.advance MAX reg b1 = Outcome.ok r1)
    (hcur : r1.has_current = true) :
    MessageIterator.advance MAX reg b2 = Outcome.ok r1 ∧
      r1.group_vo = (b1.bgzip_in.pos : Int) := by
  rcases advance_cases MAX reg b1 with ⟨_, r, hl, ha⟩ | ⟨_, a1, hl, ha⟩ | ⟨hne, _⟩
  · rw [ha] at h1
    subst h1
    obtain ⟨hl2, hvo⟩ := loop_body_returns_congr MAX reg b1 b2 r1 hs hpos hI1 hI2 hl hcur
    refine ⟨?_, hvo⟩
    rcases advance_cases MAX reg b2 with ⟨_, r, hl', ha'⟩ | ⟨_, a2, hl', _⟩ | ⟨hne, _⟩
    · rw [ha']
      rw [hl2] at hl'
      simp only [Round.returns.injEq] at hl'
      exact hl'.symm
    · rw [hl2] at hl'
      simp at hl'
    · exact absurd hb2 hne
  · rw [ha] at h1
    obtain ⟨hl2, hvo⟩ := loop_body_again_congr MAX reg b1 b2 a1 hs hpos hI1 hI2 hl
    obtain ⟨_, _, g3, _, _, _⟩ := read_message_inv MAX a1 r1 h1
    refine ⟨?_, by rw [g3, hvo]⟩
    rcases advance_cases MAX reg b2 with ⟨_, r, hl', _⟩ | ⟨_, a2, hl', ha'⟩ | ⟨hne, _⟩
    · rw [hl2] at hl'
      simp at hl'
    · rw [ha']
      rw [hl2] at hl'
      simp only [Round.again.injEq] at hl'
      rw [← hl']
      exact read_message_value MAX a1 r1 _ h1
    · exact absurd hb2 hne
  · exact absurd hb1 hne

/-! ## Seeking -/

/-- What a seek_group that returns true has done, on a reader whose states with
group_idx = 0 have no group offset: it has moved the stream and loaded a group with
advance. -/
theorem seek_group_true (MAX : Nat) (reg : Bytes → Bool) (it it1 : MessageIterator) (vo : Int)
    (hI : it.group_idx = 0 → it.group_vo = -1)
    (h : MessageIterator.seek_group MAX reg it vo = Outcome.ok (true, it1)) :
    0 ≤ vo ∧ it.bgzip_in.positioning = true ∧
      MessageIterator.advance MAX reg
        { it with
          bgzip_in := { it.bgzip_in with pos := vo.toNat }
          group_count := 0
          group_idx := 0 } = Outcome.ok it1 := by
  unfold MessageIterator.seek_group at h
  split at h
  · simp at h
  · rename_i hneg
    split at h
    · rename_i hshort
      have := hI hshort.1
      omega
    · split at h
      · simp at h
      · rename_i sought hseek
        obtain ⟨_, _, s3⟩ := Seek_fields _ _ _ _ hseek
        obtain ⟨sp, _, _⟩ := s3 rfl
        have hsought : sought = { it.bgzip_in with pos := vo.toNat } := by
          unfold BlockedGzipInputStream.Seek at hseek
          split at hseek
          · simp only [Prod.mk.injEq, and_true] at hseek
            exact hseek.symm
          · simp at hseek
        split at h
        · simp at h
        · rename_i it2 hadv
          simp only [Outcome.ok.injEq, Prod.mk.injEq, true_and] at h
          subst h
          rw [hsought] at hadv
          exact ⟨by omega, sp, hadv⟩

/-- What a state in which a group is current remembers of the load of the group. -/
theorem in_group_load (MAX : Nat) (reg : Bytes → Bool) (data : Bytes) (it : MessageIterator)
    (first : TaggedMessage) (h : MessageIterator.InGroup MAX reg data true it first) :
    it.bgzip_in.positioning = true ∧
    ∃ b r0 : MessageIterator, b.group_count = b.group_idx ∧
      (b.previous_tag = [] ∨ reg b.previous_tag = true) ∧
      b.bgzip_in.data = data ∧ b.bgzip_in.positioning = true ∧
      MessageIterator.advance MAX reg b = Outcome.ok r0 ∧ r0.has_current = true ∧
      r0.value = first ∧ it.group_vo = r0.group_vo := by
  induction h with
  | constructed pos it hc hcur =>
    have hinv := advance_inv MAX reg data true _ it hc (Or.inl rfl) rfl rfl
    exact ⟨hinv.2.2.2, _, it, rfl, Or.inl rfl, rfl, rfl, hc, hcur, rfl, rfl⟩
  | loaded it it1 hr hb hstep hcur =>
    obtain ⟨h1, _, h3, h4⟩ := reachable_inv MAX reg data true it hr
    rcases hstep with ha | ha
    · have hinv := advance_inv MAX reg data true it it1 ha h1 h3 h4
      exact ⟨hinv.2.2.2, it, it1, hb, h1, h3, h4, ha, hcur, rfl, rfl⟩
    · have ha' : MessageIterator.advance MAX reg { it with value := ([], none) } =
          Outcome.ok it1 := ha
      have hinv := advance_inv MAX reg data true { it with value := ([], none) } it1 ha' h1 h3 h4
      exact ⟨hinv.2.2.2, { it with value := ([], none) }, it1, hb, h1, h3, h4, ha', hcur, rfl,
        rfl⟩
  | next it it1 first _ hnb hstep ih =>
    obtain ⟨hp, b, r0, hb, hI, hd, hpb, hadv, hcur, hv, hvo⟩ := ih
    refine ⟨?_, b, r0, hb, hI, hd, hpb, hadv, hcur, hv, ?_⟩
    · rcases hstep with ha | ha
      · rcases advance_cases MAX reg it with ⟨hb', _⟩ | ⟨hb', _⟩ | ⟨_, ha'⟩
        · exact absurd hb' hnb
        · exact absurd hb' hnb
        · rw [ha'] at ha
          obtain ⟨_, _, _, _, _, g6⟩ := read_message_inv MAX it it1 ha
          rw [g6]; exact hp
      · rcases advance_cases MAX reg { it with value := ([], none) } with
          ⟨hb', _⟩ | ⟨hb', _⟩ | ⟨_, ha'⟩
        · exact absurd hb' hnb
        · exact absurd hb' hnb
        · simp only [MessageIterator.take] at ha
          rw [ha'] at ha
          obtain ⟨_, _, _, _, _, g6⟩ := read_message_inv MAX _ it1 ha
          rw [g6]; exact hp
    · rcases hstep with ha | ha
      · rcases advance_cases MAX reg it with ⟨hb', _⟩ | ⟨hb', _⟩ | ⟨_, ha'⟩
        · exact absurd hb' hnb
        · exact absurd hb' hnb
        · rw [ha'] at ha
          obtain ⟨_, _, g3, _, _, _⟩ := read_message_inv MAX it it1 ha
          rw [g3]; exact hvo
      · rcases advance_cases MAX reg { it with value := ([], none) } with
          ⟨hb', _⟩ | ⟨hb', _⟩ | ⟨_, ha'⟩
        · exact absurd hb' hnb
        · exact absurd hb' hnb
        · simp only [MessageIterator.take] at ha
          rw [ha'] at ha
          obtain ⟨_, _, g3, _, _, _⟩ := read_message_inv MAX _ it1 ha
          rw [g3]; exact hvo

theorem tell_group_positioning (it : MessageIterator) (hp : it.bgzip_in.positioning = true)
    (hvo : 0 ≤ it.group_vo) : it.tell_group = it.group_vo := by
  have hT : it.bgzip_in.Tell = (it.bgzip_in.pos : Int) := by
    simp [BlockedGzipInputStream.Tell, hp]
  unfold MessageIterator.tell_group
  rw [hT]
  have h1 : ((it.bgzip_in.pos : Int) ≠ -1) := by omega
  have h2 : ¬ (it.group_vo = -1) := by omega
  simp [h1, h2]

/-- C9 (seek idempotence).  On a stream that supports positioning, let `g` be what
tell_group returns in a state of a forward iteration in which a group is current.  If a later
seek_group(g), called in any state the reader can reach, returns true, then tell_group
returns `g` right after it, and the current tagged message is the first tagged message that
was produced when the group was originally loaded.  The size limit is one whose double fits
an int, as the embedding of the reader requires. -/
theorem seek_idempotence (MAX : Nat) (reg : Bytes → Bool) (data : Bytes)
    (it : MessageIterator) (first : TaggedMessage) (it2 it3 : MessageIterator)
    (_hhi : MAX * 2 < 2 ^ 31)
    (hg : MessageIterator.InGroup MAX reg data true it first)
    (hr : MessageIterator.Reachable MAX reg data true it2)
    (hseek : MessageIterator.seek_group MAX reg it2 it.tell_group = Outcome.ok (true, it3)) :
    it3.tell_group = it.tell_group ∧ it3.value = first := by
  obtain ⟨hp, b, r0, hb, hI, hd, hpb, hadv, hcur, hv, hvo⟩ :=
    in_group_load MAX reg data it first hg
  obtain ⟨h1, h2, h3, h4⟩ := reachable_inv MAX reg data true it2 hr
  -- the group offset of the load is the position of the stream at the load
  obtain ⟨_, hvo0⟩ := load_congr MAX reg b b r0 rfl hpb hI hI hb hb hadv hcur
  have hitvo : it.group_vo = (b.bgzip_in.pos : Int) := by rw [hvo, hvo0]
  have htell : it.tell_group = (b.bgzip_in.pos : Int) := by
    rw [tell_group_positioning it hp (by omega), hitvo]
  rw [htell] at hseek ⊢
  obtain ⟨_, _, hadv2⟩ := seek_group_true MAX reg it2 it3 _ h2 hseek
  have hstream : ({ it2.bgzip_in with pos := ((b.bgzip_in.pos : Int)).toNat } :
      BlockedGzipInputStream) = b.bgzip_in := by
    cases hbs : b.bgzip_in with
    | mk d p q =>
      rw [hbs] at hd hpb
      simp only at hd hpb
      simp [h3, h4, hd, hpb]
  obtain ⟨hadv3, _⟩ := load_congr MAX reg b
    { it2 with
      bgzip_in := { it2.bgzip_in with pos := ((b.bgzip_in.pos : Int)).toNat }
      group_count := 0
      group_idx := 0 } r0 hstream hpb hI h1 hb rfl hadv hcur
  rw [hadv3] at hadv2
  simp only [Outcome.ok.injEq] at hadv2
  subst hadv2
  have hinv := advance_inv MAX reg data true b r0 hadv hI hd hpb
  refine ⟨?_, hv⟩
  rw [tell_group_positioning r0 hinv.2.2.2 (by omega), hvo0]

/-- Witness of `seek_idempotence`: over the stream of the groups ["A", "B"] and ["C"], the
reader is constructed, advances to "B" (tell_group is 0, the offset of the first group),
advances into the second group, and seeks back to offset 0, where "A" is current again. -/
theorem seek_idempotence_witness :
    (20 * 2 < 2 ^ 31 ∧
      MessageIterator.InGroup 20 (fun b => b == [71, 65, 77]) [2, 1, 65, 1, 66, 1, 1, 67] true
        ⟨([], some [66]), [], 2, 2, 0, 3, ⟨[2, 1, 65, 1, 66, 1, 1, 67], 5, true⟩⟩ ([], some [65]) ∧
      MessageIterator.Reachable 20 (fun b => b == [71, 65, 77]) [2, 1, 65, 1, 66, 1, 1, 67] true
        ⟨([], some [67]), [], 1, 1, 5, 6, ⟨[2, 1, 65, 1, 66, 1, 1, 67], 8, true⟩⟩ ∧
      MessageIterator.seek_group 20 (fun b => b == [71, 65, 77])
        ⟨([], some [67]), [], 1, 1, 5, 6, ⟨[2, 1, 65, 1, 66, 1, 1, 67], 8, true⟩⟩
        (MessageIterator.tell_group
          ⟨([], some [66]), [], 2, 2, 0, 3, ⟨[2, 1, 65, 1, 66, 1, 1, 67], 5, true⟩⟩) =
        Outcome.ok
          (true, ⟨([], some [65]), [], 2, 1, 0, 1, ⟨[2, 1, 65, 1, 66, 1, 1, 67], 3, true⟩⟩)) ∧
    MessageIterator.tell_group
        ⟨([], some [65]), [], 2, 1, 0, 1, ⟨[2, 1, 65, 1, 66, 1, 1, 67], 3, true⟩⟩ =
      MessageIterator.tell_group
        ⟨([], some [66]), [], 2, 2, 0, 3, ⟨[2, 1, 65, 1, 66, 1, 1, 67], 5, true⟩⟩ ∧
    (⟨([], some [65]), [], 2, 1, 0, 1, ⟨[2, 1, 65, 1, 66, 1, 1, 67], 3, true⟩⟩ :
      MessageIterator).value = ([], some [65]) :=
  have hg : MessageIterator.InGroup 20 (fun b => b == [71, 65, 77])
      [2, 1, 65, 1, 66, 1, 1, 67] true
      ⟨([], some [66]), [], 2, 2, 0, 3, ⟨[2, 1, 65, 1, 66, 1, 1, 67], 5, true⟩⟩ ([], some [65]) :=
    MessageIterator.InGroup.next
      ⟨([], some [65]), [], 2, 1, 0, 1, ⟨[2, 1, 65, 1, 66, 1, 1, 67], 3, true⟩⟩ _ _
      (MessageIterator.InGroup.constructed 0
        ⟨([], some [65]), [], 2, 1, 0, 1, ⟨[2, 1, 65, 1, 66, 1, 1, 67], 3, true⟩⟩ (by decide)
        (by decide))
      (by decide) (Or.inl (by decide))
  have hr : MessageIterator.Reachable 20 (fun b => b == [71, 65, 77])
      [2, 1, 65, 1, 66, 1, 1, 67] true
      ⟨([], some [67]), [], 1, 1, 5, 6, ⟨[2, 1, 65, 1, 66, 1, 1, 67], 8, true⟩⟩ :=
    MessageIterator.Reachable.advanced
      ⟨([], some [66]), [], 2, 2, 0, 3, ⟨[2, 1, 65, 1, 66, 1, 1, 67], 5, true⟩⟩ _
      (MessageIterator.Reachable.advanced
        ⟨([], some [65]), [], 2, 1, 0, 1, ⟨[2, 1, 65, 1, 66, 1, 1, 67], 3, true⟩⟩ _
        (MessageIterator.Reachable.constructed 0 _ (by decide)) (by decide)) (by decide)
  ⟨⟨by decide, hg, hr, by decide⟩,
    seek_idempotence 20 (fun b => b == [71, 65, 77]) [2, 1, 65, 1, 66, 1, 1, 67]
      ⟨([], some [66]), [], 2, 2, 0, 3, ⟨[2, 1, 65, 1, 66, 1, 1, 67], 5, true⟩⟩ ([], some [65])
      ⟨([], some [67]), [], 1, 1, 5, 6, ⟨[2, 1, 65, 1, 66, 1, 1, 67], 8, true⟩⟩
      ⟨([], some [65]), [], 2, 1, 0, 1, ⟨[2, 1, 65, 1, 66, 1, 1, 67], 3, true⟩⟩ (by decide) hg hr
      (by decide)⟩

/-! ## Seeking to a group that the writer reported -/

theorem mem_file_calls_split (p : Bool) (n : Nat) (gs : List (List Bytes)) :
    ∀ base, ∀ c ∈ file_calls p n base gs,
      ∃ gs1 gs2, gs = gs1 ++ c.messages :: gs2 ∧
        c.start_offset = offset_at p (base + (wire.File gs1).length) := by
  induction gs with
  | nil => intro base c hc; simp [file_calls] at hc
  | cons g gs ih =>
    intro base c hc
    rw [file_calls] at hc
    rcases List.mem_append.mp hc with h | h
    · simp only [group_calls, List.mem_map] at h
      obtain ⟨j, _, rfl⟩ := h
      exact ⟨[], gs, by simp, by simp [wire.File]⟩
    · obtain ⟨gs1, gs2, hgs, hoff⟩ := ih _ c h
      refine ⟨g :: gs1, gs2, by rw [hgs]; rfl, ?_⟩
      rw [hoff]
      simp [wire.File, Nat.add_assoc]

/-- Inside a group, with no tag in force: the current value and the values that the
following advances yield, up to the last message of the group. -/
theorem values_in_group (MAX : Nat) (reg : Bytes → Bool) (hlo : 15 ≤ MAX)
    (hhi : MAX * 2 < 2 ^ 31) (tail : Bytes) (ms : List Bytes) :
    ∀ it : MessageIterator, 0 ≤ it.item_vo → it.previous_tag = [] →
      it.group_count = it.group_idx + ms.length →
      it.bgzip_in.data.drop it.bgzip_in.pos = wire.Slots ms ++ tail →
      (∀ m ∈ ms, m.length ≤ MAX) →
      MessageIterator.values_from MAX reg ms.length it = some (it.value :: ms.map untagged) := by
  induction ms with
  | nil =>
    intro it hcur _ _ _ _
    simp [MessageIterator.values_from, has_current_of_nonneg it hcur]
  | cons m ms ih =>
    intro it hcur hprev hcnt hd hms
    have hb : it.group_count ≠ it.group_idx := by simp at hcnt; omega
    have hd' : it.bgzip_in.data.drop it.bgzip_in.pos = wire.Slot m ++ (wire.Slots ms ++ tail) := by
      simpa [wire.Slots, List.append_assoc] using hd
    obtain ⟨it1, hstep, hv, hp, hgc, hgi, _, hiv, _, _, _, hd1⟩ :=
      next_message_step MAX reg it m _ hb hd' (hms m (by simp)) hlo hhi
    have hrec := ih it1 (hiv (by omega)) (by rw [hp, hprev])
      (by rw [hgc, hgi, hcnt]; simp; omega) hd1 (fun x hx => hms x (by simp [hx]))
    rw [List.length_cons, MessageIterator.values_from]
    simp only [has_current_of_nonneg it hcur, if_true, hstep]
    rw [hrec, hv, hprev]
    simp [untagged]

/-- The step that loads a group whose first slot is not a tag, on a stream that supports
positioning. -/
theorem first_message_step_positioning (MAX : Nat) (reg : Bytes → Bool) (it : MessageIterator)
    (c : Nat) (s tail : Bytes)
    (hb : it.group_count = it.group_idx)
    (hd : it.bgzip_in.data.drop it.bgzip_in.pos = wire.varint c ++ (wire.Slot s ++ tail))
    (hc : c < 2 ^ 64) (hs : s.length ≤ MAX) (hlo : 15 ≤ MAX) (hhi : MAX * 2 < 2 ^ 31)
    (hreg : reg s = false) (hprev : ¬ (it.previous_tag ≠ [] ∧ it.previous_tag = s))
    (hpos : it.bgzip_in.positioning = true) :
    ∃ it1, MessageIterator.advance MAX reg it = Outcome.ok it1 ∧
      it1.value = untagged s ∧ it1.previous_tag = [] ∧
      it1.group_count = c ∧ it1.group_idx = 1 ∧ 0 ≤ it1.item_vo ∧
      it1.bgzip_in.data.drop it1.bgzip_in.pos = tail := by
  refine ⟨_, advance_first_message MAX reg it c s tail hb hd hc hs hlo hhi hreg hprev,
    rfl, rfl, rfl, rfl, ?_, ?_⟩
  · show (0 : Int) ≤ (if it.bgzip_in.positioning = true then
      ((it.bgzip_in.pos + (wire.varint c).length : Nat) : Int) else it.item_vo + 1)
    rw [if_pos hpos]
    omega
  · have := drop_after it.bgzip_in.data (wire.varint c ++ wire.Slot s) tail it.bgzip_in.pos
      (by simpa [List.append_assoc] using hd)
    simpa [List.length_append] using this

/-- C8 (seek to a writer-reported offset).  An emitter over a stream that supports
positioning and accepts every write, with listeners that return normally, writes messages
within the size limit, none of them a tag for the registry, and is destroyed.  For every
group reported to a listener as (messages, start_offset, end_offset), and for every state
that a reader of the finished stream can reach, seek_group(start_offset) returns true, and
the current value together with the values of the following advances are exactly the
messages of that group, in the order written, each as `("", m)`. -/
theorem seek_to_reported_group (MAX : Nat) (reg : Bytes → Bool) (out0 : BlockedGzipOutputStream)
    (max_group_size : Nat) (listeners : List listener_t) (writes : List (Bool × Bytes))
    (hlo : 15 ≤ MAX) (hhi : MAX * 2 < 2 ^ 31) (hk : max_group_size < 2 ^ 64)
    (hpos : out0.positioning = true) (hcap : out0.capacity = none)
    (hls : ∀ h ∈ listeners, ∀ g a b, h g a b = true)
    (hsz : ∀ w ∈ writes, w.2.length ≤ MAX) (hreg : ∀ w ∈ writes, reg w.2 = false) :
    ∃ e out,
      MessageEmitter.write_each_and_close MAX
        ((MessageEmitter.construct out0 max_group_size).with_listeners listeners) writes =
          Outcome.ok e ∧
      e.bgzip_out = some out ∧
      ∀ c ∈ e.calls, ∀ it, MessageIterator.Reachable MAX reg out.written true it →
        ∃ it1, MessageIterator.seek_group MAX reg it c.start_offset = Outcome.ok (true, it1) ∧
          MessageIterator.values_from MAX reg (c.messages.length - 1) it1 =
            some (c.messages.map untagged) := by
  obtain ⟨out1, hu, hw, hp1, _⟩ := fresh_unfailing MAX out0 max_group_size listeners hcap hls
  have hsz' : ∀ m ∈ writes.map Prod.snd, m.length ≤ MAX := by
    intro m hm
    obtain ⟨w, hw, rfl⟩ := List.mem_map.mp hm
    exact hsz w hw
  have hreg' : ∀ m ∈ writes.map Prod.snd, reg m = false := by
    intro m hm
    obtain ⟨w, hw, rfl⟩ := List.mem_map.mp hm
    exact hreg w hw
  have hmax : ((MessageEmitter.construct out0 max_group_size).with_listeners
      listeners).max_group_size = max_group_size := by
    simp [with_listeners_fields, MessageEmitter.construct]
  have hcalls : ((MessageEmitter.construct out0 max_group_size).with_listeners
      listeners).calls = [] := by
    simp [with_listeners_fields, MessageEmitter.construct]
  have hrun := write_and_close_unfailing MAX hhi (writes.map Prod.snd) _ out1 hu
    (by rw [hmax]; exact hk) (by simp [with_listeners_fields, MessageEmitter.construct]) hsz'
  rw [hmax, hcalls, hp1, hpos] at hrun
  refine ⟨_, _, by rw [write_each_and_close_eq]; exact hrun, rfl, ?_⟩
  intro c hc it hr
  simp only [List.nil_append] at hc
  obtain ⟨gs1, gs2, hgs, hoff⟩ := mem_file_calls_split _ _ _ _ c hc
  have hread := readable_flushed MAX reg max_group_size _ hk hsz' hreg'
  obtain ⟨hne, hlen, hmsz, hmreg⟩ := hread c.messages (by rw [hgs]; simp)
  obtain ⟨m, ms, hcm⟩ : ∃ m ms, c.messages = m :: ms := by
    cases hm : c.messages with
    | nil => exact absurd hm hne
    | cons a l => exact ⟨a, l, rfl⟩
  obtain ⟨h1, h2, h3, h4⟩ := reachable_inv MAX reg _ true it hr
  simp only at h3
  have hoff' : c.start_offset = ((out1.written.length + (wire.File gs1).length : Nat) : Int) := by
    rw [hoff]; simp [offset_at]
  -- the seek moves the stream to the start of the group and calls advance
  have hnotshort : ¬ (it.group_idx = 0 ∧ it.group_vo = c.start_offset) := by
    rintro ⟨h0, hv⟩
    have := h2 h0
    omega
  have hseekpos : (c.start_offset).toNat ≤ it.bgzip_in.data.length := by
    rw [h3, hoff', hgs, File_append]
    simp
  have hdrop : it.bgzip_in.data.drop (c.start_offset).toNat =
      wire.varint (m :: ms).length ++ (wire.Slot m ++ (wire.Slots ms ++ wire.File gs2)) := by
    rw [h3, hoff', hgs, File_append, hcm]
    simp only [Int.toNat_ofNat, wire.File, wire.Group, wire.Slots, List.append_assoc]
    rw [← List.append_assoc out1.written, ← List.length_append, List.drop_left]
  obtain ⟨it1, hadv, hv, hp, hgc, hgi, hiv, hd1⟩ := first_message_step_positioning MAX reg
    { it with
      bgzip_in := { it.bgzip_in with pos := (c.start_offset).toNat }
      group_count := 0
      group_idx := 0 } (m :: ms).length m _ rfl hdrop (by rw [← hcm]; exact hlen)
    (hmsz m (by rw [hcm]; simp)) hlo hhi (hmreg m (by rw [hcm]; rfl)) (by
      rintro ⟨hne', heq⟩
      rcases h1 with h | h
      · exact hne' h
      · have hm := hmreg m (by rw [hcm]; rfl)
        simp only at heq
        rw [heq, hm] at h
        exact Bool.noConfusion h) h4
  refine ⟨it1, ?_, ?_⟩
  · unfold MessageIterator.seek_group
    have hnn : ¬ (c.start_offset < 0) := by omega
    rw [if_neg hnn, if_neg hnotshort]
    simp only [BlockedGzipInputStream.Seek]
    rw [if_pos ⟨h4, by omega, hseekpos⟩]
    simp only [hadv]
  · have hval := values_in_group MAX reg hlo hhi (wire.File gs2) ms it1 hiv hp
      (by rw [hgc, hgi]; simp; omega) hd1 (fun x hx => hmsz x (by rw [hcm]; simp [hx]))
    rw [hcm, List.length_cons, Nat.add_sub_cancel, hval, hv]
    rfl

/-- Witness of `seek_to_reported_group`: three messages in groups of two, reported to one
listener. -/
theorem seek_to_reported_group_witness :
    (15 ≤ 20 ∧ 20 * 2 < 2 ^ 31 ∧ 2 < 2 ^ 64) ∧
    ∃ e out,
      MessageEmitter.write_each_and_close 20
        ((MessageEmitter.construct ⟨[], true, none, 0, 0⟩ 2).with_listeners [fun _ _ _ => true])
        [(false, [1]), (true, [2]), (false, [3])] = Outcome.ok e ∧
      e.bgzip_out = some out ∧
      ∀ c ∈ e.calls, ∀ it,
        MessageIterator.Reachable 20 (fun b => b == [71, 65, 77]) out.written true it →
        ∃ it1, MessageIterator.seek_group 20 (fun b => b == [71, 65, 77]) it c.start_offset =
            Outcome.ok (true, it1) ∧
          MessageIterator.values_from 20 (fun b => b == [71, 65, 77]) (c.messages.length - 1)
            it1 = some (c.messages.map untagged) :=
  ⟨by decide,
    seek_to_reported_group 20 (fun b => b == [71, 65, 77]) ⟨[], true, none, 0, 0⟩ 2
      [fun _ _ _ => true] [(false, [1]), (true, [2]), (false, [3])]
      (by decide) (by decide) (by decide) rfl rfl (by simp) (by decide) (by decide)⟩

/-! ## Further claims about the writer -/

/-- C11 (the size limit bounds every encoded record), the code at a failing input.  With a
size limit of 3 bytes, write of the 4-byte message [1, 2, 3, 4] throws "message too large",
but the message is then the last element of the pending group; when the caller lets the
emitter go out of scope, the destructor flushes that group, and the stream holds the slot
`varint(4) ++ [1, 2, 3, 4]`, whose byte length exceeds the limit. -/
theorem oversize_message_reaches_stream :
    ∃ e1 e2, MessageEmitter.write 3 (MessageEmitter.construct ⟨[], true, none, 0, 0⟩ 2)
        [1, 2, 3, 4] = Outcome.thrown Failure.message_too_large e1 ∧
      e1.group = [[1, 2, 3, 4]] ∧
      MessageEmitter.destroy e1 = Outcome.ok e2 ∧
      e2.bgzip_out = some ⟨[1, 4, 1, 2, 3, 4], true, none, 0, 1⟩ ∧
      wire.Group [[1, 2, 3, 4]] = [1, 4, 1, 2, 3, 4] ∧
      3 < ([1, 2, 3, 4] : Bytes).length := by
  refine ⟨_, _, rfl, rfl, rfl, rfl, ?_, by decide⟩
  simp [wire.Group, wire.Slots, wire.Slot, varint_small]

/-- C15 (listener notification).  A flush of a non-empty pending group that returns normally
has invoked every registered listener exactly once, in registration order, and each with the
messages of the group in write order, the position that the stream reported before the count
varint was written, and the position that it reported after the last message byte was
written.  On a stream without positioning both offsets are -1; on a stream with positioning
they are the byte positions before and after the group. -/
theorem listener_notification (e e1 : MessageEmitter) (hne : e.group ≠ [])
    (hlen : e.group.length < 2 ^ 64)
    (hok : MessageEmitter.emit_group e = Outcome.ok e1) :
    ∃ out out1, e.bgzip_out = some out ∧ e1.bgzip_out = some out1 ∧
      out1.written = out.written ++ wire.Group e.group ∧
      e1.calls = e.calls ++
        (List.range e.group_handlers.length).map (fun i => ⟨i, e.group, out.Tell, out1.Tell⟩) ∧
      (∀ i, i < e.group_handlers.length →
        times_called i (group_calls e.group out.Tell out1.Tell e.group_handlers.length) = 1) ∧
      (out.positioning = false → out.Tell = -1 ∧ out1.Tell = -1) ∧
      (out.positioning = true → out.Tell = (out.written.length : Int) ∧
        out1.Tell = ((out.written.length + (wire.Group e.group).length : Nat) : Int)) := by
  obtain ⟨out, hout, he1⟩ := emit_group_ok e e1 hne hlen hok
  refine ⟨out, { out with written := out.written ++ wire.Group e.group }, hout, by rw [he1],
    rfl, ?_, ?_, ?_, ?_⟩
  · rw [he1]
    simp only [group_calls, offset_at, BlockedGzipOutputStream.Tell, List.length_append,
      Nat.cast_add]
  · intro i hi
    rw [times_called_group_calls]
    simp [hi]
  · intro hp
    simp [BlockedGzipOutputStream.Tell, hp]
  · intro hp
    simp [BlockedGzipOutputStream.Tell, hp]

/-- Witness of `listener_notification`: the group [[1, 2], [3]] flushed to a stream that
holds the byte 9, with two listeners. -/
theorem listener_notification_witness :
    ((⟨[[1, 2], [3]], 2, some ⟨[9], true, none, 0, 0⟩, [fun _ _ _ => true, fun _ _ _ => true],
        []⟩ : MessageEmitter).group ≠ [] ∧
      (⟨[[1, 2], [3]], 2, some ⟨[9], true, none, 0, 0⟩, [fun _ _ _ => true, fun _ _ _ => true],
        []⟩ : MessageEmitter).group.length < 2 ^ 64) ∧
    ∃ e1,
      MessageEmitter.emit_group
        ⟨[[1, 2], [3]], 2, some ⟨[9], true, none, 0, 0⟩, [fun _ _ _ => true, fun _ _ _ => true],
          []⟩ = Outcome.ok e1 ∧
      e1.calls = [⟨0, [[1, 2], [3]], 1, 7⟩, ⟨1, [[1, 2], [3]], 1, 7⟩] ∧
      ∃ out out1, some (⟨[9], true, none, 0, 0⟩ : BlockedGzipOutputStream) = some out ∧
        e1.bgzip_out = some out1 ∧
        out1.written = out.written ++ wire.Group [[1, 2], [3]] :=
  ⟨⟨by simp, by simp⟩, _, rfl, rfl,
    (listener_notification
      ⟨[[1, 2], [3]], 2, some ⟨[9], true, none, 0, 0⟩, [fun _ _ _ => true, fun _ _ _ => true], []⟩
      _ (by simp) (by simp) rfl).imp (fun _ h => h.imp (fun _ h => ⟨h.1, h.2.1, h.2.2.1⟩))⟩

/-- A flush that returns normally leaves no message pending. -/
theorem emit_group_clears (e e1 : MessageEmitter) (hne : e.group ≠ [])
    (hok : MessageEmitter.emit_group e = Outcome.ok e1) : e1.group = [] := by
  unfold MessageEmitter.emit_group at hok
  split at hok
  · rename_i hemp
    simp only [List.isEmpty_iff] at hemp
    exact absurd hemp hne
  · split at hok
    · simp at hok
    · split at hok
      · simp at hok
      · split at hok
        · simp at hok
        · simp only at hok
          split at hok
          · simp at hok
          · simp only [Outcome.ok.injEq] at hok
            rw [← hok]

/-- C16 (size-triggered flush in write).  Let `m` be a message within the size limit.  If
the pending group holds fewer than max_group_size messages, write(m) returns normally, and
nothing but the pending group has changed: `m` is appended at its end, the stream has no new
byte and no listener was invoked.  If the pending group holds max_group_size messages,
write(m) first flushes exactly that group; when the flush returns normally the group is on
the stream in wire format (when it is not empty) and the pending group is `[m]`, and when
the flush throws the write throws with it. -/
theorem size_triggered_flush (MAX : Nat) (e : MessageEmitter) (m : Bytes)
    (hm : m.length ≤ MAX) :
    (e.group.length < e.max_group_size →
      MessageEmitter.write MAX e m = Outcome.ok { e with group := e.group ++ [m] }) ∧
    (e.group.length = e.max_group_size →
      (∀ e1, MessageEmitter.emit_group e = Outcome.ok e1 →
        MessageEmitter.write MAX e m = Outcome.ok { e1 with group := [m] } ∧
        (e.group ≠ [] → e.group.length < 2 ^ 64 →
          ∃ out, e.bgzip_out = some out ∧
            e1.bgzip_out = some { out with written := out.written ++ wire.Group e.group } ∧
            e1.calls = e.calls ++ group_calls e.group (offset_at out.positioning out.written.length)
              (offset_at out.positioning (out.written.length + (wire.Group e.group).length))
              e.group_handlers.length) ∧
        (e.group = [] → e1 = e)) ∧
      (∀ why e1, MessageEmitter.emit_group e = Outcome.thrown why e1 →
        MessageEmitter.write MAX e m = Outcome.thrown why e1)) := by
  have hnot : ¬ (MAX < m.length) := by omega
  refine ⟨?_, ?_⟩
  · intro hlt
    have hn : ¬ (e.max_group_size ≤ e.group.length) := by omega
    simp [MessageEmitter.write, MessageEmitter.flush_if_full, hn, hnot]
  · intro heq
    have hle : e.max_group_size ≤ e.group.length := by omega
    refine ⟨?_, ?_⟩
    · intro e1 hok
      have hg1 : e1.group = [] := by
        by_cases hne : e.group = []
        · have : MessageEmitter.emit_group e = Outcome.ok e := by
            simp [MessageEmitter.emit_group, hne]
          rw [this] at hok
          simp only [Outcome.ok.injEq] at hok
          rw [← hok]; exact hne
        · exact emit_group_clears e e1 hne hok
      refine ⟨?_, ?_, ?_⟩
      · simp [MessageEmitter.write, MessageEmitter.flush_if_full, hle, hok, hnot, hg1]
      · intro hne hl
        obtain ⟨out, hout, he1⟩ := emit_group_ok e e1 hne hl hok
        exact ⟨out, hout, by rw [he1], by rw [he1]⟩
      · intro hnil
        have : MessageEmitter.emit_group e = Outcome.ok e := by
          simp [MessageEmitter.emit_group, hnil]
        rw [this] at hok
        simp only [Outcome.ok.injEq] at hok
        exact hok.symm
    · intro why e1 hth
      simp [MessageEmitter.write, MessageEmitter.flush_if_full, hle, hth]

/-- Witness of `size_triggered_flush`: a message of two bytes and a size limit of 20. -/
theorem size_triggered_flush_witness :
    ([5, 6] : Bytes).length ≤ 20 ∧
    ((⟨[[1]], 2, some ⟨[], true, none, 0, 0⟩, [], []⟩ : MessageEmitter).group.length <
        (⟨[[1]], 2, some ⟨[], true, none, 0, 0⟩, [], []⟩ : MessageEmitter).max_group_size →
      MessageEmitter.write 20 ⟨[[1]], 2, some ⟨[], true, none, 0, 0⟩, [], []⟩ [5, 6] =
        Outcome.ok
          { (⟨[[1]], 2, some ⟨[], true, none, 0, 0⟩, [], []⟩ : MessageEmitter) with
            group := [[1]] ++ [[5, 6]] }) :=
  ⟨by decide,
    (size_triggered_flush 20 ⟨[[1]], 2, some ⟨[], true, none, 0, 0⟩, [], []⟩ [5, 6]
      (by decide)).1⟩

/-- C17 (flush of an empty pending group).  emit_group on an emitter whose pending group is
empty returns normally and leaves the whole state as it was: the stream has no new byte, not
even a zero count, and no listener was invoked. -/
theorem flush_of_empty_group (e : MessageEmitter) (hempty : e.group = []) :
    MessageEmitter.emit_group e = Outcome.ok e := by
  simp [MessageEmitter.emit_group, hempty]

/-- Witness of `flush_of_empty_group`: an emitter with one listener and a stream that holds
the byte 9. -/
theorem flush_of_empty_group_witness :
    (⟨[], 2, some ⟨[9], true, none, 0, 0⟩, [fun _ _ _ => true], []⟩ : MessageEmitter).group = [] ∧
    MessageEmitter.emit_group ⟨[], 2, some ⟨[9], true, none, 0, 0⟩, [fun _ _ _ => true], []⟩ =
      Outcome.ok ⟨[], 2, some ⟨[9], true, none, 0, 0⟩, [fun _ _ _ => true], []⟩ :=
  ⟨rfl, flush_of_empty_group ⟨[], 2, some ⟨[9], true, none, 0, 0⟩, [fun _ _ _ => true], []⟩ rfl⟩

/-- C18 (destruction of a writer).  An emitter that owns no stream is destroyed without any
effect.  An emitter that owns a stream flushes the pending group, and when the flush returns
normally it signals end of file to the stream once, after the flush: with an empty pending
group only the end-of-file count of the stream grows, by one; with a non-empty pending group
the end of file is signalled on the stream that already holds the group in wire format, and
the listeners were told of the group. -/
theorem destruction (e : MessageEmitter) :
    (e.bgzip_out = none → MessageEmitter.destroy e = Outcome.ok e) ∧
    (∀ out, e.bgzip_out = some out →
      (e.group = [] →
        MessageEmitter.destroy e = Outcome.ok { e with bgzip_out := some out.EndFile } ∧
        out.EndFile = { out with ended := out.ended + 1 }) ∧
      (e.group ≠ [] → e.group.length < 2 ^ 64 →
        ∀ e1, MessageEmitter.emit_group e = Outcome.ok e1 →
          MessageEmitter.destroy e = Outcome.ok
            { e with
              group := []
              bgzip_out := some
                (BlockedGzipOutputStream.EndFile
                  { out with written := out.written ++ wire.Group e.group })
              calls := e.calls ++
                group_calls e.group (offset_at out.positioning out.written.length)
                  (offset_at out.positioning (out.written.length + (wire.Group e.group).length))
                  e.group_handlers.length } ∧
          BlockedGzipOutputStream.EndFile
              { out with written := out.written ++ wire.Group e.group } =
            { out with
              written := out.written ++ wire.Group e.group
              ended := out.ended + 1 }) ∧
      (∀ why e1, MessageEmitter.emit_group e = Outcome.thrown why e1 →
        MessageEmitter.destroy e = Outcome.thrown why e1)) := by
  refine ⟨?_, ?_⟩
  · intro hnone
    simp [MessageEmitter.destroy, hnone]
  · intro out hout
    refine ⟨?_, ?_, ?_⟩
    · intro hnil
      have : MessageEmitter.emit_group e = Outcome.ok e := by
        simp [MessageEmitter.emit_group, hnil]
      refine ⟨?_, rfl⟩
      simp [MessageEmitter.destroy, hout, this]
    · intro hne hl e1 hok
      obtain ⟨out', hout', he1⟩ := emit_group_ok e e1 hne hl hok
      rw [hout] at hout'
      simp only [Option.some.injEq] at hout'
      subst hout'
      refine ⟨?_, rfl⟩
      simp [MessageEmitter.destroy, hout, hok, he1]
    · intro why e1 hth
      simp [MessageEmitter.destroy, hout, hth]

/-- Witness of `destruction`: an emitter that owns an empty stream with positioning, with one
listener and the pending group [[7]]. -/
theorem destruction_witness :
    MessageEmitter.destroy ⟨[[7]], 2, some ⟨[], true, none, 0, 0⟩, [fun _ _ _ => true], []⟩ =
      Outcome.ok ⟨[], 2, some ⟨[1, 1, 7], true, none, 0, 1⟩, [fun _ _ _ => true],
        [⟨0, [[7]], 0, 3⟩]⟩ :=
  (((destruction ⟨[[7]], 2, some ⟨[], true, none, 0, 0⟩, [fun _ _ _ => true], []⟩).2
    ⟨[], true, none, 0, 0⟩ rfl).2.1 (by decide) (by decide) _ rfl).1.trans (by
      simp [wire.Group, wire.Slots, wire.Slot, varint_small, BlockedGzipOutputStream.EndFile,
        group_calls, offset_at]
      rfl)

/-! ## Slots that cannot be read -/

theorem getVarint_all_continuation (fuel : Nat) :
    ∀ (bs : Bytes) (mult acc : Nat), (∀ b ∈ bs, 128 ≤ b) →
      (getVarint fuel bs mult acc).1 = none := by
  induction fuel with
  | zero => intro bs mult acc _; simp [getVarint]
  | succ k ih =>
    intro bs mult acc h
    cases bs with
    | nil => simp [getVarint]
    | cons b rest =>
      have hb : ¬ (b < 128) := by
        have := h b (by simp)
        omega
      simp only [getVarint, hb, if_false]
      exact ih rest _ _ (fun x hx => h x (by simp [hx]))

theorem ReadVarint32_all_continuation (bs : Bytes) (k : Nat) (h : ∀ b ∈ bs, 128 ≤ b) :
    (CodedInputStream.ReadVarint32 ⟨bs, k⟩).1 = none := by
  simp [CodedInputStream.ReadVarint32, getVarint_all_continuation 10 bs 1 0 h]

/-- ReadVarint32 keeps the low 32 bits of a varint of up to 64 bits. -/
theorem ReadVarint32_varint64 (n : Nat) (h : n < 2 ^ 64) (rest : Bytes) (c : Nat) :
    CodedInputStream.ReadVarint32 ⟨wire.varint n ++ rest, c⟩ =
      (some (n % 2 ^ 32), ⟨rest, c + (wire.varint n).length⟩) := by
  simp only [CodedInputStream.ReadVarint32, getVarint_varint n h rest, Option.map_some']
  simp

theorem ReadString_short (bs : Bytes) (k n : Nat) (h : bs.length < n) :
    (CodedInputStream.ReadString ⟨bs, k⟩ n).1 = false := by
  have : ¬ (n ≤ bs.length) := by omega
  simp [CodedInputStream.ReadString, this]

theorem truncated_slot_read_fails (MAX : Nat) (bs : Bytes) (limit k : Nat)
    (hM : MAX < 2 ^ 32) (hl : 5 ≤ limit) (h : truncated_slot MAX bs) :
    slot_read_fails MAX ⟨bs.take limit, k⟩ := by
  rcases h with h | ⟨n, payload, rfl, hn, hp⟩
  · left
    exact ReadVarint32_all_continuation _ _ (fun b hb => h b (List.mem_of_mem_take hb))
  · right
    have hn32 : n < 2 ^ 32 := by omega
    have hlen := varint_length_32 n hn32
    rw [take_append_pre _ _ _ (by omega)]
    refine ⟨n, _, ReadVarint32_varint n hn32 _ k, by omega, by omega, ?_⟩
    apply ReadString_short
    have := List.length_take (limit - (wire.varint n).length) payload
    omega

/-- When the read of the next slot of the group fails for lack of bytes, the part of
operator++ after the loop throws from handle. -/
theorem read_message_corrupt (MAX : Nat) (it : MessageIterator)
    (h : slot_read_fails MAX (it.bgzip_in.coded (MAX * 2))) :
    ∃ it1, MessageIterator.read_message MAX it = Outcome.thrown Failure.corrupt_input it1 ∧
      it1.item_vo = (if it.bgzip_in.Tell = -1 then it.item_vo + 1 else it.bgzip_in.Tell) ∧
      it1.group_idx = it.group_idx ∧ it1.group_count = it.group_count := by
  unfold MessageIterator.read_message
  rcases h with h | ⟨n, c1, hq, hn, h0, hs⟩
  · cases hq : (it.bgzip_in.coded (MAX * 2)).ReadVarint32 with
    | mk o c1 =>
      rw [hq] at h
      simp only at h
      subst h
      simp only [hq]
      exact ⟨_, rfl, rfl, rfl, rfl⟩
  · simp only [hq, hn, if_false, h0, ne_eq, not_false_eq_true, if_true]
    cases hr : c1.ReadString n with
    | mk b rest =>
      obtain ⟨msg, c2⟩ := rest
      rw [hr] at hs
      simp only at hs
      subst hs
      simp only
      exact ⟨_, rfl, rfl, rfl, rfl⟩

/-- When the group count is read and the read of the first slot fails for lack of bytes, the
loop body throws from handle, and the reader keeps the item offset it had. -/
theorem loop_body_corrupt (MAX : Nat) (reg : Bytes → Bool) (it : MessageIterator)
    (count : Nat) (c1 : CodedInputStream)
    (hc : (it.bgzip_in.coded (MAX * 2)).ReadVarint64 = (some count, c1))
    (h : slot_read_fails MAX c1) :
    ∃ it1, MessageIterator.loop_body MAX reg it =
        Round.returns (Outcome.thrown Failure.corrupt_input it1) ∧
      it1.item_vo = it.item_vo ∧ it1.group_count = count ∧ it1.group_idx = 0 := by
  unfold MessageIterator.loop_body
  simp only [hc]
  rcases h with h | ⟨n, c2, hq, hn, h0, hs⟩
  · cases hq : c1.ReadVarint32 with
    | mk o c2 =>
      rw [hq] at h
      simp only at h
      subst h
      simp only
      exact ⟨_, rfl, rfl, rfl, rfl⟩
  · simp only [hq, hn, if_false, h0, ne_eq, not_false_eq_true, if_true]
    cases hr : c2.ReadString n with
    | mk b rest =>
      obtain ⟨msg, c3⟩ := rest
      rw [hr] at hs
      simp only at hs
      subst hs
      simp only
      exact ⟨_, rfl, rfl, rfl, rfl⟩

/-- An advance at a group boundary, where the group count is followed by a truncated first
slot. -/
theorem advance_first_slot_truncated (MAX : Nat) (reg : Bytes → Bool) (it : MessageIterator)
    (c : Nat) (bs : Bytes)
    (hb : it.group_count = it.group_idx)
    (hd : it.bgzip_in.data.drop it.bgzip_in.pos = wire.varint c ++ bs)
    (hc : c < 2 ^ 64) (hlo : 15 ≤ MAX) (hhi : MAX * 2 < 2 ^ 31)
    (ht : truncated_slot MAX bs) :
    ∃ it1, MessageIterator.advance MAX reg it = Outcome.thrown Failure.corrupt_input it1 ∧
      it1.item_vo = it.item_vo := by
  have hl1 := varint_length_64 c hc
  have hcoded := coded_of_drop it.bgzip_in (wire.varint c) bs (MAX * 2) hd (by omega)
  have hread : (it.bgzip_in.coded (MAX * 2)).ReadVarint64 =
      (some c, ⟨bs.take (MAX * 2 - (wire.varint c).length), 0 + (wire.varint c).length⟩) := by
    rw [hcoded]
    exact ReadVarint64_varint c hc _ 0
  obtain ⟨it1, hl, hiv, _, _⟩ := loop_body_corrupt MAX reg it c _ hread
    (truncated_slot_read_fails MAX bs _ _ (by omega) (by omega) ht)
  refine ⟨it1, ?_, hiv⟩
  simp [MessageIterator.advance, MessageIterator.increment, hb, hl]

/-- An advance inside a group, where the next slot is truncated. -/
theorem advance_next_slot_truncated (MAX : Nat) (reg : Bytes → Bool) (it : MessageIterator)
    (bs : Bytes)
    (hb : it.group_count ≠ it.group_idx)
    (hd : it.bgzip_in.data.drop it.bgzip_in.pos = bs)
    (hlo : 15 ≤ MAX) (hhi : MAX * 2 < 2 ^ 31)
    (ht : truncated_slot MAX bs) :
    ∃ it1, MessageIterator.advance MAX reg it = Outcome.thrown Failure.corrupt_input it1 ∧
      (0 ≤ it.item_vo → 0 ≤ it1.item_vo) := by
  have hcoded : it.bgzip_in.coded (MAX * 2) = ⟨bs.take (MAX * 2), 0⟩ := by
    simp [BlockedGzipInputStream.coded, hd]
  obtain ⟨it1, hl, hiv, _, _⟩ := read_message_corrupt MAX it (by
    rw [hcoded]
    exact truncated_slot_read_fails MAX bs _ _ (by omega) (by omega) ht)
  refine ⟨it1, ?_, ?_⟩
  · simp [MessageIterator.advance, MessageIterator.increment, hb, hl]
  · intro h0
    rw [hiv, Tell_ite]
    split <;> omega

/-! ## Groups that start with a tag -/

/-- When a round of the loop reaches the end of the loop body, advance goes on as an advance
from the state at the end of the loop body does. -/
theorem advance_of_again (MAX : Nat) (reg : Bytes → Bool) (it a1 : MessageIterator)
    (hb : it.group_count = it.group_idx)
    (hl : MessageIterator.loop_body MAX reg it = Round.again a1) :
    MessageIterator.advance MAX reg it = MessageIterator.advance MAX reg a1 := by
  have h1 := loop_body_again MAX reg it a1 hl
  simp [MessageIterator.advance, MessageIterator.increment, hb, hl, h1]

/-- The loop body on a group of more than one slot whose first slot is a tag. -/
theorem loop_body_tag (MAX : Nat) (reg : Bytes → Bool) (it : MessageIterator)
    (c : Nat) (t tail : Bytes)
    (hd : it.bgzip_in.data.drop it.bgzip_in.pos = wire.varint c ++ (wire.Slot t ++ tail))
    (hc : c < 2 ^ 64) (hc1 : c ≠ 1) (hs : t.length ≤ MAX) (hlo : 15 ≤ MAX)
    (hhi : MAX * 2 < 2 ^ 31)
    (htag : reg t = true ∨ (it.previous_tag ≠ [] ∧ it.previous_tag = t)) :
    MessageIterator.loop_body MAX reg it = Round.again
      { it with
        value := (t, it.value.2)
        previous_tag := t
        group_count := c
        group_idx := 1
        group_vo := if it.bgzip_in.positioning = true then (it.bgzip_in.pos : Int) else it.group_vo + 1
        item_vo :=
          if it.bgzip_in.positioning = true then
            ((it.bgzip_in.pos + (wire.varint c).length : Nat) : Int)
          else it.item_vo + 1
        bgzip_in := { it.bgzip_in with
          pos := it.bgzip_in.pos + ((wire.varint c).length + (wire.Slot t).length) } } := by
  have hs32 : t.length < 2 ^ 32 := by omega
  have hl1 := varint_length_64 c hc
  have hl2 := varint_length_32 t.length hs32
  have hcoded := coded_of_drop it.bgzip_in (wire.varint c ++ wire.Slot t) tail (MAX * 2)
    (by simpa using hd) (by simp [wire.Slot]; omega)
  have hnot : ¬ (MAX < t.length) := by omega
  have hp : ((!it.previous_tag.isEmpty && it.previous_tag == t) || reg t) = true := by
    rw [Bool.or_eq_true]
    rcases htag with h | ⟨h1, h2⟩
    · exact Or.inr h
    · have : it.previous_tag.isEmpty = false := by
        cases hpt : it.previous_tag with
        | nil => exact absurd hpt h1
        | cons a l => rfl
      left
      rw [this, h2]
      simp
  simp only [MessageIterator.loop_body, hcoded]
  rw [List.append_assoc, ReadVarint64_varint c hc]
  simp only [wire.Slot, List.append_assoc]
  rw [ReadVarint32_varint t.length hs32]
  simp only [hnot, if_false]
  rw [read_slot_bytes]
  simp only [hp, Bool.not_true, Bool.false_eq_true, if_false, hc1, Tell_ite, after_Tell_ite]
  simp [BlockedGzipInputStream.after, Nat.add_assoc]

/-- The loop body on a group of more than one slot whose first slot is a tag, by its effect
on the fields. -/
theorem loop_body_tag_step (MAX : Nat) (reg : Bytes → Bool) (it : MessageIterator)
    (c : Nat) (t tail : Bytes)
    (hd : it.bgzip_in.data.drop it.bgzip_in.pos = wire.varint c ++ (wire.Slot t ++ tail))
    (hc : c < 2 ^ 64) (hc1 : c ≠ 1) (hs : t.length ≤ MAX) (hlo : 15 ≤ MAX)
    (hhi : MAX * 2 < 2 ^ 31)
    (htag : reg t = true ∨ (it.previous_tag ≠ [] ∧ it.previous_tag = t)) :
    ∃ a1, MessageIterator.loop_body MAX reg it = Round.again a1 ∧
      a1.previous_tag = t ∧ a1.group_count = c ∧ a1.group_idx = 1 ∧
      (-1 ≤ it.item_vo → 0 ≤ a1.item_vo) ∧
      a1.bgzip_in.data.drop a1.bgzip_in.pos = tail := by
  refine ⟨_, loop_body_tag MAX reg it c t tail hd hc hc1 hs hlo hhi htag, rfl, rfl, rfl, ?_, ?_⟩
  · intro h
    show (0 : Int) ≤ (if it.bgzip_in.positioning = true then
      ((it.bgzip_in.pos + (wire.varint c).length : Nat) : Int) else it.item_vo + 1)
    split <;> omega
  · have := drop_after it.bgzip_in.data (wire.varint c ++ wire.Slot t) tail it.bgzip_in.pos
      (by simpa [List.append_assoc] using hd)
    simpa [List.length_append] using this

/-- An advance at a group boundary that finds a tag and a message after it: the message is
yielded with the tag. -/
theorem tagged_first_step (MAX : Nat) (reg : Bytes → Bool) (it : MessageIterator)
    (c : Nat) (t m tail : Bytes)
    (hb : it.group_count = it.group_idx)
    (hd : it.bgzip_in.data.drop it.bgzip_in.pos =
      wire.varint c ++ (wire.Slot t ++ (wire.Slot m ++ tail)))
    (hc : c < 2 ^ 64) (hc1 : c ≠ 1) (hs : t.length ≤ MAX) (hm : m.length ≤ MAX)
    (hlo : 15 ≤ MAX) (hhi : MAX * 2 < 2 ^ 31)
    (htag : reg t = true ∨ (it.previous_tag ≠ [] ∧ it.previous_tag = t)) :
    ∃ it1, MessageIterator.advance MAX reg it = Outcome.ok it1 ∧
      it1.value = (t, some m) ∧ it1.previous_tag = t ∧
      it1.group_count = c ∧ it1.group_idx = 2 ∧
      (-1 ≤ it.item_vo → 0 ≤ it1.item_vo) ∧
      it1.bgzip_in.data.drop it1.bgzip_in.pos = tail := by
  obtain ⟨a1, hl, hp, hgc, hgi, hiv, hd1⟩ :=
    loop_body_tag_step MAX reg it c t _ hd hc hc1 hs hlo hhi htag
  rw [advance_of_again MAX reg it a1 hb hl]
  obtain ⟨it1, hstep, hv, hp1, hgc1, hgi1, _, hiv1, _, _, _, hd2⟩ :=
    next_message_step MAX reg a1 m tail (by rw [hgc, hgi]; exact hc1) hd1 hm hlo hhi
  refine ⟨it1, hstep, by rw [hv, hp], by rw [hp1, hp], by rw [hgc1, hgc], by rw [hgi1, hgi], ?_,
    hd2⟩
  intro h
  have := hiv h
  exact hiv1 (by omega)

/-- An advance at a group boundary that finds a tag and then a truncated slot. -/
theorem advance_slot_after_tag_truncated (MAX : Nat) (reg : Bytes → Bool)
    (it : MessageIterator) (c : Nat) (t bs : Bytes)
    (hb : it.group_count = it.group_idx)
    (hd : it.bgzip_in.data.drop it.bgzip_in.pos = wire.varint c ++ (wire.Slot t ++ bs))
    (hc : c < 2 ^ 64) (hc1 : c ≠ 1) (hs : t.length ≤ MAX) (hlo : 15 ≤ MAX)
    (hhi : MAX * 2 < 2 ^ 31)
    (htag : reg t = true ∨ (it.previous_tag ≠ [] ∧ it.previous_tag = t))
    (ht : truncated_slot MAX bs) :
    ∃ it1, MessageIterator.advance MAX reg it = Outcome.thrown Failure.corrupt_input it1 ∧
      (-1 ≤ it.item_vo → 0 ≤ it1.item_vo) := by
  obtain ⟨a1, hl, hp, hgc, hgi, hiv, hd1⟩ :=
    loop_body_tag_step MAX reg it c t _ hd hc hc1 hs hlo hhi htag
  rw [advance_of_again MAX reg it a1 hb hl]
  obtain ⟨it1, hstep, hiv1⟩ := advance_next_slot_truncated MAX reg a1 bs
    (by rw [hgc, hgi]; exact hc1) hd1 hlo hhi ht
  exact ⟨it1, hstep, fun h => hiv1 (hiv h)⟩

/-! ## Slots that declare too many bytes -/

/-- An advance at a group boundary whose first slot declares a length that, in its low 32
bits, exceeds the size limit. -/
theorem advance_first_slot_too_long (MAX : Nat) (reg : Bytes → Bool) (it : MessageIterator)
    (c n : Nat) (tail : Bytes)
    (hb : it.group_count = it.group_idx)
    (hd : it.bgzip_in.data.drop it.bgzip_in.pos = wire.varint c ++ (wire.varint n ++ tail))
    (hc : c < 2 ^ 64) (hn : n < 2 ^ 64) (hbig : MAX < n % 2 ^ 32) (hlo : 15 ≤ MAX) :
    MessageIterator.advance MAX reg it = Outcome.thrown Failure.tag_too_long
      { it with
        group_count := c
        group_idx := 0
        group_vo := if it.bgzip_in.positioning = true then (it.bgzip_in.pos : Int) else it.group_vo + 1
        bgzip_in := { it.bgzip_in with
          pos := it.bgzip_in.pos + ((wire.varint c).length + (wire.varint n).length) } } := by
  have hl1 := varint_length_64 c hc
  have hl2 := varint_length_64 n hn
  have hcoded := coded_of_drop it.bgzip_in (wire.varint c ++ wire.varint n) tail (MAX * 2)
    (by simpa using hd) (by simp; omega)
  simp only [MessageIterator.advance, MessageIterator.increment, hb, if_true,
    MessageIterator.loop_body, hcoded]
  rw [List.append_assoc, ReadVarint64_varint c hc]
  simp only
  rw [ReadVarint32_varint64 n hn]
  simp only [hbig, if_true, Tell_ite]
  simp [BlockedGzipInputStream.after, Nat.add_assoc]

/-- An advance inside a group whose next slot declares a length that, in its low 32 bits,
exceeds the size limit. -/
theorem advance_next_slot_too_long (MAX : Nat) (reg : Bytes → Bool) (it : MessageIterator)
    (n : Nat) (tail : Bytes)
    (hb : it.group_count ≠ it.group_idx)
    (hd : it.bgzip_in.data.drop it.bgzip_in.pos = wire.varint n ++ tail)
    (hn : n < 2 ^ 64) (hbig : MAX < n % 2 ^ 32) (hlo : 15 ≤ MAX) :
    MessageIterator.advance MAX reg it = Outcome.thrown Failure.message_too_long
      { it with
        item_vo := if it.bgzip_in.positioning = true then (it.bgzip_in.pos : Int) else it.item_vo + 1
        bgzip_in := { it.bgzip_in with pos := it.bgzip_in.pos + (wire.varint n).length } } := by
  have hl2 := varint_length_64 n hn
  have hcoded := coded_of_drop it.bgzip_in (wire.varint n) tail (MAX * 2) hd (by omega)
  simp only [MessageIterator.advance, MessageIterator.increment, hb, if_false,
    MessageIterator.read_message, hcoded]
  rw [ReadVarint32_varint64 n hn]
  simp only [hbig, if_true, Tell_ite]
  simp [BlockedGzipInputStream.after]

/-- C12, as amended (oversize rejection on read).  The length of a slot is read with
ReadVarint32, which keeps the low 32 bits of the varint.  For every slot, the first of a
group or a later one, whose length read in this way exceeds the size limit, the advance that
reaches it throws ("tag ... is too long", "message ... is too long") with the stream right
after the length varint and the current value untouched: no byte of the payload was read or
buffered.  A slot of exactly MAX bytes is read. -/
theorem oversize_rejected_on_read (MAX : Nat) (reg : Bytes → Bool) (it : MessageIterator)
    (hlo : 15 ≤ MAX) (hhi : MAX * 2 < 2 ^ 31) :
    (∀ c n tail, it.group_count = it.group_idx →
      it.bgzip_in.data.drop it.bgzip_in.pos = wire.varint c ++ (wire.varint n ++ tail) →
      c < 2 ^ 64 → n < 2 ^ 64 → MAX < n % 2 ^ 32 →
      MessageIterator.advance MAX reg it = Outcome.thrown Failure.tag_too_long
        { it with
          group_count := c
          group_idx := 0
          group_vo :=
            if it.bgzip_in.positioning = true then (it.bgzip_in.pos : Int) else it.group_vo + 1
          bgzip_in := { it.bgzip_in with
            pos := it.bgzip_in.pos + ((wire.varint c).length + (wire.varint n).length) } }) ∧
    (∀ n tail, it.group_count ≠ it.group_idx →
      it.bgzip_in.data.drop it.bgzip_in.pos = wire.varint n ++ tail →
      n < 2 ^ 64 → MAX < n % 2 ^ 32 →
      MessageIterator.advance MAX reg it = Outcome.thrown Failure.message_too_long
        { it with
          item_vo :=
            if it.bgzip_in.positioning = true then (it.bgzip_in.pos : Int) else it.item_vo + 1
          bgzip_in := { it.bgzip_in with pos := it.bgzip_in.pos + (wire.varint n).length } }) ∧
    (∀ c s tail, it.group_count = it.group_idx →
      it.bgzip_in.data.drop it.bgzip_in.pos = wire.varint c ++ (wire.Slot s ++ tail) →
      c < 2 ^ 64 → s.length = MAX → reg s = false →
      ¬ (it.previous_tag ≠ [] ∧ it.previous_tag = s) →
      ∃ it1, MessageIterator.advance MAX reg it = Outcome.ok it1 ∧ it1.value = ([], some s)) ∧
    (∀ s tail, it.group_count ≠ it.group_idx →
      it.bgzip_in.data.drop it.bgzip_in.pos = wire.Slot s ++ tail → s.length = MAX →
      ∃ it1, MessageIterator.advance MAX reg it = Outcome.ok it1 ∧
        it1.value = (it.previous_tag, some s)) := by
  refine ⟨?_, ?_, ?_, ?_⟩
  · intro c n tail hb hd hc hn hbig
    exact advance_first_slot_too_long MAX reg it c n tail hb hd hc hn hbig hlo
  · intro n tail hb hd hn hbig
    exact advance_next_slot_too_long MAX reg it n tail hb hd hn hbig hlo
  · intro c s tail hb hd hc hs hreg hprev
    obtain ⟨it1, hadv, hv, _⟩ :=
      first_message_step MAX reg it c s tail hb hd hc (by omega) hlo hhi hreg hprev
    exact ⟨it1, hadv, hv⟩
  · intro s tail hb hd hs
    obtain ⟨it1, hadv, hv, _⟩ := next_message_step MAX reg it s tail hb hd (by omega) hlo hhi
    exact ⟨it1, hadv, hv⟩

/-- Witness of `oversize_rejected_on_read`: a size limit of 20 bytes and a reader inside a
group, before a slot that declares 21 bytes. -/
theorem oversize_rejected_on_read_witness :
    (15 ≤ 20 ∧ 20 * 2 < 2 ^ 31) ∧
    MessageIterator.advance 20 (fun b => b == [71, 65, 77])
        ⟨([], some [5]), [], 2, 1, 0, 1, ⟨[2, 1, 5, 21, 7, 7], 3, true⟩⟩ =
      Outcome.thrown Failure.message_too_long
        { (⟨([], some [5]), [], 2, 1, 0, 1, ⟨[2, 1, 5, 21, 7, 7], 3, true⟩⟩ : MessageIterator) with
          item_vo := if true = true then ((3 : Nat) : Int) else 1 + 1
          bgzip_in := { (⟨[2, 1, 5, 21, 7, 7], 3, true⟩ : BlockedGzipInputStream) with
            pos := 3 + (wire.varint 21).length } } :=
  ⟨by decide,
    (oversize_rejected_on_read 20 (fun b => b == [71, 65, 77])
      ⟨([], some [5]), [], 2, 1, 0, 1, ⟨[2, 1, 5, 21, 7, 7], 3, true⟩⟩ (by decide)
      (by decide)).2.1 21 [7, 7] (by decide) (by simp [varint_small]) (by decide) (by decide)⟩

/-- C12, counterexample.  The stream holds a group count of 1 and a slot whose length varint
[129, 128, 128, 128, 16] declares 2^32 + 1 bytes, which exceeds the size limit of 20, and then
the byte 65.  The advance of the constructor does not fail: ReadVarint32 stores the length 1,
and the reader yields `("", [65])`. -/
theorem oversize_length_wraps_counterexample :
    wire.varint (2 ^ 32 + 1) = [129, 128, 128, 128, 16] ∧ 20 < 2 ^ 32 + 1 ∧
    ∃ it, MessageIterator.construct 20 (fun b => b == [71, 65, 77])
        ⟨wire.varint 1 ++ (wire.varint (2 ^ 32 + 1) ++ [65]), 0, true⟩ = Outcome.ok it ∧
      it.value = ([], some [65]) ∧ it.has_current = true := by
  have hv : wire.varint (2 ^ 32 + 1) = [129, 128, 128, 128, 16] := by
    rw [← putVarint_eq_varint 9 (2 ^ 32 + 1) (by norm_num)]
    decide
  refine ⟨hv, by norm_num, ?_⟩
  rw [hv, varint_small 1 (by norm_num)]
  exact ⟨_, rfl, by decide, by decide⟩

open stream io

/-! ## Truncated groups, malformed counts, groups that start with a tag -/

/-- C13 (truncation inside an announced group).  A group count has been read, or is read by
this advance, and the stream ends inside a slot of the group: `bs`, what is left of the
stream, is an incomplete length varint (possibly no byte at all) or a length within the size
limit followed by fewer bytes than it declares.  Whether the truncated slot is the first slot
of the group, the slot after the tag, or a later slot, the advance that reaches it throws the
corrupt-input error of handle(), and the reader is not put in the exhausted state: with the
first slot truncated has_current is as before, in the other cases it is true. -/
theorem truncated_group_is_corrupt (MAX : Nat) (reg : Bytes → Bool) (it : MessageIterator)
    (bs : Bytes) (hlo : 15 ≤ MAX) (hhi : MAX * 2 < 2 ^ 31) (ht : truncated_slot MAX bs) :
    (∀ c, it.group_count = it.group_idx →
      it.bgzip_in.data.drop it.bgzip_in.pos = wire.varint c ++ bs → c < 2 ^ 64 →
      ∃ it1, MessageIterator.advance MAX reg it = Outcome.thrown Failure.corrupt_input it1 ∧
        it1.has_current = it.has_current) ∧
    (∀ c t, it.group_count = it.group_idx →
      it.bgzip_in.data.drop it.bgzip_in.pos = wire.varint c ++ (wire.Slot t ++ bs) →
      c < 2 ^ 64 → c ≠ 1 → t.length ≤ MAX →
      (reg t = true ∨ (it.previous_tag ≠ [] ∧ it.previous_tag = t)) → -1 ≤ it.item_vo →
      ∃ it1, MessageIterator.advance MAX reg it = Outcome.thrown Failure.corrupt_input it1 ∧
        it1.has_current = true) ∧
    (it.group_count ≠ it.group_idx →
      it.bgzip_in.data.drop it.bgzip_in.pos = bs → 0 ≤ it.item_vo →
      ∃ it1, MessageIterator.advance MAX reg it = Outcome.thrown Failure.corrupt_input it1 ∧
        it1.has_current = true) := by
  refine ⟨?_, ?_, ?_⟩
  · intro c hb hd hc
    obtain ⟨it1, hadv, hiv⟩ := advance_first_slot_truncated MAX reg it c bs hb hd hc hlo hhi ht
    exact ⟨it1, hadv, by simp [MessageIterator.has_current, hiv]⟩
  · intro c t hb hd hc hc1 hs htag hiv
    obtain ⟨it1, hadv, h⟩ :=
      advance_slot_after_tag_truncated MAX reg it c t bs hb hd hc hc1 hs hlo hhi htag ht
    exact ⟨it1, hadv, has_current_of_nonneg it1 (h hiv)⟩
  · intro hb hd hiv
    obtain ⟨it1, hadv, h⟩ := advance_next_slot_truncated MAX reg it bs hb hd hlo hhi ht
    exact ⟨it1, hadv, has_current_of_nonneg it1 (h hiv)⟩

/-- Witness of `truncated_group_is_corrupt`: the stream [2, 1, 5, 3, 65] announces two slots;
the second declares 3 bytes and holds 1.  The reader is on the first message. -/
theorem truncated_group_is_corrupt_witness :
    (15 ≤ 20 ∧ 20 * 2 < 2 ^ 31 ∧ truncated_slot 20 [3, 65]) ∧
    ∃ it1, MessageIterator.advance 20 (fun b => b == [71, 65, 77])
        ⟨([], some [5]), [], 2, 1, 0, 1, ⟨[2, 1, 5, 3, 65], 3, true⟩⟩ =
        Outcome.thrown Failure.corrupt_input it1 ∧ it1.has_current = true :=
  have ht : truncated_slot 20 [3, 65] :=
    Or.inr ⟨3, [65], by simp [varint_small], by decide, by decide⟩
  ⟨⟨by decide, by decide, ht⟩,
    (truncated_group_is_corrupt 20 (fun b => b == [71, 65, 77])
      ⟨([], some [5]), [], 2, 1, 0, 1, ⟨[2, 1, 5, 3, 65], 3, true⟩⟩ [3, 65] (by decide)
      (by decide) ht).2.2 (by decide) (by decide) (by decide)⟩

/-- C14 (malformed group-count varints), the code at failing inputs.  Over the stream [128],
whose only byte has the continuation bit set, the constructor returns normally with a reader
that has no current item, the state that it reaches over the empty stream.  The same happens
over a count varint of eleven bytes.  Over [1, 1, 65, 128] the reader yields the message
[65], and the next advance returns normally and leaves the reader exhausted, although the
byte 128 of a new group is present at the boundary. -/
theorem malformed_count_taken_for_end :
    (∃ it, MessageIterator.construct 20 (fun b => b == [71, 65, 77]) ⟨[128], 0, true⟩ =
        Outcome.ok it ∧
      it.has_current = false ∧ it.group_vo = -1 ∧ it.item_vo = -1 ∧ it.value = ([], none) ∧
      ∃ it0, MessageIterator.construct 20 (fun b => b == [71, 65, 77]) ⟨[], 0, true⟩ =
          Outcome.ok it0 ∧
        it0.has_current = false ∧ it0.group_vo = -1 ∧ it0.item_vo = -1 ∧
        it0.value = ([], none)) ∧
    (∃ it, MessageIterator.construct 20 (fun b => b == [71, 65, 77])
        ⟨[128, 128, 128, 128, 128, 128, 128, 128, 128, 128, 1], 0, true⟩ = Outcome.ok it ∧
      it.has_current = false ∧ it.group_vo = -1 ∧ it.item_vo = -1) ∧
    (∃ it1 it2, MessageIterator.construct 20 (fun b => b == [71, 65, 77])
        ⟨[1, 1, 65, 128], 0, true⟩ = Outcome.ok it1 ∧
      it1.value = ([], some [65]) ∧ it1.bgzip_in.pos = 3 ∧
      MessageIterator.advance 20 (fun b => b == [71, 65, 77]) it1 = Outcome.ok it2 ∧
      it2.has_current = false ∧ it2.group_vo = -1 ∧ it2.item_vo = -1 ∧
      it2.value = ([], none)) := by
  refine ⟨⟨_, rfl, by decide, by decide, by decide, by decide, _, rfl, by decide, by decide,
    by decide, by decide⟩, ⟨_, rfl, by decide, by decide, by decide⟩,
    ⟨_, _, rfl, by decide, by decide, rfl, by decide, by decide, by decide, by decide⟩⟩

/-- The messages after the first one of a group, read with the tag that is in force: the
values that the reader yields, and the state on the last message of the group. -/
theorem values_in_tagged_group (MAX : Nat) (reg : Bytes → Bool) (hlo : 15 ≤ MAX)
    (hhi : MAX * 2 < 2 ^ 31) (tail : Bytes) (ms : List Bytes) :
    ∀ it : MessageIterator, 0 ≤ it.item_vo →
      it.group_count = it.group_idx + ms.length →
      it.bgzip_in.data.drop it.bgzip_in.pos = wire.Slots ms ++ tail →
      (∀ m ∈ ms, m.length ≤ MAX) →
      MessageIterator.values_from MAX reg ms.length it =
        some (it.value :: ms.map (fun m => (it.previous_tag, some m))) ∧
      ∃ itn, MessageIterator.advances MAX reg ms.length it = some itn ∧
        itn.group_idx = itn.group_count ∧ itn.group_count = it.group_count ∧
        itn.previous_tag = it.previous_tag ∧ itn.has_current = true ∧
        (it.value :: ms.map (fun m => (it.previous_tag, some m))).getLast? = some itn.value ∧
        itn.bgzip_in.data.drop itn.bgzip_in.pos = tail := by
  induction ms with
  | nil =>
    intro it hcur hcnt hd _
    refine ⟨by simp [MessageIterator.values_from, has_current_of_nonneg it hcur], it, rfl, ?_,
      rfl, rfl, has_current_of_nonneg it hcur, by simp, ?_⟩
    · simpa using hcnt.symm
    · simpa [wire.Slots] using hd
  | cons m ms ih =>
    intro it hcur hcnt hd hms
    have hb : it.group_count ≠ it.group_idx := by simp at hcnt; omega
    have hd' : it.bgzip_in.data.drop it.bgzip_in.pos = wire.Slot m ++ (wire.Slots ms ++ tail) := by
      simpa [wire.Slots, List.append_assoc] using hd
    obtain ⟨it1, hstep, hv, hp, hgc, hgi, _, hiv, _, _, _, hd1⟩ :=
      next_message_step MAX reg it m _ hb hd' (hms m (by simp)) hlo hhi
    obtain ⟨hvals, itn, hadv, h1, h2, h3, h4, h5, h6⟩ := ih it1 (hiv (by omega))
      (by rw [hgc, hgi, hcnt]; simp; omega) hd1 (fun x hx => hms x (by simp [hx]))
    refine ⟨?_, itn, ?_, h1, by rw [h2, hgc], by rw [h3, hp], h4, ?_, h6⟩
    · rw [List.length_cons, MessageIterator.values_from]
      simp only [has_current_of_nonneg it hcur, if_true, hstep]
      rw [hvals, hv, hp]
      simp
    · rw [List.length_cons, MessageIterator.advances]
      simp only [hstep]
      exact hadv
    · rw [hv, hp] at h5
      rw [List.map_cons, List.getLast?_cons_cons]
      exact h5

/-- C19 (tagged group).  The reader is at a group boundary, before a group of count n >= 2
whose first slot is classified as a tag `t` (the registry accepts it, or it equals the
non-empty cached tag) and whose other slots are `m :: ms`.  The advance that loads the group
yields `(t, m)`, not the tag by itself, and with the following advances the reader yields
exactly `(t, m_2), ..., (t, m_n)` in wire order; on the last of them group_idx = group_count
= n, and the stream is at the end of the group. -/
theorem tagged_group (MAX : Nat) (reg : Bytes → Bool) (it : MessageIterator)
    (t m : Bytes) (ms : List Bytes) (tail : Bytes)
    (hlo : 15 ≤ MAX) (hhi : MAX * 2 < 2 ^ 31)
    (hb : it.group_count = it.group_idx)
    (hd : it.bgzip_in.data.drop it.bgzip_in.pos =
      wire.varint ((m :: ms).length + 1) ++ (wire.Slot t ++ (wire.Slots (m :: ms) ++ tail)))
    (hc : (m :: ms).length + 1 < 2 ^ 64)
    (hs : t.length ≤ MAX) (hms : ∀ x ∈ m :: ms, x.length ≤ MAX)
    (htag : reg t = true ∨ (it.previous_tag ≠ [] ∧ it.previous_tag = t))
    (hiv : -1 ≤ it.item_vo) :
    ∃ it1, MessageIterator.advance MAX reg it = Outcome.ok it1 ∧
      it1.value = (t, some m) ∧
      MessageIterator.values_from MAX reg ms.length it1 =
        some ((m :: ms).map (fun x => (t, some x))) ∧
      ∃ itn, MessageIterator.advances MAX reg ms.length it1 = some itn ∧
        itn.group_idx = itn.group_count ∧ itn.group_count = (m :: ms).length + 1 ∧
        itn.previous_tag = t ∧ itn.has_current = true ∧
        ((m :: ms).map (fun x => ((t, some x) : TaggedMessage))).getLast? = some itn.value ∧
        itn.bgzip_in.data.drop itn.bgzip_in.pos = tail := by
  have hd' : it.bgzip_in.data.drop it.bgzip_in.pos =
      wire.varint ((m :: ms).length + 1) ++
        (wire.Slot t ++ (wire.Slot m ++ (wire.Slots ms ++ tail))) := by
    simpa [wire.Slots, List.append_assoc] using hd
  obtain ⟨it1, hadv, hv, hp, hgc, hgi, hiv1, hd1⟩ :=
    tagged_first_step MAX reg it _ t m _ hb hd' hc (by simp) hs (hms m (by simp)) hlo hhi htag
  obtain ⟨hvals, itn, hadvs, h1, h2, h3, h4, h5, h6⟩ :=
    values_in_tagged_group MAX reg hlo hhi tail ms it1 (hiv1 hiv)
      (by rw [hgc, hgi]; simp; omega) hd1 (fun x hx => hms x (by simp [hx]))
  refine ⟨it1, hadv, hv, ?_, itn, hadvs, h1, by rw [h2, hgc], by rw [h3, hp], h4, ?_,
    h6⟩
  · rw [hvals, hv, hp]
    simp
  · rw [hv, hp] at h5
    exact h5

/-- Witness of `tagged_group`: the group [GAM, [1], [2]] followed by the byte 9, over a fresh
reader state. -/
theorem tagged_group_witness :
    ∃ it1, MessageIterator.advance 20 (fun b => b == [71, 65, 77])
        ⟨([], none), [], 0, 0, -1, -1, ⟨[3, 3, 71, 65, 77, 1, 1, 1, 2, 9], 0, true⟩⟩ =
        Outcome.ok it1 ∧
      it1.value = ([71, 65, 77], some [1]) ∧
      MessageIterator.values_from 20 (fun b => b == [71, 65, 77]) 1 it1 =
        some [([71, 65, 77], some [1]), ([71, 65, 77], some [2])] := by
  obtain ⟨it1, h1, h2, h3, _⟩ := tagged_group 20 (fun b => b == [71, 65, 77])
    ⟨([], none), [], 0, 0, -1, -1, ⟨[3, 3, 71, 65, 77, 1, 1, 1, 2, 9], 0, true⟩⟩
    [71, 65, 77] [1] [[2]] [9] (by decide) (by decide) rfl
    (by simp [wire.Slots, wire.Slot, varint_small]) (by decide) (by decide) (by decide)
    (Or.inl (by decide)) (by decide)
  exact ⟨it1, h1, h2, h3⟩

/-- C20 (tag-only group).  The reader is at a group boundary, before a group of count 1 whose
single slot is classified as a tag `t`.  The advance that loads the group returns normally
with the value `(t, absent)`, with `t` cached as the previous tag and with group_idx =
group_count = 1, the stream at the end of the group; so the next advance does not read a
message of this group but runs the loop body that starts a new group. -/
theorem tag_only_group (MAX : Nat) (reg : Bytes → Bool) (it : MessageIterator)
    (t tail : Bytes) (hlo : 15 ≤ MAX) (hhi : MAX * 2 < 2 ^ 31)
    (hb : it.group_count = it.group_idx)
    (hd : it.bgzip_in.data.drop it.bgzip_in.pos = wire.varint 1 ++ (wire.Slot t ++ tail))
    (hs : t.length ≤ MAX)
    (htag : reg t = true ∨ (it.previous_tag ≠ [] ∧ it.previous_tag = t)) :
    ∃ it1, MessageIterator.advance MAX reg it = Outcome.ok it1 ∧
      it1.value = (t, none) ∧ it1.previous_tag = t ∧
      it1.group_idx = 1 ∧ it1.group_count = 1 ∧
      it1.bgzip_in.data.drop it1.bgzip_in.pos = tail ∧
      ((∃ r, MessageIterator.loop_body MAX reg it1 = Round.returns r ∧
          MessageIterator.advance MAX reg it1 = r) ∨
        (∃ it2, MessageIterator.loop_body MAX reg it1 = Round.again it2 ∧
          MessageIterator.advance MAX reg it1 = MessageIterator.read_message MAX it2)) := by
  obtain ⟨it1, hadv, hv, hp, hgc, hgi, _, hd1⟩ :=
    tag_only_step MAX reg it t tail hb hd hs hlo hhi htag
  refine ⟨it1, hadv, hv, hp, hgi, hgc, hd1, ?_⟩
  rcases advance_cases MAX reg it1 with h | h | h
  · exact Or.inl h.2
  · exact Or.inr h.2
  · exact absurd (by rw [hgc, hgi]) h.1

/-- Witness of `tag_only_group`: the group [GAM] followed by the group [[5]], over a fresh
reader state. -/
theorem tag_only_group_witness :
    ∃ it1, MessageIterator.advance 20 (fun b => b == [71, 65, 77])
        ⟨([], none), [], 0, 0, -1, -1, ⟨[1, 3, 71, 65, 77, 1, 1, 5], 0, true⟩⟩ =
        Outcome.ok it1 ∧
      it1.value = ([71, 65, 77], none) ∧ it1.previous_tag = [71, 65, 77] ∧
      it1.group_idx = 1 ∧ it1.group_count = 1 := by
  obtain ⟨it1, h1, h2, h3, h4, h5, _⟩ := tag_only_group 20 (fun b => b == [71, 65, 77])
    ⟨([], none), [], 0, 0, -1, -1, ⟨[1, 3, 71, 65, 77, 1, 1, 5], 0, true⟩⟩
    [71, 65, 77] [1, 1, 5] (by decide) (by decide) rfl
    (by simp [wire.Slot, varint_small]) (by decide) (Or.inl (by decide))
  exact ⟨it1, h1, h2, h3, h4, h5⟩

open stream io

/-! ## End of stream, construction, comparison -/

/-- An advance at a group boundary where the group count cannot be read. -/
theorem advance_count_unreadable (MAX : Nat) (reg : Bytes → Bool) (it : MessageIterator)
    (hb : it.group_count = it.group_idx)
    (hfail : ((it.bgzip_in.coded (MAX * 2)).ReadVarint64).1 = none) :
    MessageIterator.advance MAX reg it = Outcome.ok
      { it with
        value := ([], none)
        group_count := 0
        group_idx := 0
        group_vo := -1
        item_vo := -1
        bgzip_in := it.bgzip_in.after ((it.bgzip_in.coded (MAX * 2)).ReadVarint64).2 } := by
  have hl : MessageIterator.loop_body MAX reg it = Round.returns (Outcome.ok
      { it with
        value := ([], none)
        group_count := 0
        group_idx := 0
        group_vo := -1
        item_vo := -1
        bgzip_in := it.bgzip_in.after ((it.bgzip_in.coded (MAX * 2)).ReadVarint64).2 }) := by
    unfold MessageIterator.loop_body
    simp only
    split
    · rename_i c1 hq
      rw [hq]
    · rename_i count c1 hq
      rw [hq] at hfail
      simp at hfail
  simp [MessageIterator.advance, MessageIterator.increment, hb, hl]

/-- C21 (exhaustion state).  When advance runs at a group boundary and the group count
cannot be read from the stream, it returns normally, with the group offset and the item
offset at -1, an empty tag and no message, so that has_current is false; the cached tag is
kept. -/
theorem exhaustion_state (MAX : Nat) (reg : Bytes → Bool) (it : MessageIterator)
    (hb : it.group_count = it.group_idx)
    (hfail : ((it.bgzip_in.coded (MAX * 2)).ReadVarint64).1 = none) :
    ∃ it1, MessageIterator.advance MAX reg it = Outcome.ok it1 ∧
      it1.group_vo = -1 ∧ it1.item_vo = -1 ∧ it1.value = ([], none) ∧
      it1.has_current = false ∧ it1.previous_tag = it.previous_tag :=
  ⟨_, advance_count_unreadable MAX reg it hb hfail, rfl, rfl, rfl, rfl, rfl⟩

/-- Witness of `exhaustion_state`: the reader is on the only message of the stream
[1, 1, 65]. -/
theorem exhaustion_state_witness :
    ∃ it1, MessageIterator.advance 20 (fun b => b == [71, 65, 77])
        ⟨([], some [65]), [], 1, 1, 0, 1, ⟨[1, 1, 65], 3, true⟩⟩ = Outcome.ok it1 ∧
      it1.group_vo = -1 ∧ it1.item_vo = -1 ∧ it1.value = ([], none) ∧
      it1.has_current = false ∧ it1.previous_tag = [] :=
  exhaustion_state 20 (fun b => b == [71, 65, 77])
    ⟨([], some [65]), [], 1, 1, 0, 1, ⟨[1, 1, 65], 3, true⟩⟩ (by decide) (by decide)

/-- C22 (construction performs exactly one advance).  The constructor yields the outcome of
one advance from the initial members: empty value, empty cached tag, group_count = group_idx
= 0, both offsets -1.  Over a stream with no byte left the reader is exhausted.  Over a
stream that starts with a non-empty group, the current value is the first tagged message of
that group: `("", s)` when the first slot `s` is not a tag, `(t, absent)` for a group that
holds only the tag `t`, and `(t, m)` when the tag `t` is followed by the message `m`. -/
theorem construction_is_one_advance (MAX : Nat) (reg : Bytes → Bool)
    (bgzf : BlockedGzipInputStream) (hlo : 15 ≤ MAX) (hhi : MAX * 2 < 2 ^ 31) :
    MessageIterator.construct MAX reg bgzf =
      MessageIterator.advance MAX reg ⟨([], none), [], 0, 0, -1, -1, bgzf⟩ ∧
    (bgzf.data.drop bgzf.pos = [] →
      ∃ it, MessageIterator.construct MAX reg bgzf = Outcome.ok it ∧
        it.has_current = false ∧ it.value = ([], none) ∧ it.group_vo = -1 ∧
        it.item_vo = -1) ∧
    (∀ s ms tail, bgzf.data.drop bgzf.pos = wire.Group (s :: ms) ++ tail →
      (s :: ms).length < 2 ^ 64 → s.length ≤ MAX → reg s = false →
      ∃ it, MessageIterator.construct MAX reg bgzf = Outcome.ok it ∧
        it.value = ([], some s) ∧ it.has_current = true) ∧
    (∀ t tail, bgzf.data.drop bgzf.pos = wire.Group [t] ++ tail →
      t.length ≤ MAX → reg t = true →
      ∃ it, MessageIterator.construct MAX reg bgzf = Outcome.ok it ∧
        it.value = (t, none) ∧ it.has_current = true) ∧
    (∀ t m ms tail, bgzf.data.drop bgzf.pos = wire.Group (t :: m :: ms) ++ tail →
      (t :: m :: ms).length < 2 ^ 64 → t.length ≤ MAX → m.length ≤ MAX → reg t = true →
      ∃ it, MessageIterator.construct MAX reg bgzf = Outcome.ok it ∧
        it.value = (t, some m) ∧ it.has_current = true) := by
  refine ⟨rfl, ?_, ?_, ?_, ?_⟩
  · intro hd
    refine ⟨_, advance_at_end MAX reg ⟨([], none), [], 0, 0, -1, -1, bgzf⟩ rfl hd, rfl, rfl,
      rfl, rfl⟩
  · intro s ms tail hd hc hs hreg
    obtain ⟨it1, hadv, hv, _, _, _, _, hiv, _⟩ :=
      first_message_step MAX reg ⟨([], none), [], 0, 0, -1, -1, bgzf⟩ (s :: ms).length s
        (wire.Slots ms ++ tail) rfl
        (by simpa [wire.Group, wire.Slots, List.append_assoc] using hd) hc hs hlo hhi hreg
        (by simp)
    exact ⟨it1, hadv, hv, has_current_of_nonneg it1 (hiv (le_refl _))⟩
  · intro t tail hd hs hreg
    obtain ⟨it1, hadv, hv, _, _, _, hiv, _⟩ :=
      tag_only_step MAX reg ⟨([], none), [], 0, 0, -1, -1, bgzf⟩ t tail rfl
        (by simpa [wire.Group, wire.Slots, List.append_assoc] using hd) hs hlo hhi
        (Or.inl hreg)
    exact ⟨it1, hadv, hv, has_current_of_nonneg it1 (hiv (le_refl _))⟩
  · intro t m ms tail hd hc hs hm hreg
    obtain ⟨it1, hadv, hv, _, _, _, hiv, _⟩ :=
      tagged_first_step MAX reg ⟨([], none), [], 0, 0, -1, -1, bgzf⟩ (t :: m :: ms).length t m
        (wire.Slots ms ++ tail) rfl
        (by simpa [wire.Group, wire.Slots, List.append_assoc] using hd) hc (by simp) hs hm
        hlo hhi (Or.inl hreg)
    exact ⟨it1, hadv, hv, has_current_of_nonneg it1 (hiv (le_refl _))⟩

/-- Witness of `construction_is_one_advance`: the stream of the group ["A", "B"]. -/
theorem construction_is_one_advance_witness :
    (15 ≤ 20 ∧ 20 * 2 < 2 ^ 31) ∧
    ∃ it, MessageIterator.construct 20 (fun b => b == [71, 65, 77])
        ⟨[2, 1, 65, 1, 66], 0, true⟩ = Outcome.ok it ∧
      it.value = ([], some [65]) ∧ it.has_current = true :=
  ⟨by decide,
    (construction_is_one_advance 20 (fun b => b == [71, 65, 77]) ⟨[2, 1, 65, 1, 66], 0, true⟩
      (by decide) (by decide)).2.2.1 [65] [[66]] []
      (by simp [wire.Group, wire.Slots, wire.Slot, varint_small]) (by decide) (by decide)
      (by decide)⟩

/-- C23 (equality contract).  `a == b` holds exactly when both readers are exhausted or both
are not, and `a != b` is its negation.  So == is reflexive, symmetric and transitive, of any
three readers two compare equal (there are at most two classes), an exhausted reader and one
with a current item are not equal (there are two), and two readers that both have a current
item compare equal whatever their streams and positions are. -/
theorem equality_contract (a b c : MessageIterator) :
    (MessageIterator.operator_eq a b = true ↔
      (a.has_current = false ∧ b.has_current = false) ∨
        (a.has_current = true ∧ b.has_current = true)) ∧
    MessageIterator.operator_ne a b = !MessageIterator.operator_eq a b ∧
    MessageIterator.operator_eq a a = true ∧
    MessageIterator.operator_eq a b = MessageIterator.operator_eq b a ∧
    (MessageIterator.operator_eq a b = true → MessageIterator.operator_eq b c = true →
      MessageIterator.operator_eq a c = true) ∧
    (MessageIterator.operator_eq a b = true ∨ MessageIterator.operator_eq b c = true ∨
      MessageIterator.operator_eq a c = true) ∧
    (a.has_current = false → b.has_current = true →
      MessageIterator.operator_eq a b = false) ∧
    (a.has_current = true → b.has_current = true → MessageIterator.operator_eq a b = true) ∧
    MessageIterator.operator_eq
      ⟨([], some [65]), [], 2, 1, 0, 1, ⟨[2, 1, 65, 1, 66], 3, true⟩⟩
      ⟨([], some [7]), [], 1, 1, 0, 1, ⟨[1, 1, 7], 3, false⟩⟩ = true := by
  unfold MessageIterator.operator_eq MessageIterator.operator_ne
  refine ⟨?_, ?_, ?_, ?_, ?_, ?_, ?_, ?_, by decide⟩
  · cases a.has_current <;> cases b.has_current <;> simp
  · cases a.has_current <;> cases b.has_current <;> simp
  · simp
  · cases a.has_current <;> cases b.has_current <;> simp
  · cases a.has_current <;> cases b.has_current <;> cases c.has_current <;> simp
  · cases a.has_current <;> cases b.has_current <;> cases c.has_current <;> simp
  · intro ha hb
    simp [ha, hb]
  · intro ha hb
    simp [ha, hb]

/-! ## seek_group -/

/-- C24 (seek_group failure leaves the reader unchanged).  With a negative offset seek_group
returns false and the state is the one before the call, the stream included: the seek
primitive has not been used.  With an offset that is not negative, when the seek primitive is
called (the reader is not already at a fresh read of that offset) and reports failure,
seek_group returns false and the state is the one before the call. -/
theorem seek_group_failure (MAX : Nat) (reg : Bytes → Bool) (it : MessageIterator)
    (virtual_offset : Int) :
    (virtual_offset < 0 →
      MessageIterator.seek_group MAX reg it virtual_offset = Outcome.ok (false, it)) ∧
    (0 ≤ virtual_offset → ¬ (it.group_idx = 0 ∧ it.group_vo = virtual_offset) →
      (it.bgzip_in.Seek virtual_offset).2 = false →
      MessageIterator.seek_group MAX reg it virtual_offset = Outcome.ok (false, it)) := by
  refine ⟨?_, ?_⟩
  · intro h
    simp [MessageIterator.seek_group, h]
  · intro h0 hnot hs
    have hneg : ¬ (virtual_offset < 0) := by omega
    unfold MessageIterator.seek_group
    rw [if_neg hneg, if_neg hnot]
    split
    · rfl
    · rename_i sought hq
      rw [hq] at hs
      simp at hs

/-- Witness of `seek_group_failure`: a reader on the first message of a stream that does not
support positioning is asked to seek to offset 0. -/
theorem seek_group_failure_witness :
    MessageIterator.seek_group 20 (fun b => b == [71, 65, 77])
        ⟨([], some [65]), [], 1, 1, 0, 0, ⟨[1, 1, 65], 3, false⟩⟩ 0 =
      Outcome.ok (false, ⟨([], some [65]), [], 1, 1, 0, 0, ⟨[1, 1, 65], 3, false⟩⟩) :=
  (seek_group_failure 20 (fun b => b == [71, 65, 77])
    ⟨([], some [65]), [], 1, 1, 0, 0, ⟨[1, 1, 65], 3, false⟩⟩ 0).2 (by decide) (by decide)
    (by decide)

/-- C29 (seek_group to the position already loaded).  In a state with group_idx = 0 whose
group offset is the requested offset, which is not negative, seek_group returns true and the
state is the one before the call, the stream and its position included: nothing was sought
and nothing was read. -/
theorem seek_group_already_there (MAX : Nat) (reg : Bytes → Bool) (it : MessageIterator)
    (virtual_offset : Int) (hvo : 0 ≤ virtual_offset) (hidx : it.group_idx = 0)
    (hgvo : it.group_vo = virtual_offset) :
    MessageIterator.seek_group MAX reg it virtual_offset = Outcome.ok (true, it) := by
  have hneg : ¬ (virtual_offset < 0) := by omega
  unfold MessageIterator.seek_group
  rw [if_neg hneg, if_pos ⟨hidx, hgvo⟩]

/-- Witness of `seek_group_already_there`: over the stream [1, 1, 65, 1, 3, 65] the advance
into the second group has thrown after it read the count, which left group_idx = 0 and the
group offset 3; seek_group(3) then returns true and changes nothing. -/
theorem seek_group_already_there_witness :
    MessageIterator.advance 20 (fun b => b == [71, 65, 77])
        ⟨([], some [65]), [], 1, 1, 0, 1, ⟨[1, 1, 65, 1, 3, 65], 3, true⟩⟩ =
      Outcome.thrown Failure.corrupt_input
        ⟨([65], some [65]), [], 1, 0, 3, 1, ⟨[1, 1, 65, 1, 3, 65], 6, true⟩⟩ ∧
    MessageIterator.seek_group 20 (fun b => b == [71, 65, 77])
        ⟨([65], some [65]), [], 1, 0, 3, 1, ⟨[1, 1, 65, 1, 3, 65], 6, true⟩⟩ 3 =
      Outcome.ok (true, ⟨([65], some [65]), [], 1, 0, 3, 1, ⟨[1, 1, 65, 1, 3, 65], 6, true⟩⟩) :=
  ⟨by decide,
    seek_group_already_there 20 (fun b => b == [71, 65, 77])
      ⟨([65], some [65]), [], 1, 0, 3, 1, ⟨[1, 1, 65, 1, 3, 65], 6, true⟩⟩ 3 (by decide) rfl rfl⟩

/-! ## The cached tag -/

/-- C28 (disambiguation rule (a)).  The reader is at a group boundary with a non-empty cached
tag, and the first slot of the next group equals the cached tag.  Whatever the registry
answers for it, the slot is taken as a tag: a group of count 1 yields `(t, absent)`, and in a
larger group the loop body goes on to the messages with `t` as the tag in force, so that the
advance yields `(t, m)` for the next slot `m`. -/
theorem cached_tag_rule (MAX : Nat) (reg : Bytes → Bool) (it : MessageIterator)
    (c : Nat) (t tail : Bytes) (hlo : 15 ≤ MAX) (hhi : MAX * 2 < 2 ^ 31)
    (hb : it.group_count = it.group_idx)
    (hd : it.bgzip_in.data.drop it.bgzip_in.pos = wire.varint c ++ (wire.Slot t ++ tail))
    (hc : c < 2 ^ 64) (hs : t.length ≤ MAX)
    (hne : it.previous_tag ≠ []) (heq : it.previous_tag = t) :
    (c = 1 → ∃ it1, MessageIterator.advance MAX reg it = Outcome.ok it1 ∧
      it1.value = (t, none) ∧ it1.previous_tag = t) ∧
    (c ≠ 1 → ∃ a1, MessageIterator.loop_body MAX reg it = Round.again a1 ∧
      a1.previous_tag = t ∧ a1.group_count = c ∧ a1.group_idx = 1 ∧
      MessageIterator.advance MAX reg it = MessageIterator.advance MAX reg a1) ∧
    (c ≠ 1 → ∀ m tail1, tail = wire.Slot m ++ tail1 → m.length ≤ MAX →
      ∃ it1, MessageIterator.advance MAX reg it = Outcome.ok it1 ∧
        it1.value = (t, some m) ∧ it1.previous_tag = t) := by
  refine ⟨?_, ?_, ?_⟩
  · intro hc1
    subst hc1
    obtain ⟨it1, hadv, hv, hp, _⟩ :=
      tag_only_step MAX reg it t tail hb hd hs hlo hhi (Or.inr ⟨hne, heq⟩)
    exact ⟨it1, hadv, hv, hp⟩
  · intro hc1
    obtain ⟨a1, hl, hp, hgc, hgi, _, _⟩ :=
      loop_body_tag_step MAX reg it c t tail hd hc hc1 hs hlo hhi (Or.inr ⟨hne, heq⟩)
    exact ⟨a1, hl, hp, hgc, hgi, advance_of_again MAX reg it a1 hb hl⟩
  · intro hc1 m tail1 ht hm
    subst ht
    obtain ⟨it1, hadv, hv, hp, _⟩ :=
      tagged_first_step MAX reg it c t m tail1 hb hd hc hc1 hs hm hlo hhi (Or.inr ⟨hne, heq⟩)
    exact ⟨it1, hadv, hv, hp⟩

/-- Witness of `cached_tag_rule`: a registry that accepts nothing, the cached tag [7], and a
group [[7], [65]]. -/
theorem cached_tag_rule_witness :
    (15 ≤ 20 ∧ 20 * 2 < 2 ^ 31) ∧
    ∃ it1, MessageIterator.advance 20 (fun _ => false)
        ⟨([7], none), [7], 1, 1, 0, 1, ⟨[1, 1, 7, 2, 1, 7, 1, 65], 3, true⟩⟩ = Outcome.ok it1 ∧
      it1.value = ([7], some [65]) ∧ it1.previous_tag = [7] :=
  ⟨by decide,
    (cached_tag_rule 20 (fun _ => false)
      ⟨([7], none), [7], 1, 1, 0, 1, ⟨[1, 1, 7, 2, 1, 7, 1, 65], 3, true⟩⟩ 2 [7] [1, 65]
      (by decide) (by decide) rfl (by simp [wire.Slot, varint_small]) (by decide) (by decide)
      (by decide) rfl).2.2 (by decide) [65] [] (by simp [wire.Slot, varint_small])
      (by decide)⟩

open stream io

/-! ## seek_group after a successful seek -/

/-- A successful Seek of the stream primitive moves the position to the offset. -/
theorem Seek_true (s sought : BlockedGzipInputStream) (vo : Int)
    (h : s.Seek vo = (sought, true)) :
    sought = { s with pos := vo.toNat } ∧ s.positioning = true ∧ vo.toNat ≤ s.data.length := by
  unfold BlockedGzipInputStream.Seek at h
  split at h
  · rename_i hc
    simp only [Prod.mk.injEq, and_true] at h
    exact ⟨h.symm, hc.1, hc.2.2⟩
  · simp at h

/-- C25 (seek_group success).  The offset is not negative, the reader is not already at a
fresh read of it, and the seek primitive succeeds, which repositions the stream at the
offset.  Then seek_group is one advance from the state with group_count = group_idx = 0 on
the repositioned stream: when that advance returns normally with a state, seek_group returns
true with the same state, and when it throws, seek_group throws the same error.  At the end
of the stream the reader is exhausted after the call; before a group whose first slot is an
ordinary message `s`, the reader has the current value `("", s)` after the call, also when it
was exhausted before. -/
theorem seek_group_success (MAX : Nat) (reg : Bytes → Bool) (it : MessageIterator)
    (virtual_offset : Int) (sought : BlockedGzipInputStream)
    (hvo : 0 ≤ virtual_offset)
    (hnot : ¬ (it.group_idx = 0 ∧ it.group_vo = virtual_offset))
    (hseek : it.bgzip_in.Seek virtual_offset = (sought, true)) :
    sought = { it.bgzip_in with pos := virtual_offset.toNat } ∧
    (∀ it1, MessageIterator.advance MAX reg
        { it with bgzip_in := sought, group_count := 0, group_idx := 0 } = Outcome.ok it1 →
      MessageIterator.seek_group MAX reg it virtual_offset = Outcome.ok (true, it1)) ∧
    (∀ why it1, MessageIterator.advance MAX reg
        { it with bgzip_in := sought, group_count := 0, group_idx := 0 } =
          Outcome.thrown why it1 →
      MessageIterator.seek_group MAX reg it virtual_offset = Outcome.thrown why (false, it1)) ∧
    (virtual_offset.toNat = it.bgzip_in.data.length →
      ∃ it1, MessageIterator.seek_group MAX reg it virtual_offset = Outcome.ok (true, it1) ∧
        it1.has_current = false ∧ it1.value = ([], none) ∧ it1.group_vo = -1) ∧
    (∀ c s tail, 15 ≤ MAX → MAX * 2 < 2 ^ 31 →
      it.bgzip_in.data.drop virtual_offset.toNat = wire.varint c ++ (wire.Slot s ++ tail) →
      c < 2 ^ 64 → s.length ≤ MAX → reg s = false →
      ¬ (it.previous_tag ≠ [] ∧ it.previous_tag = s) →
      ∃ it1, MessageIterator.seek_group MAX reg it virtual_offset = Outcome.ok (true, it1) ∧
        it1.value = ([], some s) ∧ it1.has_current = true ∧
        it1.tell_group = virtual_offset) := by
  obtain ⟨hso, hpos, hle⟩ := Seek_true _ _ _ hseek
  have hneg : ¬ (virtual_offset < 0) := by omega
  have hok : ∀ it1, MessageIterator.advance MAX reg
        { it with bgzip_in := sought, group_count := 0, group_idx := 0 } = Outcome.ok it1 →
      MessageIterator.seek_group MAX reg it virtual_offset = Outcome.ok (true, it1) := by
    intro it1 hadv
    unfold MessageIterator.seek_group
    rw [if_neg hneg, if_neg hnot, hseek]
    simp only [hadv]
  refine ⟨hso, hok, ?_, ?_, ?_⟩
  · intro why it1 hadv
    unfold MessageIterator.seek_group
    rw [if_neg hneg, if_neg hnot, hseek]
    simp only [hadv]
  · intro hend
    have hd : ({ it with bgzip_in := sought, group_count := 0, group_idx := 0 } :
        MessageIterator).bgzip_in.data.drop
        ({ it with bgzip_in := sought, group_count := 0, group_idx := 0 } :
          MessageIterator).bgzip_in.pos = [] := by
      rw [hso]
      simp [hend]
    exact ⟨_, hok _ (advance_at_end MAX reg _ rfl hd), rfl, rfl, rfl⟩
  · intro c s tail hlo hhi hd hc hs hreg hprev
    have hd1 : ({ it with bgzip_in := sought, group_count := 0, group_idx := 0 } :
        MessageIterator).bgzip_in.data.drop
        ({ it with bgzip_in := sought, group_count := 0, group_idx := 0 } :
          MessageIterator).bgzip_in.pos = wire.varint c ++ (wire.Slot s ++ tail) := by
      rw [hso]
      exact hd
    have hpos1 : ({ it with bgzip_in := sought, group_count := 0, group_idx := 0 } :
        MessageIterator).bgzip_in.positioning = true := by
      rw [hso]
      exact hpos
    obtain ⟨it1, hadv, hv, _, _, _, hiv0, _⟩ :=
      first_message_step_positioning MAX reg _ c s tail rfl hd1 hc hs hlo hhi hreg hprev hpos1
    obtain ⟨it2, hadv2, _, _, _, _, hgvo, _, _, hp1, _⟩ :=
      first_message_step MAX reg _ c s tail rfl hd1 hc hs hlo hhi hreg hprev
    have h21 : it2 = it1 := Outcome.ok.inj (hadv2.symm.trans hadv)
    subst h21
    have hgv : it2.group_vo = virtual_offset := by
      rw [hgvo hpos1, hso]
      simp [Int.toNat_of_nonneg hvo]
    refine ⟨it2, hok it2 hadv, hv, has_current_of_nonneg it2 hiv0, ?_⟩
    rw [tell_group_positioning it2 (by rw [hp1]; exact hpos1) (by rw [hgv]; exact hvo), hgv]

/-- Witness of `seek_group_success`: over the stream of the groups ["A"] and ["B"], an
exhausted reader seeks to offset 3, where the second group starts. -/
theorem seek_group_success_witness :
    MessageIterator.seek_group 20 (fun b => b == [71, 65, 77])
        ⟨([], none), [], 1, 0, -1, -1, ⟨[1, 1, 65, 1, 1, 66], 6, true⟩⟩ 3 =
      Outcome.ok (true, ⟨([], some [66]), [], 1, 1, 3, 4, ⟨[1, 1, 65, 1, 1, 66], 6, true⟩⟩) :=
  (seek_group_success 20 (fun b => b == [71, 65, 77])
    ⟨([], none), [], 1, 0, -1, -1, ⟨[1, 1, 65, 1, 1, 66], 6, true⟩⟩ 3
    ⟨[1, 1, 65, 1, 1, 66], 3, true⟩ (by decide) (by decide) (by decide)).2.1 _ (by decide)

/-! ## The cached tag and the registry -/

/-- C30 (the cached-tag shortcut never changes a classification).  In every reader state
that is reachable from the constructor by calls of advance, take and seek_group that
returned normally, the cached tag is empty or a string that the registry accepts.  So the
test of operator++ on the first slot of a group, "equal to the non-empty cached tag, or
accepted by the registry", has the value of the registry for every slot; and the advance that
loads a group takes its first slot `s` for a tag exactly when the registry accepts it: a slot
that the registry rejects is yielded as the message `("", s)`, a slot that it accepts becomes
the tag of the group. -/
theorem cached_tag_shortcut (MAX : Nat) (reg : Bytes → Bool) (data : Bytes)
    (positioning : Bool) (it : MessageIterator)
    (h : MessageIterator.Reachable MAX reg data positioning it) :
    (it.previous_tag = [] ∨ reg it.previous_tag = true) ∧
    (∀ first, ((!it.previous_tag.isEmpty && it.previous_tag == first) || reg first) =
      reg first) ∧
    (∀ c s tail, 15 ≤ MAX → MAX * 2 < 2 ^ 31 → it.group_count = it.group_idx →
      it.bgzip_in.data.drop it.bgzip_in.pos = wire.varint c ++ (wire.Slot s ++ tail) →
      c < 2 ^ 64 → s.length ≤ MAX →
      (reg s = false →
        ∃ it1, MessageIterator.advance MAX reg it = Outcome.ok it1 ∧
          it1.value = ([], some s) ∧ it1.previous_tag = []) ∧
      (reg s = true → c = 1 →
        ∃ it1, MessageIterator.advance MAX reg it = Outcome.ok it1 ∧
          it1.value = (s, none) ∧ it1.previous_tag = s) ∧
      (reg s = true → c ≠ 1 →
        ∃ a1, MessageIterator.loop_body MAX reg it = Round.again a1 ∧
          a1.previous_tag = s)) := by
  have hI := (reachable_inv MAX reg data positioning it h).1
  refine ⟨hI, fun first => classification_eq_registry reg _ first hI, ?_⟩
  intro c s tail hlo hhi hb hd hc hs
  refine ⟨?_, ?_, ?_⟩
  · intro hreg
    have hprev : ¬ (it.previous_tag ≠ [] ∧ it.previous_tag = s) := by
      rintro ⟨hne, heq⟩
      rcases hI with h0 | h1
      · exact hne h0
      · rw [heq, hreg] at h1
        exact Bool.false_ne_true h1
    obtain ⟨it1, hadv, hv, hp, _⟩ :=
      first_message_step MAX reg it c s tail hb hd hc hs hlo hhi hreg hprev
    exact ⟨it1, hadv, hv, hp⟩
  · intro hreg hc1
    subst hc1
    obtain ⟨it1, hadv, hv, hp, _⟩ :=
      tag_only_step MAX reg it s tail hb hd hs hlo hhi (Or.inl hreg)
    exact ⟨it1, hadv, hv, hp⟩
  · intro hreg hc1
    obtain ⟨a1, hl, hp, _⟩ :=
      loop_body_tag_step MAX reg it c s tail hd hc hc1 hs hlo hhi (Or.inl hreg)
    exact ⟨a1, hl, hp⟩

/-- Witness of `cached_tag_shortcut`: the reader constructed over the stream of the tag-only
group [GAM] followed by the group [GAM, [5]]. -/
theorem cached_tag_shortcut_witness :
    MessageIterator.Reachable 20 (fun b => b == [71, 65, 77])
      [1, 3, 71, 65, 77, 2, 3, 71, 65, 77, 1, 5] true
      ⟨([71, 65, 77], none), [71, 65, 77], 1, 1, 0, 1,
        ⟨[1, 3, 71, 65, 77, 2, 3, 71, 65, 77, 1, 5], 5, true⟩⟩ ∧
    (([71, 65, 77] : Bytes) = [] ∨ (fun b => b == [71, 65, 77]) ([71, 65, 77] : Bytes) = true) :=
  have hr : MessageIterator.Reachable 20 (fun b => b == [71, 65, 77])
      [1, 3, 71, 65, 77, 2, 3, 71, 65, 77, 1, 5] true
      ⟨([71, 65, 77], none), [71, 65, 77], 1, 1, 0, 1,
        ⟨[1, 3, 71, 65, 77, 2, 3, 71, 65, 77, 1, 5], 5, true⟩⟩ :=
    MessageIterator.Reachable.constructed 0 _ (by decide)
  ⟨hr, (cached_tag_shortcut 20 (fun b => b == [71, 65, 77])
    [1, 3, 71, 65, 77, 2, 3, 71, 65, 77, 1, 5] true _ hr).1⟩

open stream io

/-! ## The value that advance finds in the state -/

/-- The value that the loop body finds in the state has no influence on a normal return. -/
theorem loop_body_value_ok (MAX : Nat) (reg : Bytes → Bool) (it s : MessageIterator)
    (v : TaggedMessage)
    (h : MessageIterator.loop_body MAX reg it = Round.returns (Outcome.ok s)) :
    MessageIterator.loop_body MAX reg { it with value := v } = Round.returns (Outcome.ok s) := by
  unfold MessageIterator.loop_body at h ⊢
  simp only at h ⊢
  split at h
  · exact h
  · split at h
    · simp at h
    · rename_i hq2
      split at h
      · simp at h
      · rename_i hsz
        rw [if_neg hsz]
        split at h
        · simp at h
        · split at h
          · rename_i hnt
            rw [if_pos hnt]
            exact h
          · rename_i hnt
            rw [if_neg hnt]
            split at h
            · rename_i hc1
              rw [if_pos hc1]
              exact h
            · simp at h

/-- The value that the loop body finds in the state shows in the state at the end of the
loop body only as the message part of the value. -/
theorem loop_body_value_again (MAX : Nat) (reg : Bytes → Bool) (it a : MessageIterator)
    (v : TaggedMessage)
    (h : MessageIterator.loop_body MAX reg it = Round.again a) :
    MessageIterator.loop_body MAX reg { it with value := v } =
      Round.again { a with value := (a.value.1, v.2) } := by
  unfold MessageIterator.loop_body at h ⊢
  simp only at h ⊢
  split at h
  · simp at h
  · split at h
    · simp at h
    · split at h
      · simp at h
      · rename_i hsz
        rw [if_neg hsz]
        split at h
        · simp at h
        · split at h
          · simp at h
          · rename_i hnt
            rw [if_neg hnt]
            split at h
            · simp at h
            · rename_i hc1
              rw [if_neg hc1]
              simp only [Round.again.injEq] at h
              subst h
              rfl

/-- The value that the loop body finds in the state has no influence on an exception, and
shows in the state that the exception leaves only in the value. -/
theorem loop_body_value_thrown (MAX : Nat) (reg : Bytes → Bool) (it s : MessageIterator)
    (v : TaggedMessage) (why : Failure)
    (h : MessageIterator.loop_body MAX reg it = Round.returns (Outcome.thrown why s)) :
    ∃ s1, MessageIterator.loop_body MAX reg { it with value := v } =
        Round.returns (Outcome.thrown why s1) ∧ { s1 with value := s.value } = s := by
  unfold MessageIterator.loop_body at h ⊢
  simp only at h ⊢
  split at h
  · simp at h
  · split at h
    · simp only [Round.returns.injEq, Outcome.thrown.injEq] at h
      obtain ⟨hw, hs⟩ := h
      subst hw
      subst hs
      exact ⟨_, rfl, rfl⟩
    · split at h
      · rename_i hsz
        rw [if_pos hsz]
        simp only [Round.returns.injEq, Outcome.thrown.injEq] at h
        obtain ⟨hw, hs⟩ := h
        subst hw
        subst hs
        exact ⟨_, rfl, rfl⟩
      · rename_i hsz
        rw [if_neg hsz]
        split at h
        · simp only [Round.returns.injEq, Outcome.thrown.injEq] at h
          obtain ⟨hw, hs⟩ := h
          subst hw
          subst hs
          exact ⟨_, rfl, rfl⟩
        · split at h
          · simp at h
          · split at h
            · simp at h
            · simp at h

/-- The value that read_message finds in the state has no influence on an exception, and
shows in the state that the exception leaves only in the value. -/
theorem read_message_value_thrown (MAX : Nat) (a s : MessageIterator) (v : TaggedMessage)
    (why : Failure)
    (h : MessageIterator.read_message MAX a = Outcome.thrown why s) :
    ∃ s1, MessageIterator.read_message MAX { a with value := v } = Outcome.thrown why s1 ∧
      { s1 with value := s.value } = s := by
  unfold MessageIterator.read_message at h ⊢
  simp only at h ⊢
  split at h
  · simp only [Outcome.thrown.injEq] at h
    obtain ⟨hw, hs⟩ := h
    subst hw
    subst hs
    exact ⟨_, rfl, rfl⟩
  · split at h
    · rename_i hsz
      rw [if_pos hsz]
      simp only [Outcome.thrown.injEq] at h
      obtain ⟨hw, hs⟩ := h
      subst hw
      subst hs
      exact ⟨_, rfl, rfl⟩
    · rename_i hsz
      rw [if_neg hsz]
      split at h
      · simp only [Outcome.thrown.injEq] at h
        obtain ⟨hw, hs⟩ := h
        subst hw
        subst hs
        exact ⟨_, rfl, rfl⟩
      · simp at h

/-- When a round of the loop returns from the function, advance has its result. -/
theorem advance_of_returns (MAX : Nat) (reg : Bytes → Bool) (it : MessageIterator)
    (r : Outcome MessageIterator) (hb : it.group_count = it.group_idx)
    (hl : MessageIterator.loop_body MAX reg it = Round.returns r) :
    MessageIterator.advance MAX reg it = r := by
  simp [MessageIterator.advance, MessageIterator.increment, hb, hl]

/-- Inside a group advance reads the next message. -/
theorem advance_inside (MAX : Nat) (reg : Bytes → Bool) (it : MessageIterator)
    (hb : it.group_count ≠ it.group_idx) :
    MessageIterator.advance MAX reg it = MessageIterator.read_message MAX it := by
  simp [MessageIterator.advance, MessageIterator.increment, hb]

/-- The value that advance finds in the state: it has no influence on a normal return, and
after an exception it shows only in the value of the state. -/
theorem advance_value (MAX : Nat) (reg : Bytes → Bool) (it : MessageIterator)
    (v : TaggedMessage) :
    (∀ it1, MessageIterator.advance MAX reg it = Outcome.ok it1 →
      MessageIterator.advance MAX reg { it with value := v } = Outcome.ok it1) ∧
    (∀ why s, MessageIterator.advance MAX reg it = Outcome.thrown why s →
      ∃ s1, MessageIterator.advance MAX reg { it with value := v } = Outcome.thrown why s1 ∧
        { s1 with value := s.value } = s) := by
  rcases advance_cases MAX reg it with ⟨hb, r, hl, hadv⟩ | ⟨hb, a, hl, hadv⟩ | ⟨hb, hadv⟩
  · refine ⟨?_, ?_⟩
    · intro it1 h
      rw [hadv] at h
      subst h
      exact advance_of_returns MAX reg { it with value := v } _ hb
        (loop_body_value_ok MAX reg it it1 v hl)
    · intro why s h
      rw [hadv] at h
      subst h
      obtain ⟨s1, hl1, hs1⟩ := loop_body_value_thrown MAX reg it s v why hl
      exact ⟨s1, advance_of_returns MAX reg { it with value := v } _ hb hl1, hs1⟩
  · have hl1 := loop_body_value_again MAX reg it a v hl
    have hne := loop_body_again MAX reg _ _ hl1
    have hadv1 : MessageIterator.advance MAX reg { it with value := v } =
        MessageIterator.read_message MAX { a with value := (a.value.1, v.2) } := by
      rw [advance_of_again MAX reg { it with value := v } _ hb hl1]
      exact advance_inside MAX reg _ hne
    rw [hadv, hadv1]
    exact ⟨fun it1 h => read_message_value MAX a it1 _ h,
      fun why s h => read_message_value_thrown MAX a s _ why h⟩
  · have hadv1 : MessageIterator.advance MAX reg { it with value := v } =
        MessageIterator.read_message MAX { it with value := v } :=
      advance_inside MAX reg { it with value := v } hb
    rw [hadv, hadv1]
    exact ⟨fun it1 h => read_message_value MAX it it1 _ h,
      fun why s h => read_message_value_thrown MAX it s _ why h⟩

/-- C27 (take is dereference followed by advance).  take returns the value that operator*
returns in the same state.  The advance inside take runs on the state whose value has been
moved out; it returns normally exactly when advance from the state before the move does, and
then with the same resulting state, so that take and "dereference, then advance" give the
same value and the same state.  When advance throws, take throws the same error, and the
states that the two leave differ at most in the value.  The tag of the following messages is
not lost with the move: inside a group, the advance of take yields the next message with the
cached tag. -/
theorem take_is_dereference_then_advance (MAX : Nat) (reg : Bytes → Bool)
    (it : MessageIterator) :
    (MessageIterator.take MAX reg it).1 = (MessageIterator.dereference_then_advance MAX reg it).1 ∧
    (∀ it1, (MessageIterator.dereference_then_advance MAX reg it).2 = Outcome.ok it1 ↔
      (MessageIterator.take MAX reg it).2 = Outcome.ok it1) ∧
    (∀ it1, MessageIterator.advance MAX reg it = Outcome.ok it1 →
      MessageIterator.take MAX reg it = MessageIterator.dereference_then_advance MAX reg it ∧
      MessageIterator.take MAX reg it = (it.value, Outcome.ok it1)) ∧
    (∀ why s, MessageIterator.advance MAX reg it = Outcome.thrown why s →
      ∃ s1, (MessageIterator.take MAX reg it).2 = Outcome.thrown why s1 ∧
        { s1 with value := s.value } = s) ∧
    (∀ m tail, 15 ≤ MAX → MAX * 2 < 2 ^ 31 → it.group_count ≠ it.group_idx →
      it.bgzip_in.data.drop it.bgzip_in.pos = wire.Slot m ++ tail → m.length ≤ MAX →
      ∃ it1, (MessageIterator.take MAX reg it).2 = Outcome.ok it1 ∧
        it1.value = (it.previous_tag, some m) ∧ it1.previous_tag = it.previous_tag) := by
  have hfwd := advance_value MAX reg it ([], none)
  have hback := advance_value MAX reg { it with value := ([], none) } it.value
  have heta : ({ ({ it with value := ([], none) } : MessageIterator) with value := it.value } :
      MessageIterator) = it := rfl
  rw [heta] at hback
  refine ⟨rfl, ?_, ?_, ?_, ?_⟩
  · intro it1
    exact ⟨fun h => hfwd.1 it1 h, fun h => hback.1 it1 h⟩
  · intro it1 h
    have ht : MessageIterator.take MAX reg it = (it.value, Outcome.ok it1) := by
      unfold MessageIterator.take
      rw [hfwd.1 it1 h]
    refine ⟨?_, ht⟩
    rw [ht]
    unfold MessageIterator.dereference_then_advance
    rw [h]
  · intro why s h
    exact hfwd.2 why s h
  · intro m tail hlo hhi hb hd hm
    obtain ⟨it1, hadv, hv, hp, _⟩ := next_message_step MAX reg it m tail hb hd hm hlo hhi
    exact ⟨it1, hfwd.1 it1 hadv, hv, hp⟩

/-- Witness of `take_is_dereference_then_advance`: the reader on the first message of the
group ["A", "B"]. -/
theorem take_is_dereference_then_advance_witness :
    MessageIterator.take 20 (fun b => b == [71, 65, 77])
        ⟨([], some [65]), [], 2, 1, 0, 1, ⟨[2, 1, 65, 1, 66], 3, true⟩⟩ =
      (([], some [65]),
        Outcome.ok ⟨([], some [66]), [], 2, 2, 0, 3, ⟨[2, 1, 65, 1, 66], 5, true⟩⟩) :=
  ((take_is_dereference_then_advance 20 (fun b => b == [71, 65, 77])
    ⟨([], some [65]), [], 2, 1, 0, 1, ⟨[2, 1, 65, 1, 66], 3, true⟩⟩).2.2.1
    ⟨([], some [66]), [], 2, 2, 0, 3, ⟨[2, 1, 65, 1, 66], 5, true⟩⟩ (by decide)).2

/-! ## The offsets of the group and of its items -/

/-- A varint that is read takes at least one byte. -/
theorem getVarint_consumes (fuel : Nat) : ∀ (buf : Bytes) (mult acc v : Nat) (rest : Bytes),
    getVarint fuel buf mult acc = (some v, rest) → rest.length < buf.length := by
  induction fuel with
  | zero =>
    intro buf mult acc v rest h
    simp [getVarint] at h
  | succ fuel ih =>
    intro buf mult acc v rest h
    cases buf with
    | nil => simp [getVarint] at h
    | cons b tl =>
      simp only [getVarint] at h
      split at h
      · simp only [Prod.mk.injEq] at h
        rw [← h.2]
        simp
      · have := ih tl _ _ v rest h
        simp only [List.length_cons]
        omega

theorem ReadVarint64_count (c c1 : CodedInputStream) (v : Nat)
    (h : c.ReadVarint64 = (some v, c1)) : c.count < c1.count := by
  unfold CodedInputStream.ReadVarint64 at h
  simp only [Prod.mk.injEq] at h
  obtain ⟨h1, h2⟩ := h
  cases hq : getVarint 10 c.buf 1 0 with
  | mk o rest =>
    rw [hq] at h1 h2
    cases o with
    | none => simp at h1
    | some w =>
      have := getVarint_consumes 10 c.buf 1 0 w rest hq
      rw [← h2]
      simp only
      omega

theorem ReadVarint32_count (c : CodedInputStream) : c.count ≤ (c.ReadVarint32).2.count := by
  unfold CodedInputStream.ReadVarint32
  simp

theorem ReadString_count (c : CodedInputStream) (n : Nat) :
    c.count ≤ (c.ReadString n).2.2.count := by
  unfold CodedInputStream.ReadString
  split <;> simp

/-- On a stream that supports positioning, the state in which the loop body returns with a
current item, or which it leaves at its end, has the position before the group count as its
group offset, an item offset after it, and the stream not before the item offset. -/
theorem loop_body_offsets (MAX : Nat) (reg : Bytes → Bool) (it : MessageIterator)
    (hpos : it.bgzip_in.positioning = true) :
    (∀ it1, MessageIterator.loop_body MAX reg it = Round.returns (Outcome.ok it1) →
      it1.has_current = true →
      it1.group_vo = (it.bgzip_in.pos : Int) ∧ it1.group_vo < it1.item_vo ∧
        it1.item_vo ≤ (it1.bgzip_in.pos : Int) ∧ it1.bgzip_in.positioning = true) ∧
    (∀ a1, MessageIterator.loop_body MAX reg it = Round.again a1 →
      a1.group_vo = (it.bgzip_in.pos : Int) ∧ a1.group_vo < a1.item_vo ∧
        a1.item_vo ≤ (a1.bgzip_in.pos : Int) ∧ a1.bgzip_in.positioning = true) := by
  have hT : it.bgzip_in.Tell = (it.bgzip_in.pos : Int) := by
    simp [BlockedGzipInputStream.Tell, hpos]
  have hTne : ¬ ((it.bgzip_in.pos : Int) = -1) := by omega
  have hA : ∀ (c : CodedInputStream) (x : Int), (if (it.bgzip_in.after c).Tell = -1 then x
      else (it.bgzip_in.after c).Tell) = ((it.bgzip_in.pos + c.count : Nat) : Int) := by
    intro c x
    rw [after_Tell_ite]
    simp [hpos]
  have key : ∀ (count : Nat) (c1 c2 c3 : CodedInputStream) (o : Option Nat) (b : Bool)
      (first : Bytes) (n : Nat),
      (it.bgzip_in.coded (MAX * 2)).ReadVarint64 = (some count, c1) →
      c1.ReadVarint32 = (o, c2) →
      (if n ≠ 0 then c2.ReadString n else (true, [], c2)) = (b, first, c3) →
      0 < c1.count ∧ c1.count ≤ c3.count := by
    intro count c1 c2 c3 o b first n h1 h2 h3
    have e1 := ReadVarint64_count _ _ _ h1
    have e2 := ReadVarint32_count c1
    rw [h2] at e2
    have e3 : c2.count ≤ c3.count := by
      by_cases hn : n ≠ 0
      · rw [if_pos hn] at h3
        have := ReadString_count c2 n
        rw [h3] at this
        exact this
      · rw [if_neg hn] at h3
        simp only [Prod.mk.injEq] at h3
        rw [← h3.2.2]
    simp only at e2
    have e0 : (it.bgzip_in.coded (MAX * 2)).count = 0 := rfl
    omega
  refine ⟨?_, ?_⟩
  · intro it1 h hcur
    unfold MessageIterator.loop_body at h
    simp only at h
    split at h
    · simp only [Round.returns.injEq, Outcome.ok.injEq] at h
      subst h
      simp [MessageIterator.has_current] at hcur
    · rename_i count c1 hq1
      split at h
      · simp at h
      · rename_i tagSize c2 hq2
        split at h
        · simp at h
        · split at h
          · simp at h
          · rename_i first c3 hq3
            obtain ⟨k1, k2⟩ := key count c1 c2 c3 _ _ first tagSize hq1 hq2 hq3
            split at h
            · simp only [Round.returns.injEq, Outcome.ok.injEq] at h
              subst h
              simp only [hT, hTne, if_false, hA]
              refine ⟨trivial, ?_, ?_, hpos⟩
              · push_cast
                omega
              · show ((it.bgzip_in.pos + c1.count : Nat) : Int) ≤
                  ((it.bgzip_in.pos + c3.count : Nat) : Int)
                push_cast
                omega
            · split at h
              · simp only [Round.returns.injEq, Outcome.ok.injEq] at h
                subst h
                simp only [hT, hTne, if_false, hA]
                refine ⟨trivial, ?_, ?_, hpos⟩
                · push_cast
                  omega
                · show ((it.bgzip_in.pos + c1.count : Nat) : Int) ≤
                    ((it.bgzip_in.pos + c3.count : Nat) : Int)
                  push_cast
                  omega
              · simp at h
  · intro a1 h
    unfold MessageIterator.loop_body at h
    simp only at h
    split at h
    · simp at h
    · rename_i count c1 hq1
      split at h
      · simp at h
      · rename_i tagSize c2 hq2
        split at h
        · simp at h
        · split at h
          · simp at h
          · rename_i first c3 hq3
            obtain ⟨k1, k2⟩ := key count c1 c2 c3 _ _ first tagSize hq1 hq2 hq3
            split at h
            · simp at h
            · split at h
              · simp at h
              · simp only [Round.again.injEq] at h
                subst h
                simp only [hT, hTne, if_false, hA]
                refine ⟨trivial, ?_, ?_, hpos⟩
                · push_cast
                  omega
                · show ((it.bgzip_in.pos + c1.count : Nat) : Int) ≤
                    ((it.bgzip_in.pos + c3.count : Nat) : Int)
                  push_cast
                  omega

/-- On a stream that supports positioning, a message that read_message reads has the
position before its length as its item offset; the group offset is kept. -/
theorem read_message_offsets (MAX : Nat) (it it1 : MessageIterator)
    (hpos : it.bgzip_in.positioning = true)
    (h : MessageIterator.read_message MAX it = Outcome.ok it1) :
    it1.group_vo = it.group_vo ∧ it1.item_vo = (it.bgzip_in.pos : Int) ∧
      it1.item_vo ≤ (it1.bgzip_in.pos : Int) ∧ it1.bgzip_in.positioning = true := by
  have hT : it.bgzip_in.Tell = (it.bgzip_in.pos : Int) := by
    simp [BlockedGzipInputStream.Tell, hpos]
  have hTne : ¬ ((it.bgzip_in.pos : Int) = -1) := by omega
  unfold MessageIterator.read_message at h
  simp only at h
  split at h
  · simp at h
  · split at h
    · simp at h
    · split at h
      · simp at h
      · simp only [Outcome.ok.injEq] at h
        subst h
        simp only [hT, hTne, if_false]
        refine ⟨trivial, trivial, ?_, hpos⟩
        simp only [BlockedGzipInputStream.after]
        push_cast
        omega

/-- C26 (tell_group reports the offset of the group).  On a stream that does not support
positioning tell_group returns -1 in every state.  On a stream that supports positioning: an
advance at a group boundary that returns with a current item leaves a state in which
tell_group returns the position that the stream reported before the group count was read,
which is less than the offset of the item; an advance inside a group returns with the group
offset unchanged, so that tell_group returns for the next item what it returned for the item
before, again less than the offset of the item itself. -/
theorem tell_group_reports_group_offset (MAX : Nat) (reg : Bytes → Bool)
    (it it1 : MessageIterator)
    (hadv : MessageIterator.advance MAX reg it = Outcome.ok it1) :
    (∀ s : MessageIterator, s.bgzip_in.positioning = false → s.tell_group = -1) ∧
    (it.bgzip_in.positioning = true → it.group_count = it.group_idx →
      it1.has_current = true →
      it1.tell_group = it.bgzip_in.Tell ∧ it.bgzip_in.Tell = (it.bgzip_in.pos : Int) ∧
        it1.group_vo = it1.tell_group ∧ it1.tell_group < it1.item_vo ∧
        it1.item_vo ≤ (it1.bgzip_in.pos : Int)) ∧
    (it.bgzip_in.positioning = true → it.group_count ≠ it.group_idx →
      0 ≤ it.group_vo → it.group_vo < it.item_vo → it.item_vo ≤ (it.bgzip_in.pos : Int) →
      it1.tell_group = it.tell_group ∧ it1.group_vo = it1.tell_group ∧
        it1.tell_group < it1.item_vo ∧ it1.item_vo ≤ (it1.bgzip_in.pos : Int)) := by
  refine ⟨?_, ?_, ?_⟩
  · intro s hs
    simp [MessageIterator.tell_group, BlockedGzipInputStream.Tell, hs]
  · intro hpos hb hcur
    have hT : it.bgzip_in.Tell = (it.bgzip_in.pos : Int) := by
      simp [BlockedGzipInputStream.Tell, hpos]
    have main : it1.group_vo = (it.bgzip_in.pos : Int) ∧ it1.group_vo < it1.item_vo ∧
        it1.item_vo ≤ (it1.bgzip_in.pos : Int) ∧ it1.bgzip_in.positioning = true := by
      rcases advance_cases MAX reg it with ⟨_, r, hl, hr⟩ | ⟨_, a, hl, hr⟩ | ⟨hnb, _⟩
      · rw [hadv] at hr
        subst hr
        exact (loop_body_offsets MAX reg it hpos).1 it1 hl hcur
      · rw [hadv] at hr
        obtain ⟨a1, a2, a3, a4⟩ := (loop_body_offsets MAX reg it hpos).2 a hl
        obtain ⟨r1, r2, r3, r4⟩ := read_message_offsets MAX a it1 a4 hr.symm
        refine ⟨by rw [r1, a1], ?_, r3, r4⟩
        rw [r1, r2]
        omega
      · exact absurd hb hnb
    obtain ⟨m1, m2, m3, m4⟩ := main
    have htg := tell_group_positioning it1 m4 (by rw [m1]; omega)
    refine ⟨by rw [htg, m1, hT], hT, htg.symm, by rw [htg]; exact m2, m3⟩
  · intro hpos hb hgv hlt hle
    have hr : MessageIterator.read_message MAX it = Outcome.ok it1 := by
      rw [← advance_inside MAX reg it hb]
      exact hadv
    obtain ⟨r1, r2, r3, r4⟩ := read_message_offsets MAX it it1 hpos hr
    have htg := tell_group_positioning it1 r4 (by rw [r1]; exact hgv)
    have htg0 := tell_group_positioning it hpos hgv
    refine ⟨by rw [htg, htg0, r1], htg.symm, ?_, r3⟩
    rw [htg, r1, r2]
    omega

/-- Witness of `tell_group_reports_group_offset`: over the stream of the groups ["A", "B"]
and ["C"], the advance from "A" to "B".  For both items tell_group is 0, and the items are at
the offsets 1 and 3. -/
theorem tell_group_reports_group_offset_witness :
    MessageIterator.advance 20 (fun b => b == [71, 65, 77])
        ⟨([], some [65]), [], 2, 1, 0, 1, ⟨[2, 1, 65, 1, 66, 1, 1, 67], 3, true⟩⟩ =
      Outcome.ok ⟨([], some [66]), [], 2, 2, 0, 3, ⟨[2, 1, 65, 1, 66, 1, 1, 67], 5, true⟩⟩ ∧
    MessageIterator.tell_group
        ⟨([], some [66]), [], 2, 2, 0, 3, ⟨[2, 1, 65, 1, 66, 1, 1, 67], 5, true⟩⟩ =
      MessageIterator.tell_group
        ⟨([], some [65]), [], 2, 1, 0, 1, ⟨[2, 1, 65, 1, 66, 1, 1, 67], 3, true⟩⟩ :=
  ⟨by decide,
    ((tell_group_reports_group_offset 20 (fun b => b == [71, 65, 77])
      ⟨([], some [65]), [], 2, 1, 0, 1, ⟨[2, 1, 65, 1, 66, 1, 1, 67], 3, true⟩⟩
      ⟨([], some [66]), [], 2, 2, 0, 3, ⟨[2, 1, 65, 1, 66, 1, 1, 67], 5, true⟩⟩
      (by decide)).2.2 rfl (by decide) (by decide) (by decide) (by decide)).1⟩

open stream io

/-! ## Failures of the writer -/

/-- The bytes of a group end with the slot of its last message. -/
theorem Slots_append (g h : List Bytes) : wire.Slots (g ++ h) = wire.Slots g ++ wire.Slots h := by
  induction g with
  | nil => rfl
  | cons m g ih => simp [wire.Slots, ih, List.append_assoc]

theorem Group_snoc (g : List Bytes) (m : Bytes) :
    wire.Group (g ++ [m]) = wire.varint (g.length + 1) ++ (wire.Slots g ++ wire.Slot m) := by
  simp [wire.Group, Slots_append, wire.Slots]

/-- A group in wire format has at least the byte of its count. -/
theorem Group_length_pos (g : List Bytes) : 0 < (wire.Group g).length := by
  unfold wire.Group wire.varint
  split <;> simp

/-- The destructor of an emitter that owns a stream. -/
theorem destroy_of_stream (e : MessageEmitter) (out : BlockedGzipOutputStream)
    (h : e.bgzip_out = some out) :
    MessageEmitter.destroy e =
      match MessageEmitter.emit_group e with
      | Outcome.thrown why e1 => Outcome.thrown why e1
      | Outcome.ok e1 =>
        Outcome.ok { e1 with bgzip_out := e1.bgzip_out.map (fun s => s.EndFile) } := by
  simp only [MessageEmitter.destroy, h]

/-- C34 (a rejected oversize write is not rolled back).  The message `m` is longer than the
size limit, and the first statement of write, the flush of a full pending group, returns
normally with the state `e1` (which is the state before the call when nothing was flushed).
Then write and write_copy throw "message too large" and leave the state `e1` with `m`
appended to its pending group.  This state is not the state before the call.  A later flush
that returns normally has written the group that ends with the slot of `m`, and so has the
destructor of an emitter that owns its stream. -/
theorem rejected_write_not_rolled_back (MAX : Nat) (e e1 : MessageEmitter) (m : Bytes)
    (hbig : MAX < m.length) (hlen : e.group.length < 2 ^ 64)
    (hflush : MessageEmitter.flush_if_full e = Outcome.ok e1) :
    MessageEmitter.write MAX e m =
      Outcome.thrown Failure.message_too_large { e1 with group := e1.group ++ [m] } ∧
    MessageEmitter.write_copy MAX e m =
      Outcome.thrown Failure.message_too_large { e1 with group := e1.group ++ [m] } ∧
    (e.group.length < e.max_group_size → e1 = e) ∧
    ({ e1 with group := e1.group ++ [m] } : MessageEmitter) ≠ e ∧
    (∀ e3, e1.group.length + 1 < 2 ^ 64 →
      MessageEmitter.emit_group { e1 with group := e1.group ++ [m] } = Outcome.ok e3 →
      ∃ out, e1.bgzip_out = some out ∧
        e3.bgzip_out = some { out with
          written := out.written ++
            (wire.varint (e1.group.length + 1) ++ (wire.Slots e1.group ++ wire.Slot m)) }) ∧
    (∀ e3 out, e1.group.length + 1 < 2 ^ 64 → e1.bgzip_out = some out →
      MessageEmitter.destroy { e1 with group := e1.group ++ [m] } = Outcome.ok e3 →
      e3.bgzip_out = some (BlockedGzipOutputStream.EndFile { out with
          written := out.written ++
            (wire.varint (e1.group.length + 1) ++ (wire.Slots e1.group ++ wire.Slot m)) })) := by
  have hw : MessageEmitter.write MAX e m =
      Outcome.thrown Failure.message_too_large { e1 with group := e1.group ++ [m] } := by
    unfold MessageEmitter.write
    rw [hflush]
    simp only
    rw [if_pos hbig]
  have hemit : ∀ e3, e1.group.length + 1 < 2 ^ 64 →
      MessageEmitter.emit_group { e1 with group := e1.group ++ [m] } = Outcome.ok e3 →
      ∃ out, e1.bgzip_out = some out ∧
        e3 = { e1 with
          group := []
          bgzip_out := some { out with
            written := out.written ++
              (wire.varint (e1.group.length + 1) ++ (wire.Slots e1.group ++ wire.Slot m)) }
          calls := e3.calls } := by
    intro e3 hl hok
    obtain ⟨out, hout, he3⟩ := emit_group_ok _ e3 (by simp) (by simpa using hl) hok
    refine ⟨out, hout, ?_⟩
    rw [he3]
    simp only [Group_snoc]
  refine ⟨hw, hw, ?_, ?_, ?_, ?_⟩
  · intro hlt
    unfold MessageEmitter.flush_if_full at hflush
    rw [if_neg (by omega)] at hflush
    exact (Outcome.ok.inj hflush).symm
  · intro heq
    unfold MessageEmitter.flush_if_full at hflush
    by_cases hfull : e.max_group_size ≤ e.group.length
    · rw [if_pos hfull] at hflush
      by_cases hne : e.group = []
      · have : MessageEmitter.emit_group e = Outcome.ok e := by
          simp [MessageEmitter.emit_group, hne]
        rw [this] at hflush
        have h1 := Outcome.ok.inj hflush
        subst h1
        have := congrArg MessageEmitter.group heq
        simp at this
      · obtain ⟨out, hout, he1⟩ := emit_group_ok e e1 hne hlen hflush
        have hs := congrArg MessageEmitter.bgzip_out heq
        rw [he1] at hs
        simp only [hout, Option.some.injEq] at hs
        have hl := congrArg (fun s => s.written.length) hs
        have := Group_length_pos e.group
        simp only [List.length_append] at hl
        omega
    · rw [if_neg hfull] at hflush
      have h1 := Outcome.ok.inj hflush
      subst h1
      have := congrArg MessageEmitter.group heq
      simp at this
  · intro e3 hl hok
    obtain ⟨out, hout, he3⟩ := hemit e3 hl hok
    exact ⟨out, hout, by rw [he3]⟩
  · intro e3 out hl hb hok
    rw [destroy_of_stream { e1 with group := e1.group ++ [m] } out hb] at hok
    cases he : MessageEmitter.emit_group { e1 with group := e1.group ++ [m] } with
    | thrown why e2 =>
      rw [he] at hok
      simp at hok
    | ok e2 =>
      rw [he] at hok
      simp only [Outcome.ok.injEq] at hok
      obtain ⟨out1, hout, he2⟩ := hemit e2 hl he
      rw [hb] at hout
      simp only [Option.some.injEq] at hout
      subst hout
      rw [← hok, he2]
      rfl

/-- Witness of `rejected_write_not_rolled_back`: with a size limit of 3 bytes and groups of
two messages, the pending group [[1], [2]] is flushed by the write of [1, 2, 3, 4], which then
throws and leaves the message as the pending group. -/
theorem rejected_write_not_rolled_back_witness :
    (3 < ([1, 2, 3, 4] : Bytes).length ∧
      MessageEmitter.flush_if_full ⟨[[1], [2]], 2, some ⟨[], true, none, 0, 0⟩, [], []⟩ =
        Outcome.ok ⟨[], 2, some ⟨[2, 1, 1, 1, 2], true, none, 0, 0⟩, [], []⟩) ∧
    MessageEmitter.write 3 ⟨[[1], [2]], 2, some ⟨[], true, none, 0, 0⟩, [], []⟩ [1, 2, 3, 4] =
      Outcome.thrown Failure.message_too_large
        { (⟨[], 2, some ⟨[2, 1, 1, 1, 2], true, none, 0, 0⟩, [], []⟩ : MessageEmitter) with
          group := [] ++ [[1, 2, 3, 4]] } :=
  ⟨⟨by decide, rfl⟩,
    (rejected_write_not_rolled_back 3 ⟨[[1], [2]], 2, some ⟨[], true, none, 0, 0⟩, [], []⟩
      ⟨[], 2, some ⟨[2, 1, 1, 1, 2], true, none, 0, 0⟩, [], []⟩ [1, 2, 3, 4] (by decide)
      (by decide) rfl).1⟩

/-- The loop over the messages fails with an I/O error or at a message that is too long for
WriteRaw. -/
theorem write_messages_why (g : List Bytes) :
    ∀ (out out2 : BlockedGzipOutputStream) (why : Failure),
      MessageEmitter.write_messages g out = (out2, some why) →
      why = Failure.write_error ∨ why = Failure.undefined_size := by
  induction g with
  | nil =>
    intro out out2 why h
    simp [MessageEmitter.write_messages] at h
  | cons m g ih =>
    intro out out2 why h
    simp only [MessageEmitter.write_messages] at h
    split at h
    · simp only [Prod.mk.injEq, Option.some.injEq] at h
      exact Or.inl h.2.symm
    · split at h
      · simp only [Prod.mk.injEq, Option.some.injEq] at h
        exact Or.inr h.2.symm
      · split at h
        · simp only [Prod.mk.injEq, Option.some.injEq] at h
          exact Or.inl h.2.symm
        · exact ih _ _ _ h

/-- What a flush that throws leaves behind: the members but the stream and the record of
calls are unchanged, and the pending group is still there. -/
theorem emit_group_thrown (e e1 : MessageEmitter) (why : Failure)
    (h : MessageEmitter.emit_group e = Outcome.thrown why e1) :
    e.group ≠ [] ∧ e1.group = e.group ∧ e1.max_group_size = e.max_group_size ∧
      e1.group_handlers = e.group_handlers ∧
      ((why = Failure.assertion ∧ e.bgzip_out = none ∧ e1 = e) ∨
        ((why = Failure.write_error ∨ why = Failure.undefined_size) ∧
          ∃ out out1, e.bgzip_out = some out ∧ e1.bgzip_out = some out1 ∧ e1.calls = e.calls) ∨
        (why = Failure.listener_error ∧
          ∃ out, e.bgzip_out = some out ∧
            (e.group.length < 2 ^ 64 →
              e1.bgzip_out = some { out with written := out.written ++ wire.Group e.group }))) := by
  unfold MessageEmitter.emit_group at h
  cases hg : e.group with
  | nil => simp [hg] at h
  | cons a l =>
    have hemp : e.group.isEmpty = false := by rw [hg]; rfl
    simp only [hemp, Bool.false_eq_true, if_false] at h
    rw [← hg]
    have hne : e.group ≠ [] := by rw [hg]; simp
    cases hout : e.bgzip_out with
    | none =>
      simp only [hout, Outcome.thrown.injEq] at h
      obtain ⟨hw, he⟩ := h
      subst he
      exact ⟨hne, rfl, rfl, rfl, Or.inl ⟨hw.symm, rfl, rfl⟩⟩
    | some out =>
      simp only [hout] at h
      cases hp : out.put (WriteVarint64 e.group.length) with
      | mk out1 b1 =>
        rw [hp] at h
        cases b1 with
        | false =>
          simp only [Outcome.thrown.injEq] at h
          obtain ⟨hw, he⟩ := h
          subst he
          exact ⟨hne, rfl, rfl, rfl, Or.inr (Or.inl ⟨Or.inl hw.symm, out, out1, rfl, rfl, rfl⟩)⟩
        | true =>
          simp only at h
          cases hw : MessageEmitter.write_messages e.group out1 with
          | mk out2 r =>
            rw [hw] at h
            cases r with
            | some why1 =>
              simp only [Outcome.thrown.injEq] at h
              obtain ⟨hw1, he⟩ := h
              subst he
              subst hw1
              exact ⟨hne, rfl, rfl, rfl,
                Or.inr (Or.inl ⟨write_messages_why _ _ _ _ hw, out, out2, rfl, rfl, rfl⟩)⟩
            | none =>
              simp only at h
              cases hr : MessageEmitter.run_handlers e.group out.Tell out2.Tell 0
                  e.group_handlers e.calls with
              | mk calls1 b2 =>
                rw [hr] at h
                cases b2 with
                | true => simp at h
                | false =>
                  simp only [Outcome.thrown.injEq] at h
                  obtain ⟨hw1, he⟩ := h
                  subst he
                  refine ⟨hne, rfl, rfl, rfl, Or.inr (Or.inr ⟨hw1.symm, out, rfl, ?_⟩)⟩
                  intro hlen
                  have e1' := put_ok _ _ _ hp
                  obtain ⟨e2', _⟩ := write_messages_ok _ _ _ hw
                  simp only [e2', e1', WriteVarint64_eq _ hlen, wire.Group, List.append_assoc]

/-- C35 (a failed flush keeps the pending group).  When emit_group throws, because the
emitter has no stream, because a write to the stream reports an error, or because a listener
throws, the state it leaves has the pending group of before with all its messages.  The
exception goes on to the caller: a write or write_copy that flushes, and the destructor, throw
the same error with the same state.  After a listener has thrown, the stream holds the bytes
of the group already; a later flush that returns normally writes the same group to the stream
again, and only then the pending group is empty. -/
theorem failed_flush_keeps_group (e e1 : MessageEmitter) (why : Failure)
    (h : MessageEmitter.emit_group e = Outcome.thrown why e1) :
    e1.group = e.group ∧ e.group ≠ [] ∧
    (why = Failure.assertion ∨ why = Failure.write_error ∨ why = Failure.undefined_size ∨
      why = Failure.listener_error) ∧
    (∀ MAX m, e.max_group_size ≤ e.group.length →
      MessageEmitter.write MAX e m = Outcome.thrown why e1 ∧
      MessageEmitter.write_copy MAX e m = Outcome.thrown why e1) ∧
    (∀ out, e.bgzip_out = some out → MessageEmitter.destroy e = Outcome.thrown why e1) ∧
    (why = Failure.listener_error → e.group.length < 2 ^ 64 →
      ∃ out, e.bgzip_out = some out ∧
        e1.bgzip_out = some { out with written := out.written ++ wire.Group e.group }) ∧
    (∀ e2, e.group.length < 2 ^ 64 → MessageEmitter.emit_group e1 = Outcome.ok e2 →
      e2.group = [] ∧
      ∃ out1, e1.bgzip_out = some out1 ∧
        e2.bgzip_out = some { out1 with written := out1.written ++ wire.Group e.group }) := by
  obtain ⟨hne, hg, _, _, hcases⟩ := emit_group_thrown e e1 why h
  have hw : ∀ MAX m, e.max_group_size ≤ e.group.length →
      MessageEmitter.write MAX e m = Outcome.thrown why e1 := by
    intro MAX m hfull
    unfold MessageEmitter.write MessageEmitter.flush_if_full
    rw [if_pos hfull, h]
  refine ⟨hg, hne, ?_, fun MAX m hfull => ⟨hw MAX m hfull, hw MAX m hfull⟩, ?_, ?_, ?_⟩
  · rcases hcases with h1 | h1 | h1
    · exact Or.inl h1.1
    · rcases h1.1 with h2 | h2
      · exact Or.inr (Or.inl h2)
      · exact Or.inr (Or.inr (Or.inl h2))
    · exact Or.inr (Or.inr (Or.inr h1.1))
  · intro out hout
    rw [destroy_of_stream e out hout, h]
  · intro hl hlen
    rcases hcases with h1 | h1 | h1
    · rw [h1.1] at hl
      exact absurd hl (by decide)
    · rcases h1.1 with h2 | h2 <;> rw [h2] at hl <;> exact absurd hl (by decide)
    · obtain ⟨_, out, hout, hst⟩ := h1
      exact ⟨out, hout, hst hlen⟩
  · intro e2 hlen hok
    obtain ⟨out1, hout1, he2⟩ := emit_group_ok e1 e2 (by rw [hg]; exact hne)
      (by rw [hg]; exact hlen) hok
    refine ⟨by rw [he2], out1, hout1, ?_⟩
    rw [he2, hg]

/-- Witness of `failed_flush_keeps_group`: the only listener throws.  The group [[7]] is on
the stream and still pending. -/
theorem failed_flush_keeps_group_witness :
    MessageEmitter.emit_group ⟨[[7]], 2, some ⟨[], true, none, 0, 0⟩, [fun _ _ _ => false], []⟩ =
      Outcome.thrown Failure.listener_error
        ⟨[[7]], 2, some ⟨[1, 1, 7], true, none, 0, 0⟩, [fun _ _ _ => false],
          [⟨0, [[7]], 0, 3⟩]⟩ ∧
    (⟨[[7]], 2, some ⟨[1, 1, 7], true, none, 0, 0⟩, [fun _ _ _ => false],
      [⟨0, [[7]], 0, 3⟩]⟩ : MessageEmitter).group = [[7]] :=
  ⟨rfl, (failed_flush_keeps_group
    ⟨[[7]], 2, some ⟨[], true, none, 0, 0⟩, [fun _ _ _ => false], []⟩
    ⟨[[7]], 2, some ⟨[1, 1, 7], true, none, 0, 0⟩, [fun _ _ _ => false], [⟨0, [[7]], 0, 3⟩]⟩
    Failure.listener_error rfl).1⟩

/-- C36 (write and write_copy agree).  For every emitter state and every message, write and
write_copy have the same outcome: they return normally in the same cases and then with the
same state, which holds the pending group, the stream and the record of listener calls, and
they throw in the same cases, with the same kind of error and the same state. -/
theorem write_and_write_copy_agree (MAX : Nat) (e : MessageEmitter) (m : Bytes) :
    MessageEmitter.write_copy MAX e m = MessageEmitter.write MAX e m ∧
    (∀ e1, MessageEmitter.write MAX e m = Outcome.ok e1 ↔
      MessageEmitter.write_copy MAX e m = Outcome.ok e1) ∧
    (∀ why e1, MessageEmitter.write MAX e m = Outcome.thrown why e1 ↔
      MessageEmitter.write_copy MAX e m = Outcome.thrown why e1) := by
  have h : MessageEmitter.write_copy MAX e m = MessageEmitter.write MAX e m := by
    unfold MessageEmitter.write_copy MessageEmitter.write
    rfl
  exact ⟨h, fun e1 => by rw [h], fun why e1 => by rw [h]⟩

/-! ## The groups and the offsets that the listeners are told -/

/-- The invocations of listener `i` among those made for one flushed group. -/
theorem filter_group_calls (g : List Bytes) (a b : Int) (i n : Nat) :
    (group_calls g a b n).filter (fun c => c.listener = i) =
      if i < n then [⟨i, g, a, b⟩] else [] := by
  induction n with
  | zero => simp [group_calls]
  | succ n ih =>
    have hstep : (group_calls g a b (n + 1)).filter (fun c => c.listener = i) =
        (group_calls g a b n).filter (fun c => c.listener = i) ++
          (if n = i then [⟨i, g, a, b⟩] else []) := by
      simp only [group_calls, List.range_succ, List.map_append, List.filter_append,
        List.map_cons, List.map_nil]
      by_cases h : n = i
      · subst h
        simp [List.filter]
      · simp [List.filter, h]
    rw [hstep, ih]
    by_cases h1 : i < n
    · have : ¬ (n = i) := by omega
      have : i < n + 1 := by omega
      simp [*]
    · by_cases h2 : n = i
      · have : i < n + 1 := by omega
        simp [*]
      · have : ¬ (i < n + 1) := by omega
        simp [*]

/-- The invocations of one listener for a sequence of flushed groups chain, and the first of
them starts where the first group starts. -/
theorem file_calls_chain (p : Bool) (n i : Nat) (hi : i < n) (gs : List (List Bytes)) :
    ∀ base, offsets_chain ((file_calls p n base gs).filter (fun c => c.listener = i)) ∧
      ∀ c, ((file_calls p n base gs).filter (fun c => c.listener = i)).head? = some c →
        c.start_offset = offset_at p base := by
  induction gs with
  | nil =>
    intro base
    simp [file_calls, offsets_chain]
  | cons g gs ih =>
    intro base
    obtain ⟨ih1, ih2⟩ := ih (base + (wire.Group g).length)
    simp only [file_calls, List.filter_append, filter_group_calls, hi, if_true,
      List.singleton_append]
    refine ⟨?_, ?_⟩
    · cases hrest : (file_calls p n (base + (wire.Group g).length) gs).filter
          (fun c => c.listener = i) with
      | nil => simp [offsets_chain]
      | cons d r =>
        rw [hrest] at ih1 ih2
        simp only [offsets_chain]
        exact ⟨(ih2 d rfl).symm, ih1⟩
    · intro c hc
      simp only [List.head?_cons, Option.some.injEq] at hc
      rw [← hc]

/-- C37 (the reported group offsets chain).  A fresh emitter with its listeners writes the
messages, each with write or write_copy, and is destroyed; the stream accepts every write and
the listeners return normally.  In the invocations of each listener, taken in order, the end
offset of an invocation is the start offset of the next one; every invocation reports a group
of at least one message, and the stream holds exactly these groups, none of them empty. -/
theorem reported_offsets_chain (MAX k : Nat) (out0 : BlockedGzipOutputStream)
    (listeners : List listener_t) (writes : List (Bool × Bytes))
    (hk : k < 2 ^ 64) (hhi : MAX * 2 < 2 ^ 31) (hcap : out0.capacity = none)
    (hls : ∀ h ∈ listeners, ∀ g a b, h g a b = true)
    (hsz : ∀ w ∈ writes, w.2.length ≤ MAX) :
    ∃ e out, MessageEmitter.write_each_and_close MAX
        ((MessageEmitter.construct out0 k).with_listeners listeners) writes = Outcome.ok e ∧
      (∀ i, i < listeners.length →
        offsets_chain (e.calls.filter (fun c => c.listener = i))) ∧
      (∀ c ∈ e.calls, 1 ≤ c.messages.length) ∧
      e.bgzip_out = some out ∧
      out.written = out0.written ++ wire.File (flushed k (writes.map Prod.snd)) ∧
      ∀ g ∈ flushed k (writes.map Prod.snd), 1 ≤ g.length := by
  obtain ⟨out1, hu, hw1, hp1, he1⟩ := fresh_unfailing MAX out0 k listeners hcap hls
  have hsz' : ∀ m ∈ writes.map Prod.snd, m.length ≤ MAX := by
    intro m hm
    obtain ⟨w, hw, rfl⟩ := List.mem_map.mp hm
    exact hsz w hw
  have hmax : ((MessageEmitter.construct out0 k).with_listeners listeners).max_group_size = k := by
    simp [with_listeners_fields, MessageEmitter.construct]
  have hn : ((MessageEmitter.construct out0 k).with_listeners listeners).group_handlers.length =
      listeners.length := by
    simp [with_listeners_fields, MessageEmitter.construct]
  have hcalls : ((MessageEmitter.construct out0 k).with_listeners listeners).calls = [] := by
    simp [with_listeners_fields, MessageEmitter.construct]
  have hrun := write_and_close_unfailing MAX hhi (writes.map Prod.snd) _ out1 hu
    (by rw [hmax]; exact hk) (by simp [with_listeners_fields, MessageEmitter.construct]) hsz'
  rw [hmax, hn, hcalls] at hrun
  have hpos : ∀ g ∈ flushed k (writes.map Prod.snd), 1 ≤ g.length := by
    intro g hg
    have := (flushed_groups k (writes.map Prod.snd) g hg).1
    cases g with
    | nil => exact absurd rfl this
    | cons a l => simp
  refine ⟨_, _, by rw [write_each_and_close_eq]; exact hrun, ?_, ?_, rfl, by simp [hw1], hpos⟩
  · intro i hi
    simp only [List.nil_append]
    exact (file_calls_chain _ _ i hi _ _).1
  · intro c hc
    simp only [List.nil_append] at hc
    exact hpos _ (mem_file_calls _ _ _ _ c hc)

/-- Witness of `reported_offsets_chain`: three messages in groups of two, reported to one
listener. -/
theorem reported_offsets_chain_witness :
    (2 < 2 ^ 64 ∧ 20 * 2 < 2 ^ 31) ∧
    ∃ e out, MessageEmitter.write_each_and_close 20
        ((MessageEmitter.construct ⟨[], true, none, 0, 0⟩ 2).with_listeners
          [fun _ _ _ => true])
        [(false, [1]), (true, [2]), (false, [3])] = Outcome.ok e ∧
      (∀ i, i < ([fun _ _ _ => true] : List listener_t).length →
        offsets_chain (e.calls.filter (fun c => c.listener = i))) ∧
      (∀ c ∈ e.calls, 1 ≤ c.messages.length) ∧
      e.bgzip_out = some out ∧
      out.written = ([] : Bytes) ++
        wire.File (flushed 2 ([(false, [1]), (true, [2]), (false, [3])].map Prod.snd)) ∧
      ∀ g ∈ flushed 2 ([(false, [1]), (true, [2]), (false, [3])].map Prod.snd), 1 ≤ g.length :=
  ⟨by decide,
    reported_offsets_chain 20 2 ⟨[], true, none, 0, 0⟩ [fun _ _ _ => true]
      [(false, [1]), (true, [2]), (false, [3])] (by decide) (by decide) rfl (by simp)
      (by decide)⟩

/-- With a group size of 0 or 1, a pending group of one message is flushed by every write. -/
theorem batches_small (k : Nat) (hk : k ≤ 1) (ms : List Bytes) :
    ∀ x : Bytes, (batches k [x] ms).1 ++ [(batches k [x] ms).2] = (x :: ms).map (fun m => [m]) ∧
      (batches k [x] ms).2 ≠ [] := by
  induction ms with
  | nil =>
    intro x
    simp [batches]
  | cons m ms ih =>
    intro x
    obtain ⟨h1, h2⟩ := ih m
    have hc : k ≤ ([x] : List Bytes).length ∧ ([x] : List Bytes) ≠ [] := ⟨by simpa using hk, by simp⟩
    simp only [batches]
    rw [if_pos hc]
    refine ⟨?_, h2⟩
    simp only [List.cons_append, h1, List.map_cons]

theorem flushed_small (k : Nat) (hk : k ≤ 1) (ms : List Bytes) :
    flushed k ms = ms.map (fun m => [m]) := by
  cases ms with
  | nil => simp [flushed, batches]
  | cons m ms =>
    obtain ⟨h1, h2⟩ := batches_small k hk ms m
    have hb : batches k [] (m :: ms) = batches k [m] ms := by
      simp [batches]
    unfold flushed
    rw [hb, if_neg h2]
    exact h1

/-- C38 (max_group_size = 0 behaves like 1).  A fresh emitter with max_group_size = 0 writes N
messages within the size limit, each with write or write_copy, and is destroyed; the stream
accepts every write and the listeners return normally.  The stream then holds N groups, one
for each message in order, each of exactly one message; every listener was invoked N times,
each time with one message.  The outcome is the one of an emitter with max_group_size = 1. -/
theorem zero_group_size_is_one (MAX : Nat) (out0 : BlockedGzipOutputStream)
    (listeners : List listener_t) (writes : List (Bool × Bytes))
    (hhi : MAX * 2 < 2 ^ 31) (hcap : out0.capacity = none)
    (hls : ∀ h ∈ listeners, ∀ g a b, h g a b = true)
    (hsz : ∀ w ∈ writes, w.2.length ≤ MAX) :
    ∃ e out, MessageEmitter.write_each_and_close MAX
        ((MessageEmitter.construct out0 0).with_listeners listeners) writes = Outcome.ok e ∧
      e.bgzip_out = some out ∧
      out.written = out0.written ++ wire.File ((writes.map Prod.snd).map (fun m => [m])) ∧
      ((writes.map Prod.snd).map (fun m => [m])).length = writes.length ∧
      (∀ i, i < listeners.length → times_called i e.calls = writes.length) ∧
      (∀ c ∈ e.calls, c.messages.length = 1) ∧
      ∃ e1, MessageEmitter.write_each_and_close MAX
          ((MessageEmitter.construct out0 1).with_listeners listeners) writes = Outcome.ok e1 ∧
        e1.bgzip_out = e.bgzip_out ∧ e1.calls = e.calls ∧ e1.group = e.group := by
  have hsz' : ∀ m ∈ writes.map Prod.snd, m.length ≤ MAX := by
    intro m hm
    obtain ⟨w, hw, rfl⟩ := List.mem_map.mp hm
    exact hsz w hw
  have run : ∀ k, k ≤ 1 →
      MessageEmitter.write_each_and_close MAX
        ((MessageEmitter.construct out0 k).with_listeners listeners) writes = Outcome.ok
        { ((MessageEmitter.construct out0 k).with_listeners listeners) with
          group := []
          bgzip_out := some
            { (if out0.Tell = -1 then out0.StartFile else out0) with
              written := out0.written ++ wire.File ((writes.map Prod.snd).map (fun m => [m]))
              ended := out0.ended + 1 }
          calls := file_calls out0.positioning listeners.length
            out0.written.length ((writes.map Prod.snd).map (fun m => [m])) } := by
    intro k hk
    obtain ⟨out1, hu, hw1, hp1, he1⟩ := fresh_unfailing MAX out0 k listeners hcap hls
    have hmax : ((MessageEmitter.construct out0 k).with_listeners listeners).max_group_size =
        k := by
      simp [with_listeners_fields, MessageEmitter.construct]
    have hn : ((MessageEmitter.construct out0 k).with_listeners listeners).group_handlers.length =
        listeners.length := by
      simp [with_listeners_fields, MessageEmitter.construct]
    have hcalls : ((MessageEmitter.construct out0 k).with_listeners listeners).calls = [] := by
      simp [with_listeners_fields, MessageEmitter.construct]
    have hrun := write_and_close_unfailing MAX hhi (writes.map Prod.snd) _ out1 hu
      (by rw [hmax]; omega) (by simp [with_listeners_fields, MessageEmitter.construct]) hsz'
    rw [hmax, hn, hcalls, flushed_small k hk] at hrun
    have hout1 : out1 = (if out0.Tell = -1 then out0.StartFile else out0) := by
      have := hu.1
      simp only [with_listeners_fields, MessageEmitter.construct, Option.some.injEq] at this
      exact this.symm
    rw [write_each_and_close_eq, hrun, hout1]
    have hwr : (if out0.Tell = -1 then out0.StartFile else out0).written = out0.written := by
      split <;> rfl
    have hpo : (if out0.Tell = -1 then out0.StartFile else out0).positioning =
        out0.positioning := by
      split <;> rfl
    have hen : (if out0.Tell = -1 then out0.StartFile else out0).ended = out0.ended := by
      split <;> rfl
    simp only [hwr, hpo, hen, List.nil_append, hmax]
  have h0 := run 0 (by omega)
  have h1 := run 1 (by omega)
  refine ⟨_, _, h0, rfl, rfl, by simp, ?_, ?_, _, h1, rfl, rfl, rfl⟩
  · intro i hi
    show times_called i (file_calls _ _ _ _) = _
    rw [times_called_file_calls _ _ _ hi]
    simp
  · intro c hc
    have hmem := mem_file_calls _ _ _ _ c hc
    obtain ⟨m, _, hm⟩ := List.mem_map.mp hmem
    rw [← hm]
    rfl

/-- Witness of `zero_group_size_is_one`: three messages and one listener. -/
theorem zero_group_size_is_one_witness :
    20 * 2 < 2 ^ 31 ∧
    ∃ e out, MessageEmitter.write_each_and_close 20
        ((MessageEmitter.construct ⟨[], true, none, 0, 0⟩ 0).with_listeners
          [fun _ _ _ => true])
        [(false, [1]), (true, [2]), (false, [3])] = Outcome.ok e ∧
      e.bgzip_out = some out ∧
      out.written = ([] : Bytes) ++
        wire.File (([(false, [1]), (true, [2]), (false, [3])].map Prod.snd).map (fun m => [m])) :=
  ⟨by decide,
    match zero_group_size_is_one 20 ⟨[], true, none, 0, 0⟩ [fun _ _ _ => true]
      [(false, [1]), (true, [2]), (false, [3])] (by decide) rfl (by simp) (by decide) with
    | ⟨e, out, h1, h2, h3, _⟩ => ⟨e, out, h1, h2, h3⟩⟩

open stream io

/-! ## Reachable states and seek_group -/

/-- C33 (the "already positioned" shortcut of seek_group is unreachable).  In every reader
state that is reachable from the constructor by calls of advance, take and seek_group that
returned normally, group_idx = 0 implies that the group offset is -1.  So for an offset that
is not negative the test "group_idx == 0 && group_vo == virtual_offset" fails, and seek_group
goes on to the seek primitive of the stream: it returns false when the primitive fails, and
otherwise it is the advance on the repositioned stream. -/
theorem shortcut_unreachable (MAX : Nat) (reg : Bytes → Bool) (data : Bytes)
    (positioning : Bool) (it : MessageIterator)
    (h : MessageIterator.Reachable MAX reg data positioning it) :
    (it.group_idx = 0 → it.group_vo = -1) ∧
    ∀ virtual_offset : Int, 0 ≤ virtual_offset →
      ¬ (it.group_idx = 0 ∧ it.group_vo = virtual_offset) ∧
      ((it.bgzip_in.Seek virtual_offset).2 = false →
        MessageIterator.seek_group MAX reg it virtual_offset = Outcome.ok (false, it)) ∧
      (∀ sought, it.bgzip_in.Seek virtual_offset = (sought, true) →
        (∀ it1, MessageIterator.advance MAX reg
            { it with bgzip_in := sought, group_count := 0, group_idx := 0 } = Outcome.ok it1 →
          MessageIterator.seek_group MAX reg it virtual_offset = Outcome.ok (true, it1)) ∧
        (∀ why it1, MessageIterator.advance MAX reg
            { it with bgzip_in := sought, group_count := 0, group_idx := 0 } =
              Outcome.thrown why it1 →
          MessageIterator.seek_group MAX reg it virtual_offset =
            Outcome.thrown why (false, it1))) := by
  have hI := (reachable_inv MAX reg data positioning it h).2.1
  refine ⟨hI, ?_⟩
  intro vo hvo
  have hnot : ¬ (it.group_idx = 0 ∧ it.group_vo = vo) := by
    rintro ⟨h0, h1⟩
    have := hI h0
    omega
  have hneg : ¬ (vo < 0) := by omega
  refine ⟨hnot, ?_, ?_⟩
  · intro hs
    unfold MessageIterator.seek_group
    rw [if_neg hneg, if_neg hnot]
    split
    · rfl
    · rename_i sought hq
      rw [hq] at hs
      simp at hs
  · intro sought hs
    refine ⟨?_, ?_⟩
    · intro it1 hadv
      unfold MessageIterator.seek_group
      rw [if_neg hneg, if_neg hnot, hs]
      simp only [hadv]
    · intro why it1 hadv
      unfold MessageIterator.seek_group
      rw [if_neg hneg, if_neg hnot, hs]
      simp only [hadv]

/-- Witness of `shortcut_unreachable`: the exhausted reader over the empty stream. -/
theorem shortcut_unreachable_witness :
    MessageIterator.Reachable 20 (fun b => b == [71, 65, 77]) [] true
      ⟨([], none), [], 0, 0, -1, -1, ⟨[], 0, true⟩⟩ ∧
    ((⟨([], none), [], 0, 0, -1, -1, ⟨[], 0, true⟩⟩ : MessageIterator).group_idx = 0 →
      (⟨([], none), [], 0, 0, -1, -1, ⟨[], 0, true⟩⟩ : MessageIterator).group_vo = -1) :=
  have hr : MessageIterator.Reachable 20 (fun b => b == [71, 65, 77]) [] true
      ⟨([], none), [], 0, 0, -1, -1, ⟨[], 0, true⟩⟩ :=
    MessageIterator.Reachable.constructed 0 _ (by decide)
  ⟨hr, (shortcut_unreachable 20 (fun b => b == [71, 65, 77]) [] true _ hr).1⟩

/-! ## States that read alike -/

theorem coded_of_same_drop (a b : BlockedGzipInputStream) (limit : Nat)
    (hd : a.data.drop a.pos = b.data.drop b.pos) : b.coded limit = a.coded limit := by
  simp [BlockedGzipInputStream.coded, hd]

theorem drop_after_same (a b : BlockedGzipInputStream) (c : CodedInputStream)
    (hd : a.data.drop a.pos = b.data.drop b.pos) :
    (a.after c).data.drop (a.after c).pos = (b.after c).data.drop (b.after c).pos := by
  simp only [BlockedGzipInputStream.after]
  rw [← List.drop_drop, ← List.drop_drop, hd]

theorem after_item_vo (s : BlockedGzipInputStream) (c : CodedInputStream) (x : Int)
    (hx : -1 ≤ x) :
    0 ≤ (if (s.after c).Tell = -1 then x + 1 else (s.after c).Tell) := by
  rw [after_Tell_ite]
  split <;> omega

theorem Tell_item_vo (s : BlockedGzipInputStream) (x : Int) (hx : -1 ≤ x) :
    0 ≤ (if s.Tell = -1 then x + 1 else s.Tell) := by
  rw [Tell_ite]
  split <;> omega

/-- The loop body on two states at the same bytes, whose cached tags are empty or accepted by
the registry: it ends in the same way, with the same value, cached tag and counters. -/
theorem loop_body_alike (MAX : Nat) (reg : Bytes → Bool) (a b : MessageIterator)
    (hd : a.bgzip_in.data.drop a.bgzip_in.pos = b.bgzip_in.data.drop b.bgzip_in.pos)
    (hIa : a.previous_tag = [] ∨ reg a.previous_tag = true)
    (hIb : b.previous_tag = [] ∨ reg b.previous_tag = true)
    (hva : -1 ≤ a.item_vo) (hvb : -1 ≤ b.item_vo) :
    (∀ a1, MessageIterator.loop_body MAX reg a = Round.returns (Outcome.ok a1) →
      ∃ b1, MessageIterator.loop_body MAX reg b = Round.returns (Outcome.ok b1) ∧
        a1.value = b1.value ∧ a1.has_current = b1.has_current ∧
        (a1.has_current = true →
          a1.previous_tag = b1.previous_tag ∧ a1.group_count = b1.group_count ∧
          a1.group_idx = b1.group_idx ∧
          a1.bgzip_in.data.drop a1.bgzip_in.pos = b1.bgzip_in.data.drop b1.bgzip_in.pos ∧
          0 ≤ a1.item_vo ∧ 0 ≤ b1.item_vo)) ∧
    (∀ why s, MessageIterator.loop_body MAX reg a = Round.returns (Outcome.thrown why s) →
      ∃ s1, MessageIterator.loop_body MAX reg b = Round.returns (Outcome.thrown why s1)) ∧
    (∀ a1, MessageIterator.loop_body MAX reg a = Round.again a1 →
      ∃ b1, MessageIterator.loop_body MAX reg b = Round.again b1 ∧
        a1.previous_tag = b1.previous_tag ∧ a1.group_count = b1.group_count ∧
        a1.group_idx = b1.group_idx ∧
        a1.bgzip_in.data.drop a1.bgzip_in.pos = b1.bgzip_in.data.drop b1.bgzip_in.pos ∧
        0 ≤ a1.item_vo ∧ 0 ≤ b1.item_vo) := by
  have hcoded := coded_of_same_drop a.bgzip_in b.bgzip_in (MAX * 2) hd
  refine ⟨?_, ?_, ?_⟩
  · intro a1 h
    unfold MessageIterator.loop_body at h ⊢
    simp only [hcoded] at h ⊢
    split at h
    · simp only [Round.returns.injEq, Outcome.ok.injEq] at h
      subst h
      exact ⟨_, rfl, rfl, rfl, fun hc => by simp [MessageIterator.has_current] at hc⟩
    · rename_i count c1 hq1
      split at h
      · simp at h
      · split at h
        · simp at h
        · rename_i hsz
          rw [if_neg hsz]
          split at h
          · simp at h
          · rename_i first c3 hq3
            rw [classification_eq_registry reg _ first hIa] at h
            rw [classification_eq_registry reg _ first hIb]
            split at h
            · rename_i hnt
              rw [if_pos hnt]
              simp only [Round.returns.injEq, Outcome.ok.injEq] at h
              subst h
              have h1 := after_item_vo a.bgzip_in c1 a.item_vo hva
              have h2 := after_item_vo b.bgzip_in c1 b.item_vo hvb
              refine ⟨_, rfl, rfl, ?_, fun _ => ⟨rfl, rfl, rfl, drop_after_same _ _ _ hd, h1, h2⟩⟩
              rw [has_current_of_nonneg _ h1, has_current_of_nonneg _ h2]
            · rename_i hnt
              rw [if_neg hnt]
              split at h
              · rename_i hc1
                rw [if_pos hc1]
                simp only [Round.returns.injEq, Outcome.ok.injEq] at h
                subst h
                have h1 := after_item_vo a.bgzip_in c1 a.item_vo hva
                have h2 := after_item_vo b.bgzip_in c1 b.item_vo hvb
                refine ⟨_, rfl, rfl, ?_,
                  fun _ => ⟨rfl, rfl, rfl, drop_after_same _ _ _ hd, h1, h2⟩⟩
                rw [has_current_of_nonneg _ h1, has_current_of_nonneg _ h2]
              · simp at h
  · intro why s h
    unfold MessageIterator.loop_body at h ⊢
    simp only [hcoded] at h ⊢
    split at h
    · simp at h
    · split at h
      · simp only [Round.returns.injEq, Outcome.thrown.injEq] at h
        rw [← h.1]
        exact ⟨_, rfl⟩
      · split at h
        · rename_i hsz
          rw [if_pos hsz]
          simp only [Round.returns.injEq, Outcome.thrown.injEq] at h
          rw [← h.1]
          exact ⟨_, rfl⟩
        · rename_i hsz
          rw [if_neg hsz]
          split at h
          · simp only [Round.returns.injEq, Outcome.thrown.injEq] at h
            rw [← h.1]
            exact ⟨_, rfl⟩
          · split at h
            · simp at h
            · split at h
              · simp at h
              · simp at h
  · intro a1 h
    unfold MessageIterator.loop_body at h ⊢
    simp only [hcoded] at h ⊢
    split at h
    · simp at h
    · rename_i count c1 hq1
      split at h
      · simp at h
      · split at h
        · simp at h
        · rename_i hsz
          rw [if_neg hsz]
          split at h
          · simp at h
          · rename_i first c3 hq3
            rw [classification_eq_registry reg _ first hIa] at h
            rw [classification_eq_registry reg _ first hIb]
            split at h
            · simp at h
            · rename_i hnt
              rw [if_neg hnt]
              split at h
              · simp at h
              · rename_i hc1
                rw [if_neg hc1]
                simp only [Round.again.injEq] at h
                subst h
                exact ⟨_, rfl, rfl, rfl, rfl, drop_after_same _ _ _ hd,
                  after_item_vo a.bgzip_in c1 a.item_vo hva,
                  after_item_vo b.bgzip_in c1 b.item_vo hvb⟩

/-- read_message on two states at the same bytes that agree on the cached tag and the
counters. -/
theorem read_message_alike (MAX : Nat) (a b : MessageIterator)
    (hd : a.bgzip_in.data.drop a.bgzip_in.pos = b.bgzip_in.data.drop b.bgzip_in.pos)
    (hp : a.previous_tag = b.previous_tag) (hgc : a.group_count = b.group_count)
    (hgi : a.group_idx = b.group_idx) (hva : -1 ≤ a.item_vo) (hvb : -1 ≤ b.item_vo) :
    (∀ a1, MessageIterator.read_message MAX a = Outcome.ok a1 →
      ∃ b1, MessageIterator.read_message MAX b = Outcome.ok b1 ∧
        a1.value = b1.value ∧ a1.previous_tag = b1.previous_tag ∧
        a1.group_count = b1.group_count ∧ a1.group_idx = b1.group_idx ∧
        a1.bgzip_in.data.drop a1.bgzip_in.pos = b1.bgzip_in.data.drop b1.bgzip_in.pos ∧
        0 ≤ a1.item_vo ∧ 0 ≤ b1.item_vo) ∧
    (∀ why s, MessageIterator.read_message MAX a = Outcome.thrown why s →
      ∃ s1, MessageIterator.read_message MAX b = Outcome.thrown why s1) := by
  have hcoded := coded_of_same_drop a.bgzip_in b.bgzip_in (MAX * 2) hd
  refine ⟨?_, ?_⟩
  · intro a1 h
    unfold MessageIterator.read_message at h ⊢
    simp only [hcoded] at h ⊢
    split at h
    · simp at h
    · split at h
      · simp at h
      · rename_i hsz
        rw [if_neg hsz]
        split at h
        · simp at h
        · simp only [Outcome.ok.injEq] at h
          subst h
          exact ⟨_, rfl, by simp only [hp], hp, hgc, by simp only [hgi],
            drop_after_same _ _ _ hd, Tell_item_vo a.bgzip_in a.item_vo hva,
            Tell_item_vo b.bgzip_in b.item_vo hvb⟩
  · intro why s h
    unfold MessageIterator.read_message at h ⊢
    simp only [hcoded] at h ⊢
    split at h
    · simp only [Outcome.thrown.injEq] at h
      rw [← h.1]
      exact ⟨_, rfl⟩
    · split at h
      · rename_i hsz
        rw [if_pos hsz]
        simp only [Outcome.thrown.injEq] at h
        rw [← h.1]
        exact ⟨_, rfl⟩
      · rename_i hsz
        rw [if_neg hsz]
        split at h
        · simp only [Outcome.thrown.injEq] at h
          rw [← h.1]
          exact ⟨_, rfl⟩
        · simp at h

/-- One advance from two states that read alike: the same outcome, the same value, and
states that read alike again as long as there is a current item. -/
theorem advance_alike (MAX : Nat) (reg : Bytes → Bool) (a b : MessageIterator)
    (h : MessageIterator.reads_alike reg a b) :
    (∀ a1, MessageIterator.advance MAX reg a = Outcome.ok a1 →
      ∃ b1, MessageIterator.advance MAX reg b = Outcome.ok b1 ∧
        a1.value = b1.value ∧ a1.has_current = b1.has_current ∧
        (a1.has_current = true → MessageIterator.reads_alike reg a1 b1)) ∧
    (∀ why s, MessageIterator.advance MAX reg a = Outcome.thrown why s →
      ∃ s1, MessageIterator.advance MAX reg b = Outcome.thrown why s1) := by
  obtain ⟨hIa, hIb, hva, hvb, hd, hcase⟩ := h
  have hinv : ∀ (x x1 : MessageIterator), (x.previous_tag = [] ∨ reg x.previous_tag = true) →
      MessageIterator.advance MAX reg x = Outcome.ok x1 →
      (x1.previous_tag = [] ∨ reg x1.previous_tag = true) := by
    intro x x1 hI hadv
    exact (advance_inv MAX reg x.bgzip_in.data x.bgzip_in.positioning x x1 hadv hI rfl rfl).1
  have hread : a.previous_tag = b.previous_tag → a.group_count = b.group_count →
      a.group_idx = b.group_idx → a.group_count ≠ a.group_idx →
      (∀ a1, MessageIterator.advance MAX reg a = Outcome.ok a1 →
        ∃ b1, MessageIterator.advance MAX reg b = Outcome.ok b1 ∧
          a1.value = b1.value ∧ a1.has_current = b1.has_current ∧
          (a1.has_current = true → MessageIterator.reads_alike reg a1 b1)) ∧
      (∀ why s, MessageIterator.advance MAX reg a = Outcome.thrown why s →
        ∃ s1, MessageIterator.advance MAX reg b = Outcome.thrown why s1) := by
    intro hp hgc hgi hna
    have hnb : b.group_count ≠ b.group_idx := by rw [← hgc, ← hgi]; exact hna
    obtain ⟨r1, r2⟩ := read_message_alike MAX a b hd hp hgc hgi hva hvb
    refine ⟨?_, ?_⟩
    · intro a1 hadv
      have hra := hadv
      rw [advance_inside MAX reg a hna] at hra
      obtain ⟨b1, hrb, e1, e2, e3, e4, e5, e6, e7⟩ := r1 a1 hra
      have hadvb : MessageIterator.advance MAX reg b = Outcome.ok b1 := by
        rw [advance_inside MAX reg b hnb]
        exact hrb
      refine ⟨b1, hadvb, e1, ?_, fun _ => ⟨hinv a a1 hIa hadv, hinv b b1 hIb hadvb, by omega,
        by omega, e5, Or.inr ⟨e2, e3, e4⟩⟩⟩
      rw [has_current_of_nonneg _ e6, has_current_of_nonneg _ e7]
    · intro why s hadv
      rw [advance_inside MAX reg a hna] at hadv
      obtain ⟨s1, hs1⟩ := r2 why s hadv
      exact ⟨s1, by rw [advance_inside MAX reg b hnb]; exact hs1⟩
  by_cases hba : a.group_count = a.group_idx
  · have hbb : b.group_count = b.group_idx := by
      rcases hcase with h1 | h1
      · exact h1.2
      · rw [← h1.2.1, ← h1.2.2]
        exact hba
    obtain ⟨l1, l2, l3⟩ := loop_body_alike MAX reg a b hd hIa hIb hva hvb
    cases hl : MessageIterator.loop_body MAX reg a with
    | returns r =>
      have hadva := advance_of_returns MAX reg a r hba hl
      cases r with
      | ok a1 =>
        obtain ⟨b1, hlb, e1, e2, e3⟩ := l1 a1 hl
        have hadvb := advance_of_returns MAX reg b _ hbb hlb
        refine ⟨?_, ?_⟩
        · intro a2 hadv
          rw [hadva] at hadv
          have := Outcome.ok.inj hadv
          subst this
          refine ⟨b1, hadvb, e1, e2, fun hc => ?_⟩
          obtain ⟨f1, f2, f3, f4, f5, f6⟩ := e3 hc
          exact ⟨hinv a a1 hIa hadva, hinv b b1 hIb hadvb, by omega, by omega, f4,
            Or.inr ⟨f1, f2, f3⟩⟩
        · intro why s hadv
          rw [hadva] at hadv
          simp at hadv
      | thrown w s =>
        obtain ⟨s1, hlb⟩ := l2 w s hl
        have hadvb := advance_of_returns MAX reg b _ hbb hlb
        refine ⟨?_, ?_⟩
        · intro a2 hadv
          rw [hadva] at hadv
          simp at hadv
        · intro why s2 hadv
          rw [hadva] at hadv
          simp only [Outcome.thrown.injEq] at hadv
          rw [← hadv.1]
          exact ⟨s1, hadvb⟩
    | again a0 =>
      obtain ⟨b0, hlb, e1, e2, e3, e4, e5, e6⟩ := l3 a0 hl
      have hna := loop_body_again MAX reg a a0 hl
      have hnb := loop_body_again MAX reg b b0 hlb
      have hadva : MessageIterator.advance MAX reg a = MessageIterator.read_message MAX a0 := by
        rw [advance_of_again MAX reg a a0 hba hl]
        exact advance_inside MAX reg a0 hna
      have hadvb : MessageIterator.advance MAX reg b = MessageIterator.read_message MAX b0 := by
        rw [advance_of_again MAX reg b b0 hbb hlb]
        exact advance_inside MAX reg b0 hnb
      obtain ⟨r1, r2⟩ := read_message_alike MAX a0 b0 e4 e1 e2 e3 (by omega) (by omega)
      refine ⟨?_, ?_⟩
      · intro a1 hadv
        have hra := hadv
        rw [hadva] at hra
        obtain ⟨b1, hrb, g1, g2, g3, g4, g5, g6, g7⟩ := r1 a1 hra
        have hb1 : MessageIterator.advance MAX reg b = Outcome.ok b1 := by
          rw [hadvb]
          exact hrb
        refine ⟨b1, hb1, g1, ?_, fun _ => ⟨hinv a a1 hIa hadv, hinv b b1 hIb hb1, by omega,
          by omega, g5, Or.inr ⟨g2, g3, g4⟩⟩⟩
        rw [has_current_of_nonneg _ g6, has_current_of_nonneg _ g7]
      · intro why s hadv
        rw [hadva] at hadv
        obtain ⟨s1, hs1⟩ := r2 why s hadv
        exact ⟨s1, by rw [hadvb]; exact hs1⟩
  · rcases hcase with h1 | h1
    · exact absurd h1.1 hba
    · exact hread h1.1 h1.2.1 h1.2.2 hba

/-- The advances that follow two states that read alike produce the same tagged messages and
end in the same way. -/
theorem following_alike (MAX : Nat) (reg : Bytes → Bool) (n : Nat) :
    ∀ a b : MessageIterator, MessageIterator.reads_alike reg a b →
      MessageIterator.following MAX reg n a = MessageIterator.following MAX reg n b := by
  induction n with
  | zero =>
    intro a b _
    rfl
  | succ n ih =>
    intro a b h
    obtain ⟨h1, h2⟩ := advance_alike MAX reg a b h
    simp only [MessageIterator.following]
    cases hadv : MessageIterator.advance MAX reg a with
    | ok a1 =>
      obtain ⟨b1, hb1, e1, e2, e3⟩ := h1 a1 hadv
      rw [hb1]
      simp only
      by_cases hc : a1.has_current = true
      · have hcb : b1.has_current = true := by rw [← e2]; exact hc
        rw [if_pos hc, if_pos hcb, e1, ih a1 b1 (e3 hc)]
      · have hcb : ¬ (b1.has_current = true) := by rw [← e2]; exact hc
        rw [if_neg hc, if_neg hcb]
    | thrown why s =>
      obtain ⟨s1, hs1⟩ := h2 why s hadv
      rw [hs1]

/-- An advance that returns normally keeps the item offset at -1 or above. -/
theorem advance_item_vo (MAX : Nat) (reg : Bytes → Bool) (it it1 : MessageIterator)
    (hI : it.previous_tag = [] ∨ reg it.previous_tag = true) (hv : -1 ≤ it.item_vo)
    (hadv : MessageIterator.advance MAX reg it = Outcome.ok it1) : -1 ≤ it1.item_vo := by
  obtain ⟨h1, _⟩ := advance_alike MAX reg it it ⟨hI, hI, hv, hv, rfl, Or.inr ⟨rfl, rfl, rfl⟩⟩
  obtain ⟨b1, _, _, _, e3⟩ := h1 it1 hadv
  by_cases hc : it1.has_current = true
  · exact (e3 hc).2.2.1
  · have : it1.item_vo = -1 := by
      simpa [MessageIterator.has_current] using hc
    omega

/-- In every reachable state the item offset is -1 or above. -/
theorem reachable_item_vo (MAX : Nat) (reg : Bytes → Bool) (data : Bytes) (positioning : Bool)
    (it : MessageIterator) (h : MessageIterator.Reachable MAX reg data positioning it) :
    -1 ≤ it.item_vo := by
  induction h with
  | constructed pos it hc =>
    exact advance_item_vo MAX reg _ it (Or.inl rfl) (le_refl _) hc
  | advanced it it1 hr ha ih =>
    exact advance_item_vo MAX reg it it1 (reachable_inv MAX reg data positioning it hr).1 ih ha
  | taken it it1 hr ha ih =>
    exact advance_item_vo MAX reg { it with value := ([], none) } it1
      (reachable_inv MAX reg data positioning it hr).1 ih ha
  | sought it it1 vo found hr hs ih =>
    have hI := (reachable_inv MAX reg data positioning it hr).1
    unfold MessageIterator.seek_group at hs
    split at hs
    · simp only [Outcome.ok.injEq, Prod.mk.injEq] at hs
      rw [← hs.2]
      exact ih
    · split at hs
      · simp only [Outcome.ok.injEq, Prod.mk.injEq] at hs
        rw [← hs.2]
        exact ih
      · split at hs
        · simp only [Outcome.ok.injEq, Prod.mk.injEq] at hs
          rw [← hs.2]
          exact ih
        · split at hs
          · simp at hs
          · rename_i sought hseek _ it2 hadv
            simp only [Outcome.ok.injEq, Prod.mk.injEq] at hs
            rw [← hs.2]
            exact advance_item_vo MAX reg
              { it with bgzip_in := sought, group_count := 0, group_idx := 0 } it2 hI ih hadv

/-- C31 (group-local reading).  Two reader states, each reachable over its own stream by
calls that returned normally, are at a group boundary, and the bytes that remain on the two
streams are the same.  Then the advances that follow produce the same tagged messages, up to
the same end (no current item, or the same error), whatever the cached tag, the current
value, the counters and the offsets of the two states are, and whether or not the streams
support positioning. -/
theorem group_local_reading (MAX : Nat) (reg : Bytes → Bool) (data1 data2 : Bytes)
    (positioning1 positioning2 : Bool) (a b : MessageIterator)
    (ha : MessageIterator.Reachable MAX reg data1 positioning1 a)
    (hb : MessageIterator.Reachable MAX reg data2 positioning2 b)
    (hba : a.group_count = a.group_idx) (hbb : b.group_count = b.group_idx)
    (hd : a.bgzip_in.data.drop a.bgzip_in.pos = b.bgzip_in.data.drop b.bgzip_in.pos) :
    ∀ n, MessageIterator.following MAX reg n a = MessageIterator.following MAX reg n b :=
  fun n => following_alike MAX reg n a b
    ⟨(reachable_inv MAX reg data1 positioning1 a ha).1,
      (reachable_inv MAX reg data2 positioning2 b hb).1,
      reachable_item_vo MAX reg data1 positioning1 a ha,
      reachable_item_vo MAX reg data2 positioning2 b hb, hd, Or.inl ⟨hba, hbb⟩⟩

/-- Witness of `group_local_reading`: a reader after the group ["A"] with no cached tag, and
a reader after the tag-only group [GAM] over a stream without positioning, both before the
group ["B"]. -/
theorem group_local_reading_witness :
    (MessageIterator.Reachable 20 (fun b => b == [71, 65, 77]) [1, 1, 65, 1, 1, 66] true
        ⟨([], some [65]), [], 1, 1, 0, 1, ⟨[1, 1, 65, 1, 1, 66], 3, true⟩⟩ ∧
      MessageIterator.Reachable 20 (fun b => b == [71, 65, 77]) [1, 3, 71, 65, 77, 1, 1, 66]
        false
        ⟨([71, 65, 77], none), [71, 65, 77], 1, 1, 0, 0,
          ⟨[1, 3, 71, 65, 77, 1, 1, 66], 5, false⟩⟩) ∧
    MessageIterator.following 20 (fun b => b == [71, 65, 77]) 3
        ⟨([], some [65]), [], 1, 1, 0, 1, ⟨[1, 1, 65, 1, 1, 66], 3, true⟩⟩ =
      MessageIterator.following 20 (fun b => b == [71, 65, 77]) 3
        ⟨([71, 65, 77], none), [71, 65, 77], 1, 1, 0, 0,
          ⟨[1, 3, 71, 65, 77, 1, 1, 66], 5, false⟩⟩ :=
  have ha : MessageIterator.Reachable 20 (fun b => b == [71, 65, 77]) [1, 1, 65, 1, 1, 66] true
      ⟨([], some [65]), [], 1, 1, 0, 1, ⟨[1, 1, 65, 1, 1, 66], 3, true⟩⟩ :=
    MessageIterator.Reachable.constructed 0 _ (by decide)
  have hb : MessageIterator.Reachable 20 (fun b => b == [71, 65, 77])
      [1, 3, 71, 65, 77, 1, 1, 66] false
      ⟨([71, 65, 77], none), [71, 65, 77], 1, 1, 0, 0,
        ⟨[1, 3, 71, 65, 77, 1, 1, 66], 5, false⟩⟩ :=
    MessageIterator.Reachable.constructed 0 _ (by decide)
  ⟨⟨ha, hb⟩, group_local_reading 20 (fun b => b == [71, 65, 77]) _ _ _ _ _ _ ha hb (by decide)
    (by decide) (by decide) 3⟩

/-! ## The counters of the group -/

/-- The counters after the loop body: a return without a current item leaves the count and
the index at 0; otherwise the count is the one read from the stream and the index is
1, and the loop body ends without a return only for a count other than 1. -/
theorem loop_body_counts (MAX : Nat) (reg : Bytes → Bool) (it : MessageIterator) :
    (∀ it1, MessageIterator.loop_body MAX reg it = Round.returns (Outcome.ok it1) →
      (it1.has_current = false ∧ it1.group_idx = 0 ∧ it1.group_count = 0) ∨
        ∃ count c1, (it.bgzip_in.coded (MAX * 2)).ReadVarint64 = (some count, c1) ∧
          it1.group_count = count ∧ it1.group_idx = 1) ∧
    (∀ a1, MessageIterator.loop_body MAX reg it = Round.again a1 →
      ∃ count c1, (it.bgzip_in.coded (MAX * 2)).ReadVarint64 = (some count, c1) ∧
        a1.group_count = count ∧ a1.group_idx = 1 ∧ count ≠ 1) := by
  refine ⟨?_, ?_⟩
  · intro it1 h
    unfold MessageIterator.loop_body at h
    simp only at h
    split at h
    · simp only [Round.returns.injEq, Outcome.ok.injEq] at h
      subst h
      exact Or.inl ⟨rfl, rfl, rfl⟩
    · rename_i count c1 hq1
      split at h
      · simp at h
      · split at h
        · simp at h
        · split at h
          · simp at h
          · split at h
            · simp only [Round.returns.injEq, Outcome.ok.injEq] at h
              subst h
              exact Or.inr ⟨count, c1, hq1, rfl, rfl⟩
            · split at h
              · simp only [Round.returns.injEq, Outcome.ok.injEq] at h
                subst h
                exact Or.inr ⟨count, c1, hq1, rfl, rfl⟩
              · simp at h
  · intro a1 h
    unfold MessageIterator.loop_body at h
    simp only at h
    split at h
    · simp at h
    · rename_i count c1 hq1
      split at h
      · simp at h
      · split at h
        · simp at h
        · split at h
          · simp at h
          · split at h
            · simp at h
            · split at h
              · simp at h
              · rename_i hc1
                simp only [Round.again.injEq] at h
                subst h
                exact ⟨count, c1, hq1, rfl, rfl, hc1⟩

/-- An advance that returns normally from a state with group_idx ≤ group_count, where a
group count that is read is at least 1, keeps group_idx ≤ group_count, and a current item
comes with a group_idx of at least 1. -/
theorem advance_counters (MAX : Nat) (reg : Bytes → Bool) (it it1 : MessageIterator)
    (hle : it.group_idx ≤ it.group_count) (hpos : MessageIterator.reads_positive_count MAX it)
    (hadv : MessageIterator.advance MAX reg it = Outcome.ok it1) :
    it1.group_idx ≤ it1.group_count ∧ (it1.has_current = true → 1 ≤ it1.group_idx) := by
  obtain ⟨l1, l2⟩ := loop_body_counts MAX reg it
  rcases advance_cases MAX reg it with ⟨hb, r, hl, hr⟩ | ⟨hb, a, hl, hr⟩ | ⟨hb, hr⟩
  · rw [hadv] at hr
    subst hr
    rcases l1 it1 hl with ⟨h1, h2, h3⟩ | ⟨count, c1, hq, h2, h3⟩
    · refine ⟨by omega, fun hc => ?_⟩
      rw [h1] at hc
      exact absurd hc (by decide)
    · have := hpos hb count c1 hq
      exact ⟨by omega, fun _ => by omega⟩
  · rw [hadv] at hr
    obtain ⟨count, c1, hq, h2, h3, h4⟩ := l2 a hl
    have := hpos hb count c1 hq
    obtain ⟨_, r2, _, r4, _⟩ := read_message_inv MAX a it1 hr.symm
    exact ⟨by omega, fun _ => by omega⟩
  · rw [hadv] at hr
    obtain ⟨_, r2, _, r4, _⟩ := read_message_inv MAX it it1 hr.symm
    exact ⟨by omega, fun _ => by omega⟩

/-- C32 (counter invariant).  The reader is used over a stream on which every group count
that it reads is at least 1.  In every state that it reaches by calls of the constructor,
advance, take and seek_group that returned normally, group_idx ≤ group_count holds, and with
a current item 1 ≤ group_idx ≤ group_count.  The part of operator++ that reads a message is
entered only with group_idx < group_count: directly, when the loop condition group_count ==
group_idx is false, and after the loop body has read a tag, when it leaves group_idx = 1 and
a count other than 1. -/
theorem counter_invariant (MAX : Nat) (reg : Bytes → Bool) (data : Bytes)
    (positioning : Bool) (it : MessageIterator)
    (h : MessageIterator.ReachablePositive MAX reg data positioning it) :
    it.group_idx ≤ it.group_count ∧
    (it.has_current = true → 1 ≤ it.group_idx ∧ it.group_idx ≤ it.group_count) ∧
    (it.group_count ≠ it.group_idx → it.group_idx < it.group_count) ∧
    (∀ a1, MessageIterator.reads_positive_count MAX it → it.group_count = it.group_idx →
      MessageIterator.loop_body MAX reg it = Round.again a1 →
      a1.group_idx < a1.group_count) := by
  have main : it.group_idx ≤ it.group_count ∧ (it.has_current = true → 1 ≤ it.group_idx) := by
    induction h with
    | constructed pos it hp hc =>
      exact advance_counters MAX reg _ it (le_refl _) hp hc
    | advanced it it1 _ hp ha ih =>
      exact advance_counters MAX reg it it1 ih.1 hp ha
    | taken it it1 _ hp ha ih =>
      exact advance_counters MAX reg { it with value := ([], none) } it1 ih.1 hp ha
    | sought it it1 vo found _ hp hs ih =>
      unfold MessageIterator.seek_group at hs
      split at hs
      · simp only [Outcome.ok.injEq, Prod.mk.injEq] at hs
        rw [← hs.2]
        exact ih
      · split at hs
        · simp only [Outcome.ok.injEq, Prod.mk.injEq] at hs
          rw [← hs.2]
          exact ih
        · split at hs
          · simp only [Outcome.ok.injEq, Prod.mk.injEq] at hs
            rw [← hs.2]
            exact ih
          · rename_i sought hseek
            split at hs
            · simp at hs
            · rename_i it2 hadv
              simp only [Outcome.ok.injEq, Prod.mk.injEq] at hs
              rw [← hs.2]
              exact advance_counters MAX reg
                { it with bgzip_in := sought, group_count := 0, group_idx := 0 } it2
                (le_refl _) (hp sought hseek) hadv
  refine ⟨main.1, fun hc => ⟨main.2 hc, main.1⟩, fun hne => ?_, ?_⟩
  · have := main.1
    omega
  · intro a1 hp hb hl
    obtain ⟨count, c1, hq, h2, h3, h4⟩ := (loop_body_counts MAX reg it).2 a1 hl
    have := hp hb count c1 hq
    omega

/-- Witness of `counter_invariant`: the reader constructed over the stream of the group
["A", "B"]. -/
theorem counter_invariant_witness :
    MessageIterator.ReachablePositive 20 (fun b => b == [71, 65, 77]) [2, 1, 65, 1, 66] true
      ⟨([], some [65]), [], 2, 1, 0, 1, ⟨[2, 1, 65, 1, 66], 3, true⟩⟩ ∧
    (⟨([], some [65]), [], 2, 1, 0, 1, ⟨[2, 1, 65, 1, 66], 3, true⟩⟩ :
      MessageIterator).group_idx ≤
      (⟨([], some [65]), [], 2, 1, 0, 1, ⟨[2, 1, 65, 1, 66], 3, true⟩⟩ :
        MessageIterator).group_count :=
  have hr : MessageIterator.ReachablePositive 20 (fun b => b == [71, 65, 77])
      [2, 1, 65, 1, 66] true
      ⟨([], some [65]), [], 2, 1, 0, 1, ⟨[2, 1, 65, 1, 66], 3, true⟩⟩ :=
    MessageIterator.ReachablePositive.constructed 0 _
      (fun _ count c1 hq => by
        have h2 : (BlockedGzipInputStream.coded ⟨[2, 1, 65, 1, 66], 0, true⟩ (20 * 2)).ReadVarint64 =
            (some 2, ⟨[1, 65, 1, 66], 1⟩) := by decide
        have h3 : (some count, c1) = (some 2, (⟨[1, 65, 1, 66], 1⟩ : CodedInputStream)) :=
          hq.symm.trans h2
        simp only [Prod.mk.injEq, Option.some.injEq] at h3
        omega)
      (by decide)
  ⟨hr, (counter_invariant 20 (fun b => b == [71, 65, 77]) [2, 1, 65, 1, 66] true _ hr).1⟩

open stream io

/-! ## Quality strings -/

theorem to_char_short_to_char (char_signed : Bool) (b : Nat) :
    quality_short_to_char (char_value char_signed b) = (b + 33) % 256 := by
  unfold quality_short_to_char to_char char_value
  split
  · rename_i h
    have := h.2
    omega
  · omega

theorem to_char_char_to_short (char_signed : Bool) (b : Nat) (hb : b < 256) :
    to_char (quality_char_to_short char_signed b) = (b + 223) % 256 := by
  unfold quality_char_to_short to_char char_value
  split
  · rename_i h
    have := h.2
    omega
  · omega

/-- C39 (quality encoding round trip).  For every string of bytes, string_quality_short_to_char
adds 33 to every byte and string_quality_char_to_short subtracts 33 from every byte, modulo
256 (to subtract 33 is to add 223), whether char is signed or not; both keep the length, and
each undoes the other. -/
theorem quality_round_trip (char_signed : Bool) (q : Bytes) (hq : ∀ b ∈ q, b < 256) :
    string_quality_char_to_short char_signed (string_quality_short_to_char char_signed q) = q ∧
    string_quality_short_to_char char_signed (string_quality_char_to_short char_signed q) = q ∧
    (string_quality_short_to_char char_signed q).length = q.length ∧
    (string_quality_char_to_short char_signed q).length = q.length ∧
    string_quality_short_to_char char_signed q = q.map (fun b => (b + 33) % 256) ∧
    string_quality_char_to_short char_signed q = q.map (fun b => (b + 223) % 256) ∧
    (∀ b ∈ string_quality_short_to_char char_signed q, b < 256) ∧
    (∀ b ∈ string_quality_char_to_short char_signed q, b < 256) := by
  have h1 : string_quality_short_to_char char_signed q = q.map (fun b => (b + 33) % 256) := by
    unfold string_quality_short_to_char
    exact List.map_congr_left (fun b _ => to_char_short_to_char char_signed b)
  have h2 : string_quality_char_to_short char_signed q = q.map (fun b => (b + 223) % 256) := by
    unfold string_quality_char_to_short
    exact List.map_congr_left (fun b hb => to_char_char_to_short char_signed b (hq b hb))
  have b1 : ∀ b ∈ q.map (fun b => (b + 33) % 256), b < 256 := by
    intro b hb
    obtain ⟨a, _, rfl⟩ := List.mem_map.mp hb
    omega
  have b2 : ∀ b ∈ q.map (fun b => (b + 223) % 256), b < 256 := by
    intro b hb
    obtain ⟨a, _, rfl⟩ := List.mem_map.mp hb
    omega
  have id1 : ∀ l : Bytes, (∀ b ∈ l, b < 256) →
      (l.map (fun b => (b + 33) % 256)).map (fun b => (b + 223) % 256) = l := by
    intro l hl
    rw [List.map_map]
    conv_rhs => rw [← List.map_id l]
    exact List.map_congr_left (fun b hb => by have := hl b hb; simp only [Function.comp, id]; omega)
  have id2 : ∀ l : Bytes, (∀ b ∈ l, b < 256) →
      (l.map (fun b => (b + 223) % 256)).map (fun b => (b + 33) % 256) = l := by
    intro l hl
    rw [List.map_map]
    conv_rhs => rw [← List.map_id l]
    exact List.map_congr_left (fun b hb => by have := hl b hb; simp only [Function.comp, id]; omega)
  refine ⟨?_, ?_, by rw [h1]; simp, by rw [h2]; simp, h1, h2, by rw [h1]; exact b1,
    by rw [h2]; exact b2⟩
  · rw [h1]
    unfold string_quality_char_to_short
    rw [List.map_congr_left (fun b hb => to_char_char_to_short char_signed b (b1 b hb))]
    exact id1 q hq
  · rw [h2]
    unfold string_quality_short_to_char
    rw [List.map_congr_left (fun b _ => to_char_short_to_char char_signed b)]
    exact id2 q hq

/-- Witness of `quality_round_trip`: the qualities 0, 40, 93 and the bytes 222 and 255, which
wrap around. -/
theorem quality_round_trip_witness :
    (∀ b ∈ ([0, 40, 93, 222, 255] : Bytes), b < 256) ∧
    string_quality_short_to_char true [0, 40, 93, 222, 255] = [33, 73, 126, 255, 32] ∧
    string_quality_char_to_short true [33, 73, 126, 255, 32] = [0, 40, 93, 222, 255] :=
  have hq : ∀ b ∈ ([0, 40, 93, 222, 255] : Bytes), b < 256 := by decide
  ⟨hq, (quality_round_trip true [0, 40, 93, 222, 255] hq).2.2.2.2.1.trans (by decide),
    by decide⟩

/-! ## The two conversions to GAF -/

/-- One round of the loop over the mappings, without a translation and without the cs
string: alignment_to_gaf does to the variables that it shares with alignment_to_gaf_old what
alignment_to_gaf_old does to them. -/
theorem mapping_round_agrees (lib : Library) (node_to_length : Int → Nat)
    (node_to_sequence : Int → Bool → String) (before : Option Mapping) (mapping : Mapping)
    (after : Option Mapping) (st : NewLoop) :
    (alignment_to_gaf_mapping lib node_to_length node_to_sequence none false before mapping
      after st).map NewLoop.to_old =
    alignment_to_gaf_old_mapping lib node_to_length node_to_sequence false before mapping after
      st.to_old := by
  unfold alignment_to_gaf_mapping alignment_to_gaf_old_mapping
  cases before <;> cases after <;>
    simp only [NewLoop.to_old, Bool.false_eq_true, false_and, if_false, Option.isSome_none] <;>
    cases scan_edits lib node_to_sequence mapping.position false
      ⟨st.gaf.residue_matches, st.cs_cigar_str, st.running_match_length, "",
        mapping.position.offset, st.total_to_len⟩ mapping.edit <;>
    simp only [Except.map]
  case none.none.ok scanned =>
    simp only [add_zero]
    split_ifs <;> rfl
  case some.none.ok previous scanned =>
    simp only [add_zero]
    split_ifs <;> rfl
  case none.some.ok following scanned =>
    simp only [add_zero]
    generalize substr (fetch node_to_sequence mapping.position scanned.node_seq)
      scanned.offset none = rest
    cases rest <;> split_ifs <;> rfl
  case some.some.ok previous following scanned =>
    generalize substr (fetch node_to_sequence mapping.position scanned.node_seq)
      scanned.offset none = rest
    cases rest <;> split_ifs <;> rfl

/-- The loop over the mappings, without a translation and without the cs string. -/
theorem mapping_loop_agrees (lib : Library) (node_to_length : Int → Nat)
    (node_to_sequence : Int → Bool → String) (mappings : List Mapping) :
    ∀ (before : Option Mapping) (st : NewLoop),
      (alignment_to_gaf_loop lib node_to_length node_to_sequence none false before mappings
        st).map NewLoop.to_old =
      alignment_to_gaf_old_loop lib node_to_length node_to_sequence false before mappings
        st.to_old := by
  induction mappings with
  | nil =>
    intro before st
    rfl
  | cons mapping rest ih =>
    intro before st
    simp only [alignment_to_gaf_loop, alignment_to_gaf_old_loop]
    rw [← mapping_round_agrees]
    cases alignment_to_gaf_mapping lib node_to_length node_to_sequence none false before
        mapping rest.head? st with
    | error e => rfl
    | ok st1 =>
      simp only [Except.map]
      exact ih (some mapping) st1

/-- C40 (the new and the old conversion to GAF agree without translation).  For every
alignment, node_to_length and node_to_sequence, and for all values of base_quals and
frag_links, alignment_to_gaf with a null translate_through and cs_cigar = false has the
outcome of alignment_to_gaf_old with cs_cigar = false: the same record in all its members,
or the same exception. -/
theorem gaf_conversions_agree (lib : Library) (node_to_length : Int → Nat)
    (node_to_sequence : Int → Bool → String) (aln : io.Alignment)
    (base_quals frag_links : Bool) :
    alignment_to_gaf lib node_to_length node_to_sequence aln none false base_quals frag_links =
      alignment_to_gaf_old lib node_to_length node_to_sequence aln false base_quals
        frag_links := by
  unfold alignment_to_gaf alignment_to_gaf_old
  cases hp : aln.path with
  | none => rfl
  | some mappings =>
    cases mappings with
    | nil => rfl
    | cons mapping rest =>
      simp only
      have h := mapping_loop_agrees lib node_to_length node_to_sequence (mapping :: rest) none
        ⟨start_path lib aln (start_record lib aln), "", 0, 0, 0, (0, false, 0, 0)⟩
      simp only [NewLoop.to_old] at h
      rw [← h]
      cases alignment_to_gaf_loop lib node_to_length node_to_sequence none false none
          (mapping :: rest)
          ⟨start_path lib aln (start_record lib aln), "", 0, 0, 0, (0, false, 0, 0)⟩ with
      | error e => rfl
      | ok st => rfl

open stream io

/-! ## After the end of the stream -/

end vg
